import Mathlib

/-!
Shallow embedding of the graph storage and traversal library
(`src/graph/{adjacency_matrix,adjacency_list,orthogonal_list,
adjacency_multilist,symmetric_matrix,traversal}.rs`).

Conventions:
* Rust `Vec<A>` is `List A`, `Option<A>` is `Option A`, `usize` is `Nat`.
* A Rust function that can panic (out-of-bounds indexing, explicit
  `panic!`) is embedded as an `Option`- or `Except`-valued function;
  `none` / `.error` is the panic.  A Rust function that cannot panic is
  embedded as a total function.
* Rust `while` loops over intrusive chains are embedded with an explicit
  fuel argument; the fuel used by the wrappers (`arcs.length`,
  `edges.length`, `vertex_count`, ...) is large enough that fuel
  exhaustion only happens on states whose chains are cyclic, i.e. states
  on which the Rust loop diverges.  All theorems below are stated for
  well-formed states, where the two behaviours agree.
-/

namespace LearnRust

/-! ## AdjacencyMatrix (src/graph/adjacency_matrix.rs) -/

structure AdjacencyMatrix (T W : Type) where
  vertices : Nat
  edges : Nat
  vertex_data : List (Option T)
  matrix : List (List (Option W))
deriving Repr

/-- `AdjacencyMatrix::new` -/
def mat_new (T W : Type) (n : Nat) : AdjacencyMatrix T W :=
  { vertices := n
    edges := 0
    vertex_data := List.replicate n none
    matrix := List.replicate n (List.replicate n none) }

/-- The cell `self.matrix[from][to]`; `none` when an index is out of
bounds (where the Rust indexing would panic). -/
def mat_cell (g : AdjacencyMatrix T W) (f t : Nat) : Option (Option W) :=
  (g.matrix.get? f).bind fun row => row.get? t

/-- `AdjacencyMatrix::add_edge`; `none` is the `panic!` on an
out-of-bounds vertex index (or on indexing a malformed matrix). -/
def mat_add_edge (g : AdjacencyMatrix T W) (f t : Nat) (weight : Option W) :
    Option (AdjacencyMatrix T W) :=
  if f ≥ g.vertices ∨ t ≥ g.vertices then none
  else
    match g.matrix.get? f with
    | none => none
    | some row =>
      match row.get? t with
      | none => none
      | some cur =>
        some { g with
          edges :=
            if cur.isNone && weight.isSome then g.edges + 1
            else if cur.isSome && weight.isNone then g.edges - 1
            else g.edges
          matrix := g.matrix.set f (row.set t weight) }

/-- `AdjacencyMatrix::get_edge`; the outer `Option` is the panic, the
inner one is the returned `Option<&W>`. -/
def mat_get_edge (g : AdjacencyMatrix T W) (f t : Nat) : Option (Option W) :=
  if f ≥ g.vertices ∨ t ≥ g.vertices then none
  else mat_cell g f t

/-- `AdjacencyMatrix::remove_edge`; `none` is the panic. -/
def mat_remove_edge (g : AdjacencyMatrix T W) (f t : Nat) :
    Option (AdjacencyMatrix T W) :=
  if f ≥ g.vertices ∨ t ≥ g.vertices then none
  else
    match g.matrix.get? f with
    | none => none
    | some row =>
      match row.get? t with
      | none => none
      | some cur =>
        some { g with
          edges := if cur.isSome then g.edges - 1 else g.edges
          matrix := g.matrix.set f (row.set t none) }

/-- `<AdjacencyMatrix as GraphNeighbor>::first_neighbor`: linear scan of
the columns `0..vertices` of row `vertex` for the first present weight. -/
def mat_first_neighbor (g : AdjacencyMatrix T W) (vertex : Nat) : Option Nat :=
  if vertex ≥ g.vertices then none
  else
    match g.matrix.get? vertex with
    | none => none
    | some row => (List.range g.vertices).find? fun i => (row.getD i none).isSome

/-- `<AdjacencyMatrix as GraphNeighbor>::next_neighbor`: linear scan of
the columns `current_neighbor+1..vertices`. -/
def mat_next_neighbor (g : AdjacencyMatrix T W) (vertex cur : Nat) : Option Nat :=
  if vertex ≥ g.vertices ∨ cur ≥ g.vertices then none
  else
    match g.matrix.get? vertex with
    | none => none
    | some row =>
      (List.range' (cur + 1) (g.vertices - (cur + 1))).find? fun i =>
        (row.getD i none).isSome

/-- Shape of every matrix reachable through the public API: an
`n × n` grid. -/
def MatWf (g : AdjacencyMatrix T W) : Prop :=
  g.matrix.length = g.vertices ∧ ∀ row ∈ g.matrix, row.length = g.vertices

/-! ## SymmetricMatrix (src/graph/symmetric_matrix.rs) -/

structure SymmetricMatrix where
  size : Nat
  elements : List Int
deriving Repr, DecidableEq

/-- `SymmetricMatrix::new` -/
def sm_new (size : Nat) : SymmetricMatrix :=
  { size := size, elements := List.replicate (size * (size + 1) / 2) 0 }

/-- `SymmetricMatrix::to_index`; `none` is the bounds panic.  Swaps so
the larger coordinate is the row, then uses the lower-triangular formula. -/
def sm_to_index (m : SymmetricMatrix) (row col : Nat) : Option Nat :=
  if row ≥ m.size ∨ col ≥ m.size then none
  else
    let rc := if row ≥ col then (row, col) else (col, row)
    some (rc.1 * (rc.1 + 1) / 2 + rc.2)

/-- `SymmetricMatrix::set`; `none` is a panic (from `to_index` or from
indexing `elements`). -/
def sm_set (m : SymmetricMatrix) (row col : Nat) (value : Int) :
    Option SymmetricMatrix :=
  (sm_to_index m row col).bind fun index =>
    if index < m.elements.length then
      some { m with elements := m.elements.set index value }
    else none

/-- `SymmetricMatrix::get`; `none` is a panic. -/
def sm_get (m : SymmetricMatrix) (row col : Nat) : Option Int :=
  (sm_to_index m row col).bind fun index => m.elements.get? index

/-- `SymmetricMatrix::from_matrix`; `none` is the "must be square" panic
(or a panic of an inner `set`, which cannot fire on a square input). -/
def sm_from_matrix (matrix : List (List Int)) : Option SymmetricMatrix :=
  let size := matrix.length
  if matrix.all fun row => row.length == size then
    (List.range size).foldlM
      (fun acc i =>
        (List.range (i + 1)).foldlM
          (fun acc2 j => sm_set acc2 i j ((matrix.getD i []).getD j 0)) acc)
      (sm_new size)
  else none

/-- `SymmetricMatrix::to_matrix`: rebuilds the full square through `get`. -/
def sm_to_matrix (m : SymmetricMatrix) : Option (List (List Int)) :=
  (List.range m.size).mapM fun i =>
    (List.range m.size).mapM fun j => sm_get m i j

/-! ## AdjacencyList (src/graph/adjacency_list.rs) -/

structure AdjacencyList (T W : Type) where
  vertices : Nat
  edges : Nat
  vertex_data : List (Option T)
  adj : List (List (Nat × W))
deriving Repr

/-- `AdjacencyList::new` -/
def al_new (T W : Type) (n : Nat) : AdjacencyList T W :=
  { vertices := n
    edges := 0
    vertex_data := List.replicate n none
    adj := List.replicate n [] }

/-- The in-place weight update performed by `AdjacencyList::add_edge`
when `iter_mut().find(|(v, _)| *v == to)` hits: the first pair with
target `t` gets weight `w`, the rest of the row is untouched. -/
def al_set_weight (t : Nat) (w : W) : List (Nat × W) → List (Nat × W)
  | [] => []
  | p :: rest => if p.1 == t then (p.1, w) :: rest else p :: al_set_weight t w rest

/-- `AdjacencyList::add_edge`; `none` is the bounds panic. -/
def al_add_edge (g : AdjacencyList T W) (f t : Nat) (weight : W) :
    Option (AdjacencyList T W) :=
  if f ≥ g.vertices ∨ t ≥ g.vertices then none
  else
    match g.adj.get? f with
    | none => none
    | some row =>
      match row.find? (fun p => p.1 == t) with
      | some _ => some { g with adj := g.adj.set f (al_set_weight t weight row) }
      | none =>
        some { g with
          adj := g.adj.set f (row ++ [(t, weight)])
          edges := g.edges + 1 }

/-- `AdjacencyList::get_edge`; outer `Option` is the panic. -/
def al_get_edge (g : AdjacencyList T W) (f t : Nat) : Option (Option W) :=
  if f ≥ g.vertices ∨ t ≥ g.vertices then none
  else
    match g.adj.get? f with
    | none => none
    | some row => some ((row.find? (fun p => p.1 == t)).map (·.2))

/-- `AdjacencyList::remove_edge`; `none` is the bounds panic. -/
def al_remove_edge (g : AdjacencyList T W) (f t : Nat) :
    Option (AdjacencyList T W) :=
  if f ≥ g.vertices ∨ t ≥ g.vertices then none
  else
    match g.adj.get? f with
    | none => none
    | some row =>
      match row.findIdx? (fun p => p.1 == t) with
      | some idx =>
        some { g with
          adj := g.adj.set f (row.eraseIdx idx)
          edges := g.edges - 1 }
      | none => some g

/-- `<AdjacencyList as GraphNeighbor>::first_neighbor`: head of the row. -/
def al_first_neighbor (g : AdjacencyList T W) (vertex : Nat) : Option Nat :=
  if vertex ≥ g.vertices then none
  else
    match g.adj.get? vertex with
    | none => none
    | some row => row.head?.map (·.1)

/-- The scan of `<AdjacencyList as GraphNeighbor>::next_neighbor`: find
`cur` in the row, return the following entry's target. -/
def al_next_in (cur : Nat) : List (Nat × W) → Option Nat
  | [] => none
  | p :: rest => if p.1 == cur then rest.head?.map (·.1) else al_next_in cur rest

/-- `<AdjacencyList as GraphNeighbor>::next_neighbor`. -/
def al_next_neighbor (g : AdjacencyList T W) (vertex cur : Nat) : Option Nat :=
  if vertex ≥ g.vertices then none
  else
    match g.adj.get? vertex with
    | none => none
    | some row => al_next_in cur row

/-- Shape of every adjacency list reachable through the public API. -/
def AlWf (g : AdjacencyList T W) : Prop :=
  g.adj.length = g.vertices ∧ ∀ row ∈ g.adj, ∀ p ∈ row, p.1 < g.vertices

/-! ## OrthogonalList (src/graph/orthogonal_list.rs) -/

structure OLArc (W : Type) where
  tail_vex : Nat
  head_vex : Nat
  head_link : Option Nat
  tail_link : Option Nat
  weight : W
deriving Repr

structure OLVertex (T : Type) where
  data : T
  first_in : Option Nat
  first_out : Option Nat
deriving Repr

structure OrthogonalList (T W : Type) where
  vertices : List (OLVertex T)
  arcs : List (Option (OLArc W))
  free_arc_head : Option Nat
  edge_count : Nat
deriving Repr

/-- `OrthogonalList::new` -/
def ol_new (T W : Type) : OrthogonalList T W :=
  { vertices := [], arcs := [], free_arc_head := none, edge_count := 0 }

/-- `OrthogonalList::add_vertex`: returns the updated list and the new
vertex's index. -/
def ol_add_vertex (g : OrthogonalList T W) (data : T) :
    OrthogonalList T W × Nat :=
  ({ g with vertices := g.vertices ++ [⟨data, none, none⟩] }, g.vertices.length)

/-- `OrthogonalList::get_vertex_data` (`Vec::get`, no panic). -/
def ol_get_vertex_data (g : OrthogonalList T W) (index : Nat) : Option T :=
  (g.vertices.get? index).map (·.data)

/-- `self.vertices[v].first_out` (the callers below only read it for a
bounds-checked `v`, where `get?` is `some`). -/
def ol_first_out (g : OrthogonalList T W) (v : Nat) : Option Nat :=
  match g.vertices.get? v with
  | some vx => vx.first_out
  | none => none

/-- `self.vertices[v].first_in`. -/
def ol_first_in (g : OrthogonalList T W) (v : Nat) : Option Nat :=
  match g.vertices.get? v with
  | some vx => vx.first_in
  | none => none

/-- `OrthogonalList::alloc_arc`: both branches of the source push a
fresh slot; the free list is inspected but never used. -/
def ol_alloc_arc (g : OrthogonalList T W) (arc : OLArc W) :
    OrthogonalList T W × Nat :=
  match g.free_arc_head with
  | some _ => ({ g with arcs := g.arcs ++ [some arc] }, g.arcs.length)
  | none => ({ g with arcs := g.arcs ++ [some arc] }, g.arcs.length)

/-- `self.vertices[v].first_out = link` (callers have checked `v`). -/
def ol_set_first_out (vs : List (OLVertex T)) (v : Nat) (link : Option Nat) :
    List (OLVertex T) :=
  match vs.get? v with
  | some vx => vs.set v { vx with first_out := link }
  | none => vs

/-- `self.vertices[v].first_in = link`. -/
def ol_set_first_in (vs : List (OLVertex T)) (v : Nat) (link : Option Nat) :
    List (OLVertex T) :=
  match vs.get? v with
  | some vx => vs.set v { vx with first_in := link }
  | none => vs

/-- `OrthogonalList::add_edge`; `none` is the bounds panic.  Head
insertion into `from`'s out-chain and `to`'s in-chain. -/
def ol_add_edge (g : OrthogonalList T W) (f t : Nat) (weight : W) :
    Option (OrthogonalList T W) :=
  if f ≥ g.vertices.length ∨ t ≥ g.vertices.length then none
  else
    let tl := ol_first_out g f
    let hl := ol_first_in g t
    let (g1, arc_idx) := ol_alloc_arc g ⟨f, t, hl, tl, weight⟩
    let g2 := { g1 with vertices := ol_set_first_out g1.vertices f (some arc_idx) }
    let g3 := { g2 with vertices := ol_set_first_in g2.vertices t (some arc_idx) }
    some { g3 with edge_count := g3.edge_count + 1 }

/-- The `while let` walk of `OrthogonalList::get_edge` along `from`'s
out-chain.  A dead slot stops the walk (`else break` in the source); an
out-of-range slot index would panic in the source and cannot occur on a
well-formed state. -/
def ol_get_edge_go (arcs : List (Option (OLArc W))) (t : Nat) :
    Nat → Option Nat → Option W
  | _, none => none
  | 0, some _ => none
  | fuel + 1, some idx =>
    match arcs.get? idx with
    | some (some arc) =>
      if arc.head_vex == t then some arc.weight
      else ol_get_edge_go arcs t fuel arc.tail_link
    | _ => none

/-- `OrthogonalList::get_edge`: out-of-range endpoints are "not found". -/
def ol_get_edge (g : OrthogonalList T W) (f t : Nat) : Option W :=
  if f ≥ g.vertices.length ∨ t ≥ g.vertices.length then none
  else ol_get_edge_go g.arcs t g.arcs.length (ol_first_out g f)

/-- The first loop of `OrthogonalList::remove_edge`: walk `from`'s
out-chain for the first arc with head `t`; returns
`(prev, target_idx_opt, next_link)`. -/
def ol_find_out (arcs : List (Option (OLArc W))) (t : Nat) :
    Nat → Option Nat → Option Nat → Option Nat × Option Nat × Option Nat
  | _, prev, none => (prev, none, none)
  | 0, prev, some _ => (prev, none, none)
  | fuel + 1, prev, some idx =>
    match arcs.get? idx with
    | some (some arc) =>
      if arc.head_vex == t then (prev, some idx, arc.tail_link)
      else ol_find_out arcs t fuel (some idx) arc.tail_link
    | _ => (prev, none, none)

/-- The second loop of `OrthogonalList::remove_edge`: walk `to`'s
in-chain for the slot index `target`; returns
`(prev, found_in_list, next_link_in)`. -/
def ol_find_in (arcs : List (Option (OLArc W))) (target : Nat) :
    Nat → Option Nat → Option Nat → Option Nat × Bool × Option Nat
  | _, prev, none => (prev, false, none)
  | 0, prev, some _ => (prev, false, none)
  | fuel + 1, prev, some idx =>
    match arcs.get? idx with
    | some (some arc) =>
      if idx == target then (prev, true, arc.head_link)
      else ol_find_in arcs target fuel (some idx) arc.head_link
    | _ => (prev, false, none)

/-- The predecessor patch `prev_arc.tail_link = next_link`, through
`arcs.get_mut(p)` (silently does nothing on a missing or dead slot,
exactly like the source's `if let` nesting). -/
def ol_patch_tail (arcs : List (Option (OLArc W))) (p : Nat)
    (link : Option Nat) : List (Option (OLArc W)) :=
  match arcs.get? p with
  | some (some a) => arcs.set p (some { a with tail_link := link })
  | _ => arcs

/-- The predecessor patch `prev_arc.head_link = next_link_in`. -/
def ol_patch_head (arcs : List (Option (OLArc W))) (p : Nat)
    (link : Option Nat) : List (Option (OLArc W)) :=
  match arcs.get? p with
  | some (some a) => arcs.set p (some { a with head_link := link })
  | _ => arcs

/-- `OrthogonalList::remove_edge`: out-of-range endpoints are a silent
no-op; otherwise locate the arc in the out-chain, splice it out of both
chains, mark the slot empty and decrement the counter. -/
def ol_remove_edge (g : OrthogonalList T W) (f t : Nat) :
    OrthogonalList T W :=
  if f ≥ g.vertices.length ∨ t ≥ g.vertices.length then g
  else
    match ol_find_out g.arcs t g.arcs.length none (ol_first_out g f) with
    | (_, none, _) => g
    | (prev, some target_idx, next_link) =>
      let g1 :=
        match prev with
        | some p => { g with arcs := ol_patch_tail g.arcs p next_link }
        | none => { g with vertices := ol_set_first_out g.vertices f next_link }
      let g2 :=
        match ol_find_in g1.arcs target_idx g1.arcs.length none (ol_first_in g1 t) with
        | (_, false, _) => g1
        | (prev2, true, next_link_in) =>
          match prev2 with
          | some p => { g1 with arcs := ol_patch_head g1.arcs p next_link_in }
          | none => { g1 with vertices := ol_set_first_in g1.vertices t next_link_in }
      { g2 with
        arcs := g2.arcs.set target_idx none
        edge_count := g2.edge_count - 1 }

/-! ## AdjacencyMultilist (src/graph/adjacency_multilist.rs) -/

structure AMLEdge (W : Type) where
  ivex : Nat
  jvex : Nat
  ilink : Option Nat
  jlink : Option Nat
  weight : W
deriving Repr

structure AMLVertex (T : Type) where
  data : T
  first_edge : Option Nat
deriving Repr

structure AdjacencyMultilist (T W : Type) where
  vertices : List (AMLVertex T)
  edges : List (Option (AMLEdge W))
  edge_count : Nat
deriving Repr

/-- `AdjacencyMultilist::new` -/
def aml_new (T W : Type) : AdjacencyMultilist T W :=
  { vertices := [], edges := [], edge_count := 0 }

/-- `AdjacencyMultilist::add_vertex`. -/
def aml_add_vertex (g : AdjacencyMultilist T W) (data : T) :
    AdjacencyMultilist T W × Nat :=
  ({ g with vertices := g.vertices ++ [⟨data, none⟩] }, g.vertices.length)

/-- `self.vertices[v].first_edge` (callers have checked `v`). -/
def aml_first_edge (g : AdjacencyMultilist T W) (v : Nat) : Option Nat :=
  match g.vertices.get? v with
  | some vx => vx.first_edge
  | none => none

/-- `self.vertices[v].first_edge = link`. -/
def aml_set_first_edge (vs : List (AMLVertex T)) (v : Nat)
    (link : Option Nat) : List (AMLVertex T) :=
  match vs.get? v with
  | some vx => vs.set v { vx with first_edge := link }
  | none => vs

/-- `AdjacencyMultilist::add_edge`; `none` is a panic: out-of-bounds
endpoint, or the rejected self loop `i == j`. -/
def aml_add_edge (g : AdjacencyMultilist T W) (i j : Nat) (weight : W) :
    Option (AdjacencyMultilist T W) :=
  if i ≥ g.vertices.length ∨ j ≥ g.vertices.length then none
  else if i == j then none
  else
    let il := aml_first_edge g i
    let jl := aml_first_edge g j
    let edge : AMLEdge W := ⟨i, j, il, jl, weight⟩
    let es := g.edges ++ [some edge]
    let edge_idx := g.edges.length
    let vs1 := aml_set_first_edge g.vertices i (some edge_idx)
    let vs2 := aml_set_first_edge vs1 j (some edge_idx)
    some { vertices := vs2, edges := es, edge_count := g.edge_count + 1 }

/-- The chain step used throughout the multilist: from the edge record
`e`, continue through `ilink` when the chain belongs to `e.ivex`, else
through `jlink`. -/
def aml_link (e : AMLEdge W) (vertex : Nat) : Option Nat :=
  if e.ivex == vertex then e.ilink else e.jlink

/-- The search loop of `AdjacencyMultilist::remove_edge`: walk `i`'s
chain for a record matching `(i,j)` in either stored orientation. -/
def aml_find_edge (edges : List (Option (AMLEdge W))) (i j : Nat) :
    Nat → Option Nat → Option Nat
  | _, none => none
  | 0, some _ => none
  | fuel + 1, some idx =>
    match edges.get? idx with
    | some (some e) =>
      if (e.ivex == i && e.jvex == j) || (e.ivex == j && e.jvex == i) then some idx
      else aml_find_edge edges i j fuel (aml_link e i)
    | _ => none

/-- The search loop of `AdjacencyMultilist::remove_edge_from_vertex`:
walk `vertex`'s chain for the slot index `target`; returns
`(prev, next_link, found)`.  On a dead slot the source's dummy tuple
makes the loop exit unfound on the next iteration. -/
def aml_rev_go (edges : List (Option (AMLEdge W))) (vertex target : Nat) :
    Nat → Option Nat → Option Nat → Option Nat × Option Nat × Bool
  | _, prev, none => (prev, none, false)
  | 0, prev, some _ => (prev, none, false)
  | fuel + 1, prev, some idx =>
    match edges.get? idx with
    | some (some e) =>
      if idx == target then (prev, aml_link e vertex, true)
      else aml_rev_go edges vertex target fuel (some idx) (aml_link e vertex)
    | _ => (prev, none, false)

/-- The predecessor patch of `remove_edge_from_vertex`: set the link
field of `p` that belongs to `vertex`'s chain. -/
def aml_patch (edges : List (Option (AMLEdge W))) (vertex p : Nat)
    (link : Option Nat) : List (Option (AMLEdge W)) :=
  match edges.get? p with
  | some (some e) =>
    if e.ivex == vertex then edges.set p (some { e with ilink := link })
    else edges.set p (some { e with jlink := link })
  | _ => edges

/-- `AdjacencyMultilist::remove_edge_from_vertex`. -/
def aml_remove_edge_from_vertex (g : AdjacencyMultilist T W)
    (vertex target : Nat) : AdjacencyMultilist T W :=
  match aml_rev_go g.edges vertex target g.edges.length none (aml_first_edge g vertex) with
  | (_, _, false) => g
  | (prev, next_link, true) =>
    match prev with
    | some p => { g with edges := aml_patch g.edges vertex p next_link }
    | none => { g with vertices := aml_set_first_edge g.vertices vertex next_link }

/-- `AdjacencyMultilist::remove_edge`: out-of-range endpoints are a
silent no-op; otherwise find the record, splice it out of both
endpoints' chains, empty the slot and decrement the counter. -/
def aml_remove_edge (g : AdjacencyMultilist T W) (i j : Nat) :
    AdjacencyMultilist T W :=
  if i ≥ g.vertices.length ∨ j ≥ g.vertices.length then g
  else
    match aml_find_edge g.edges i j g.edges.length (aml_first_edge g i) with
    | none => g
    | some target_idx =>
      let g1 := aml_remove_edge_from_vertex g i target_idx
      let g2 := aml_remove_edge_from_vertex g1 j target_idx
      { g2 with
        edges := g2.edges.set target_idx none
        edge_count := g2.edge_count - 1 }

/-- Modelled from the spec: the source `AdjacencyMultilist` has no
`get_edge`, but §8 of the spec quantifies "after `add_edge(u,v,w)` then
`get_edge(u,v)`, the returned weight equals `w`" over all four
representations.  Following §4.4's description of edge lookup ("walks
`i`'s chain comparing against both endpoint orderings `(i,j)` or
`(j,i)`"), the lookup is the same chain search `remove_edge` uses, here
returning the matched record's weight. -/
def aml_get_edge (g : AdjacencyMultilist T W) (i j : Nat) : Option W :=
  if i ≥ g.vertices.length ∨ j ≥ g.vertices.length then none
  else
    match aml_find_edge g.edges i j g.edges.length (aml_first_edge g i) with
    | none => none
    | some idx =>
      match g.edges.get? idx with
      | some (some e) => some e.weight
      | _ => none

/-! ## Traversal (src/graph/traversal.rs)

`breadth_first_search` is generic over a `GraphNeighbor`.  The inner
`while let` enumerates the neighbors of the dequeued vertex through
`first_neighbor` / `next_neighbor`; this enumeration reads only the
(immutable) graph, never the visited array, so it is embedded as a
pre-computed neighbor list per vertex (`enum_neighbors` below builds
that list from a `first`/`next` pair).  The visitor of the theorems is
`CollectVisitor`, whose state is the `order` list.  Panics (the
unchecked `visited[start]` and `visited[next]` indexing) are `.error`,
carrying the visit order at the moment of the panic. -/

structure BfsState where
  visited : List Bool
  order : List Nat
  queue : List Nat
deriving Repr

/-- One pass of the inner `while let Some(next) = neighbor` loop over
the pre-computed neighbor list: each unvisited neighbor is marked,
visited and enqueued; `visited[next]` on an out-of-range index is the
panic (`.error`). -/
def bfs_process : List Nat → BfsState → Except (List Nat) BfsState
  | [], st => .ok st
  | nb :: rest, st =>
    match st.visited.get? nb with
    | none => .error st.order
    | some b =>
      if b then bfs_process rest st
      else
        bfs_process rest
          { visited := st.visited.set nb true
            order := st.order ++ [nb]
            queue := st.queue ++ [nb] }

/-- The `while let Some(current) = queue.pop_front()` loop.  The fuel
`vertex_count` passed by `breadth_first_search` below always suffices:
every enqueue marks a previously-false cell of the `vertex_count`-sized
visited array, so the loop dequeues at most `vertex_count` times. -/
def bfs_loop (nbrs : Nat → List Nat) : Nat → BfsState → Except (List Nat) BfsState
  | 0, st => .ok st
  | fuel + 1, st =>
    match st.queue with
    | [] => .ok st
    | current :: rest =>
      match bfs_process (nbrs current) { st with queue := rest } with
      | .error e => .error e
      | .ok st' => bfs_loop nbrs fuel st'

/-- `breadth_first_search` run against a `CollectVisitor`: `.ok` returns
the visit order, `.error` is a panic carrying the visits made before it. -/
def breadth_first_search (nbrs : Nat → List Nat) (start vertex_count : Nat) :
    Except (List Nat) (List Nat) :=
  let visited := List.replicate vertex_count false
  match visited.get? start with
  | none => .error []
  | some _ =>
    match bfs_loop nbrs vertex_count
        { visited := visited.set start true
          order := [start]
          queue := [start] } with
    | .error e => .error e
    | .ok st => .ok st.order

/-- The neighbor sequence produced by a `GraphNeighbor` pair
(`first_neighbor`, then repeated `next_neighbor`), with fuel for the
repeated calls. -/
def enum_neighbors_go (next : Nat → Nat → Option Nat) (v : Nat) :
    Nat → Nat → List Nat
  | 0, _ => []
  | fuel + 1, cur =>
    match next v cur with
    | none => []
    | some nb => nb :: enum_neighbors_go next v fuel nb

/-- `first_neighbor v`, then repeated `next_neighbor v`. -/
def enum_neighbors (first : Nat → Option Nat) (next : Nat → Nat → Option Nat)
    (fuel v : Nat) : List Nat :=
  match first v with
  | none => []
  | some a => a :: enum_neighbors_go next v fuel a

/-- The neighbor enumeration of `AdjacencyMatrix`: `next_neighbor` only
returns strictly larger column indices below `g.vertices`, so
`g.vertices` steps of fuel never run out. -/
def mat_neighbors (g : AdjacencyMatrix T W) (v : Nat) : List Nat :=
  enum_neighbors (mat_first_neighbor g) (mat_next_neighbor g) g.vertices v

/-- `breadth_first_search` over an `AdjacencyMatrix` (its
`GraphNeighbor` instance) and a `CollectVisitor`. -/
def mat_bfs (g : AdjacencyMatrix T W) (start vertex_count : Nat) :
    Except (List Nat) (List Nat) :=
  breadth_first_search (mat_neighbors g) start vertex_count

/-- The neighbor enumeration of `AdjacencyList`: each `next_neighbor`
step moves to the entry following the current target, so `row.length`
steps of fuel never run out on rows with pairwise-distinct targets. -/
def al_neighbors (g : AdjacencyList T W) (v : Nat) : List Nat :=
  enum_neighbors (al_first_neighbor g) (al_next_neighbor g)
    (g.adj.getD v []).length v

/-- `breadth_first_search` over an `AdjacencyList`. -/
def al_bfs (g : AdjacencyList T W) (start vertex_count : Nat) :
    Except (List Nat) (List Nat) :=
  breadth_first_search (al_neighbors g) start vertex_count

/-! ## Specification-side definitions used by the theorems -/

/-- Whether row `v` has a present weight in column `i`
(`self.matrix[v][i].is_some()`). -/
def mat_has_edge (g : AdjacencyMatrix T W) (v i : Nat) : Bool :=
  match mat_cell g v i with
  | some w => w.isSome
  | none => false

/-- Reachability through a neighbor-enumeration function: the reflexive
transitive closure of "`b` is enumerated among `a`'s neighbors". -/
def Reaches (nbrs : Nat → List Nat) (s v : Nat) : Prop :=
  Relation.ReflTransGen (fun a b => b ∈ nbrs a) s v

/-- The live arc stored in slot `i`, if any. -/
def arcAt (arcs : List (Option (OLArc W))) (i : Nat) : Option (OLArc W) :=
  (arcs.get? i).bind id

/-- What an out-chain walk can observe about slot `i`: slot existence,
liveness, and the `tail_link` field. -/
def out_view (arcs : List (Option (OLArc W))) (i : Nat) :
    Option (Option (Option Nat)) :=
  (arcs.get? i).map (Option.map OLArc.tail_link)

/-- Same for in-chain walks (`head_link`). -/
def in_view (arcs : List (Option (OLArc W))) (i : Nat) :
    Option (Option (Option Nat)) :=
  (arcs.get? i).map (Option.map OLArc.head_link)

/-- `OutChain arcs c L`: starting from the chain head `c` and following
`tail_link`s, the walk passes exactly through the live slots `L` and
ends at `none`.  This is the declarative shape of one vertex's out-chain. -/
inductive OutChain (arcs : List (Option (OLArc W))) : Option Nat → List Nat → Prop
  | nil : OutChain arcs none []
  | cons {idx : Nat} {a : OLArc W} {rest : List Nat} :
      arcAt arcs idx = some a → OutChain arcs a.tail_link rest →
      OutChain arcs (some idx) (idx :: rest)

/-- `InChain arcs c L`: the in-chain analogue, following `head_link`s. -/
inductive InChain (arcs : List (Option (OLArc W))) : Option Nat → List Nat → Prop
  | nil : InChain arcs none []
  | cons {idx : Nat} {a : OLArc W} {rest : List Nat} :
      arcAt arcs idx = some a → InChain arcs a.head_link rest →
      InChain arcs (some idx) (idx :: rest)

/-- Whether slot `i` holds a live arc with head vertex `t` (the match
test of `get_edge` / `remove_edge`). -/
def ol_head_match (arcs : List (Option (OLArc W))) (t i : Nat) : Bool :=
  match arcAt arcs i with
  | some a => a.head_vex == t
  | none => false

/-- Well-formedness of an `OrthogonalList`, satisfied by every state
reachable through the public API: every vertex's two chains are
`nil`-terminated walks through pairwise-distinct live slots all tagged
with that vertex, every live arc has in-range endpoints, and every live
arc occurs in the out-chain of its tail and the in-chain of its head. -/
structure OLWf (g : OrthogonalList T W) : Prop where
  out_chains : ∀ u, u < g.vertices.length →
    ∃ L, OutChain g.arcs (ol_first_out g u) L ∧ L.Nodup ∧
      ∀ i ∈ L, ∀ a, arcAt g.arcs i = some a → a.tail_vex = u
  in_chains : ∀ u, u < g.vertices.length →
    ∃ L, InChain g.arcs (ol_first_in g u) L ∧ L.Nodup ∧
      ∀ i ∈ L, ∀ a, arcAt g.arcs i = some a → a.head_vex = u
  arc_bounds : ∀ i a, arcAt g.arcs i = some a →
    a.tail_vex < g.vertices.length ∧ a.head_vex < g.vertices.length
  mem_out : ∀ i a, arcAt g.arcs i = some a →
    ∀ L, OutChain g.arcs (ol_first_out g a.tail_vex) L → i ∈ L
  mem_in : ∀ i a, arcAt g.arcs i = some a →
    ∀ L, InChain g.arcs (ol_first_in g a.head_vex) L → i ∈ L

/-- The live edge record stored in slot `i`, if any. -/
def edgeAt (edges : List (Option (AMLEdge W))) (i : Nat) : Option (AMLEdge W) :=
  (edges.get? i).bind id

/-- What a chain walk for `vertex` observes about slot `i`: slot
existence, liveness, and the link field belonging to `vertex`. -/
def aml_view (edges : List (Option (AMLEdge W))) (vertex i : Nat) :
    Option (Option (Option Nat)) :=
  (edges.get? i).map (Option.map fun e => aml_link e vertex)

/-- `AmlChain edges u c L`: from chain head `c`, following each
record's link field for `u`, the walk passes exactly through the live
slots `L` and ends at `none`. -/
inductive AmlChain (edges : List (Option (AMLEdge W))) (u : Nat) :
    Option Nat → List Nat → Prop
  | nil : AmlChain edges u none []
  | cons {idx : Nat} {e : AMLEdge W} {rest : List Nat} :
      edgeAt edges idx = some e → AmlChain edges u (aml_link e u) rest →
      AmlChain edges u (some idx) (idx :: rest)

/-- Whether slot `idx` holds a live record joining `i` and `j` in either
orientation (the match test of the multilist's `remove_edge`). -/
def aml_pair_match (edges : List (Option (AMLEdge W))) (i j idx : Nat) : Bool :=
  match edgeAt edges idx with
  | some e => (e.ivex == i && e.jvex == j) || (e.ivex == j && e.jvex == i)
  | none => false

/-- Well-formedness of an `AdjacencyMultilist`, satisfied by every state
reachable through the public API. -/
structure AmlWf (g : AdjacencyMultilist T W) : Prop where
  chains : ∀ u, u < g.vertices.length →
    ∃ L, AmlChain g.edges u (aml_first_edge g u) L ∧ L.Nodup ∧
      ∀ i ∈ L, ∀ e, edgeAt g.edges i = some e → e.ivex = u ∨ e.jvex = u
  edge_bounds : ∀ i e, edgeAt g.edges i = some e →
    e.ivex < g.vertices.length ∧ e.jvex < g.vertices.length ∧ e.ivex ≠ e.jvex
  mem_i : ∀ i e, edgeAt g.edges i = some e →
    ∀ L, AmlChain g.edges e.ivex (aml_first_edge g e.ivex) L → i ∈ L
  mem_j : ∀ i e, edgeAt g.edges i = some e →
    ∀ L, AmlChain g.edges e.jvex (aml_first_edge g e.jvex) L → i ∈ L

/-- The loop invariant of `bfs_loop`: the visited array has the caller's
size and agrees with the visit order, visited vertices are in range,
pairwise distinct and reachable, queued vertices are visited, and every
visited vertex no longer in the queue has had all its neighbors visited. -/
structure BfsInv (nbrs : Nat → List Nat) (start count : Nat) (st : BfsState) : Prop where
  vlen : st.visited.length = count
  nodup : st.order.Nodup
  order_lt : ∀ v ∈ st.order, v < count
  visited_iff : ∀ v, st.visited.get? v = some true ↔ v ∈ st.order
  queue_sub : ∀ v ∈ st.queue, v ∈ st.order
  reach : ∀ v ∈ st.order, Reaches nbrs start v
  processed : ∀ u ∈ st.order, u ∉ st.queue → ∀ nb, nb ∈ nbrs u → nb ∈ st.order

/-! ## Concrete states used by witnesses and counterexamples -/

/-- The 5-vertex directed graph of the BFS determinism test:
edges (0,1), (0,2), (1,3), (1,4), (2,4), each of weight 1. -/
def c3_graph : Option (AdjacencyMatrix Unit Nat) :=
  (mat_add_edge (mat_new Unit Nat 5) 0 1 (some 1)).bind fun g =>
  (mat_add_edge g 0 2 (some 1)).bind fun g =>
  (mat_add_edge g 1 3 (some 1)).bind fun g =>
  (mat_add_edge g 1 4 (some 1)).bind fun g =>
  mat_add_edge g 2 4 (some 1)

/-- Two vertices and the arc (0,1) added twice, with weight 10 then 20. -/
def c1_dup_graph : Option (OrthogonalList Nat Nat) :=
  let g := (ol_add_vertex (ol_new Nat Nat) 0).1
  let g := (ol_add_vertex g 1).1
  (ol_add_edge g 0 1 10).bind fun g => ol_add_edge g 0 1 20

/-- An orthogonal list with two vertices and no arcs. -/
def ol_demo0 : OrthogonalList Nat Nat :=
  { vertices := [⟨0, none, none⟩, ⟨1, none, none⟩]
    arcs := []
    free_arc_head := none
    edge_count := 0 }

/-- An orthogonal list with two vertices and the single arc 0 → 1
(the state after `new`, two `add_vertex` and `add_edge(0, 1, 7)`). -/
def ol_demo : OrthogonalList Nat Nat :=
  { vertices := [⟨0, none, some 0⟩, ⟨1, some 0, none⟩]
    arcs := [some ⟨0, 1, none, none, 7⟩]
    free_arc_head := none
    edge_count := 1 }

/-- A multilist with two vertices and the single edge (0,1) of weight 5. -/
def aml_demo : AdjacencyMultilist Nat Nat :=
  { vertices := [⟨0, some 0⟩, ⟨1, some 0⟩]
    edges := [some ⟨0, 1, none, none, 5⟩]
    edge_count := 1 }

/-- A multilist with two vertices and no edges. -/
def aml_demo0 : AdjacencyMultilist Nat Nat :=
  { vertices := [⟨0, none⟩, ⟨1, none⟩]
    edges := []
    edge_count := 0 }

/-- The 2-vertex matrix holding edge (0,1) of weight 5 (the state after
`new(2)` and `add_edge(0, 1, Some(5))`). -/
def c5_g1 : AdjacencyMatrix Unit Nat :=
  { vertices := 2
    edges := 1
    vertex_data := [none, none]
    matrix := [[none, some 5], [none, none]] }

/-! ## Shared list helpers -/

theorem find?_eq_head?_of_filter (p : α → Bool) :
    ∀ l : List α, l.find? p = (l.filter p).head? := by
  intro l
  induction l with
  | nil => rfl
  | cons a l ih =>
    by_cases h : p a
    · rw [List.find?_cons_of_pos _ h, List.filter_cons_of_pos h]
      rfl
    · rw [List.find?_cons_of_neg _ h, List.filter_cons_of_neg h, ih]

theorem mapM_option_of {α β : Type} (f : α → Option β) (g : α → β) :
    ∀ l : List α, (∀ a ∈ l, f a = some (g a)) → l.mapM f = some (l.map g) := by
  intro l
  induction l with
  | nil => intro _; rfl
  | cons a l ih =>
    intro h
    rw [List.mapM_cons, h a (by simp), ih fun x hx => h x (by simp [hx])]
    rfl

theorem replicate_get? (a : α) (n i : Nat) :
    (List.replicate n a).get? i = if i < n then some a else none := by
  simp [List.getElem?_replicate]

/-- A list all of whose members equal `a`, without duplicates and
containing `a`, is `[a]`. -/
theorem eq_singleton_of_nodup (l : List α) (a : α) (hn : l.Nodup)
    (ha : a ∈ l) (hall : ∀ x ∈ l, x = a) : l = [a] := by
  cases l with
  | nil => cases ha
  | cons x l =>
    have hx : x = a := hall x (by simp)
    subst hx
    have : l = [] := by
      cases l with
      | nil => rfl
      | cons y l' =>
        have hy : y = x := hall y (by simp)
        rw [List.nodup_cons] at hn
        exact absurd (hy ▸ List.mem_cons_self y l') hn.1
    simp [this]

/-- First-match decomposition of a list with respect to a predicate. -/
theorem first_match_decomp (p : α → Bool) :
    ∀ l : List α, (∀ x ∈ l, p x = false) ∨
      ∃ s a t, l = s ++ a :: t ∧ (∀ x ∈ s, p x = false) ∧ p a = true := by
  intro l
  induction l with
  | nil => exact Or.inl (by simp)
  | cons a l ih =>
    by_cases h : p a
    · exact Or.inr ⟨[], a, l, by simp, by simp, h⟩
    · simp only [Bool.not_eq_true] at h
      rcases ih with hnone | ⟨s, b, t, rfl, hs, hb⟩
      · exact Or.inl (by simpa [h] using hnone)
      · exact Or.inr ⟨a :: s, b, t, by simp, by simpa [h] using hs, hb⟩

/-- A nodup member decomposition: the member does not occur in the prefix. -/
theorem nodup_mem_decomp {l : List α} {a : α} (hn : l.Nodup) (ha : a ∈ l) :
    ∃ s t, l = s ++ a :: t ∧ a ∉ s ∧ a ∉ t := by
  obtain ⟨s, t, rfl⟩ := List.append_of_mem ha
  rw [List.nodup_append] at hn
  obtain ⟨hs, hat, hdisj⟩ := hn
  rw [List.nodup_cons] at hat
  exact ⟨s, t, rfl, fun hmem => hdisj hmem (by simp), hat.1⟩

/-! ## C7: the SymmetricMatrix index normalization -/

theorem sm_to_index_symm (m : SymmetricMatrix) (r c : Nat) :
    sm_to_index m r c = sm_to_index m c r := by
  unfold sm_to_index
  rcases Nat.lt_or_ge r m.size with hr | hr
  · rcases Nat.lt_or_ge c m.size with hc | hc
    · have h1 : ¬(r ≥ m.size ∨ c ≥ m.size) := by omega
      have h2 : ¬(c ≥ m.size ∨ r ≥ m.size) := by omega
      rw [if_neg h1, if_neg h2]
      rcases Nat.lt_or_ge r c with hrc | hrc
      · have : ¬ r ≥ c := by omega
        rw [if_neg this, if_pos (by omega : c ≥ r)]
      · rcases Nat.eq_or_lt_of_le hrc with heq | hlt
        · subst heq; rfl
        · rw [if_pos (by omega : r ≥ c), if_neg (by omega : ¬ c ≥ r)]
    · rw [if_pos (Or.inr hc), if_pos (Or.inl hc)]
  · rw [if_pos (Or.inl hr), if_pos (Or.inr hr)]

theorem triangle_succ (r : Nat) : (r + 1) * (r + 2) / 2 = r * (r + 1) / 2 + (r + 1) := by
  have h : (r + 1) * (r + 2) = r * (r + 1) + (r + 1) * 2 := by ring
  rw [h, Nat.add_mul_div_right _ _ (by omega : 0 < 2)]

theorem triangle_mono {a b : Nat} (h : a ≤ b) : a * (a + 1) / 2 ≤ b * (b + 1) / 2 :=
  Nat.div_le_div_right (Nat.mul_le_mul h (by omega))

theorem triangle_index_lt {n r c : Nat} (hr : r < n) (hc : c ≤ r) :
    r * (r + 1) / 2 + c < n * (n + 1) / 2 := by
  have h1 : r * (r + 1) / 2 + c < (r + 1) * (r + 2) / 2 := by
    rw [triangle_succ]; omega
  have h2 : (r + 1) * (r + 2) / 2 ≤ n * (n + 1) / 2 := by
    have := triangle_mono (by omega : r + 1 ≤ n)
    calc (r + 1) * (r + 2) / 2 = (r + 1) * ((r + 1) + 1) / 2 := by ring_nf
    _ ≤ n * (n + 1) / 2 := this
  omega

theorem sm_to_index_eq (m : SymmetricMatrix) {r c : Nat}
    (hr : r < m.size) (hc : c < m.size) :
    sm_to_index m r c = some (max r c * (max r c + 1) / 2 + min r c) := by
  unfold sm_to_index
  rw [if_neg (by omega : ¬(r ≥ m.size ∨ c ≥ m.size))]
  rcases Nat.lt_or_ge r c with h | h
  · rw [if_neg (by omega : ¬ r ≥ c)]
    simp only [Option.some.injEq]
    rw [Nat.max_eq_right (by omega : r ≤ c), Nat.min_eq_left (by omega : r ≤ c)]
  · rw [if_pos h]
    simp only [Option.some.injEq]
    rw [Nat.max_eq_left h, Nat.min_eq_right h]

theorem sm_to_index_bound (m : SymmetricMatrix) {r c idx : Nat}
    (hr : r < m.size) (hc : c < m.size)
    (h : sm_to_index m r c = some idx) : idx < m.size * (m.size + 1) / 2 := by
  rw [sm_to_index_eq m hr hc] at h
  cases h
  exact triangle_index_lt (by omega : max r c < m.size) min_le_max

/-- C7: for all in-range indices of a `SymmetricMatrix` (whose element
store has the size `new` allocates), `get(r,c)` and `get(c,r)` read the
same cell, and after `set(r,c,x)` both reads return `x`. -/
theorem c7_symmetric_storage (m : SymmetricMatrix) (r c : Nat) (x : Int)
    (hr : r < m.size) (hc : c < m.size)
    (hlen : m.elements.length = m.size * (m.size + 1) / 2) :
    sm_get m r c = sm_get m c r ∧
    ∃ m', sm_set m r c x = some m' ∧
      sm_get m' r c = some x ∧ sm_get m' c r = some x := by
  obtain ⟨idx, hidx⟩ : ∃ idx, sm_to_index m r c = some idx := by
    rw [sm_to_index_eq m hr hc]; exact ⟨_, rfl⟩
  have hidx' : sm_to_index m c r = some idx := by
    rw [sm_to_index_symm m c r]; exact hidx
  have hlt : idx < m.elements.length := by
    rw [hlen]; exact sm_to_index_bound m hr hc hidx
  constructor
  · unfold sm_get
    rw [hidx, hidx']
  · refine ⟨{ m with elements := m.elements.set idx x }, ?_, ?_, ?_⟩
    · unfold sm_set
      rw [hidx]
      simp [hlt]
    · unfold sm_get
      have : sm_to_index { m with elements := m.elements.set idx x } r c = some idx := hidx
      rw [this]
      simp [List.getElem?_set_eq_of_lt x hlt]
    · unfold sm_get
      have : sm_to_index { m with elements := m.elements.set idx x } c r = some idx := hidx'
      rw [this]
      simp [List.getElem?_set_eq_of_lt x hlt]

/-- Witness for C7 at `new(3)`, `r = 0`, `c = 2`, `x = 7`. -/
theorem c7_symmetric_storage_witness :
    sm_get (sm_new 3) 0 2 = sm_get (sm_new 3) 2 0 ∧
    (sm_set (sm_new 3) 0 2 7).bind (fun m => sm_get m 2 0) = some 7 := by
  obtain ⟨hsym, m', hset, _, hg⟩ :=
    c7_symmetric_storage (sm_new 3) 0 2 7 (by decide) (by decide) (by decide)
  refine ⟨hsym, ?_⟩
  rw [hset]
  simpa using hg

/-! ## C5: the AdjacencyMatrix edge counter -/

theorem mat_row_of_wf {g : AdjacencyMatrix T W} (hwf : MatWf g) {u : Nat}
    (hu : u < g.vertices) :
    ∃ row, g.matrix.get? u = some row ∧ row.length = g.vertices := by
  have h1 : u < g.matrix.length := by rw [hwf.1]; exact hu
  exact ⟨_, List.get?_eq_get h1, hwf.2 _ (List.get_mem _ _ _)⟩

/-- Everything one edit of `add_edge` guarantees, packaged so that edit
sequences can be chained: the result exists, is well formed, keeps the
dimensions, stores the weight, leaves other cells alone, and moves the
counter exactly on the presence transition. -/
theorem mat_add_edge_ok (g : AdjacencyMatrix T W) (u v : Nat) (w : Option W)
    (hwf : MatWf g) (hu : u < g.vertices) (hv : v < g.vertices) :
    ∃ g' cur, mat_get_edge g u v = some cur ∧
      mat_add_edge g u v w = some g' ∧ MatWf g' ∧
      g'.vertices = g.vertices ∧
      mat_get_edge g' u v = some w ∧
      (∀ a b, a < g.vertices → b < g.vertices → (a, b) ≠ (u, v) →
        mat_get_edge g' a b = mat_get_edge g a b) ∧
      g'.edges = (if cur.isNone ∧ w.isSome then g.edges + 1
        else if cur.isSome ∧ w.isNone then g.edges - 1 else g.edges) := by
  obtain ⟨row, hrow, hlen⟩ := mat_row_of_wf hwf hu
  have hmlen : u < g.matrix.length := by rw [hwf.1]; exact hu
  obtain ⟨cur, hcur⟩ : ∃ cur, row.get? v = some cur :=
    ⟨_, List.get?_eq_get (by omega : v < row.length)⟩
  have hbounds : ¬(u ≥ g.vertices ∨ v ≥ g.vertices) := by omega
  refine ⟨{ g with
      edges := if cur.isNone && w.isSome then g.edges + 1
        else if cur.isSome && w.isNone then g.edges - 1 else g.edges
      matrix := g.matrix.set u (row.set v w) }, cur, ?_, ?_, ?_, rfl, ?_, ?_, ?_⟩
  · unfold mat_get_edge mat_cell
    rw [if_neg hbounds, hrow]
    simpa using hcur
  · unfold mat_add_edge
    rw [if_neg hbounds]
    simp only [hrow, hcur]
  · constructor
    · simp [hwf.1]
    · intro r hr
      rcases List.mem_or_eq_of_mem_set hr with h | rfl
      · exact hwf.2 _ h
      · simpa using hlen
  · unfold mat_get_edge mat_cell
    rw [if_neg hbounds]
    rw [List.get?_set_of_lt' _ _ hmlen, if_pos rfl]
    simp only [Option.some_bind]
    rw [List.get?_set_of_lt' _ _ (by omega : v < row.length), if_pos rfl]
  · intro a b ha hb hab
    unfold mat_get_edge mat_cell
    rw [if_neg (by omega : ¬(a ≥ g.vertices ∨ b ≥ g.vertices))]
    rcases Decidable.em (u = a) with rfl | hua
    · rw [List.get?_set_of_lt' _ _ hmlen, if_pos rfl, hrow]
      have hvb : v ≠ b := fun h => hab (by rw [h])
      simp only [Option.some_bind]
      rw [List.get?_set_of_lt' _ _ (by omega : v < row.length), if_neg hvb]
      rw [if_neg (by omega : ¬(u ≥ g.vertices ∨ b ≥ g.vertices))]
    · rw [List.get?_set_of_lt' _ _ hmlen, if_neg hua]
      rw [if_neg (by omega : ¬(a ≥ g.vertices ∨ b ≥ g.vertices))]
  · cases cur <;> cases w <;> simp

/-- The `remove_edge` analogue of `mat_add_edge_ok`. -/
theorem mat_remove_edge_ok (g : AdjacencyMatrix T W) (u v : Nat)
    (hwf : MatWf g) (hu : u < g.vertices) (hv : v < g.vertices) :
    ∃ g' cur, mat_get_edge g u v = some cur ∧
      mat_remove_edge g u v = some g' ∧ MatWf g' ∧
      g'.vertices = g.vertices ∧
      mat_get_edge g' u v = some none ∧
      g'.edges = (if cur.isSome then g.edges - 1 else g.edges) := by
  obtain ⟨row, hrow, hlen⟩ := mat_row_of_wf hwf hu
  have hmlen : u < g.matrix.length := by rw [hwf.1]; exact hu
  obtain ⟨cur, hcur⟩ : ∃ cur, row.get? v = some cur :=
    ⟨_, List.get?_eq_get (by omega : v < row.length)⟩
  have hbounds : ¬(u ≥ g.vertices ∨ v ≥ g.vertices) := by omega
  refine ⟨{ g with
      edges := if cur.isSome then g.edges - 1 else g.edges
      matrix := g.matrix.set u (row.set v none) }, cur, ?_, ?_, ?_, rfl, ?_, rfl⟩
  · unfold mat_get_edge mat_cell
    rw [if_neg hbounds, hrow]
    simpa using hcur
  · unfold mat_remove_edge
    rw [if_neg hbounds]
    simp only [hrow, hcur]
  · constructor
    · simp [hwf.1]
    · intro r hr
      rcases List.mem_or_eq_of_mem_set hr with h | rfl
      · exact hwf.2 _ h
      · simpa using hlen
  · unfold mat_get_edge mat_cell
    rw [if_neg hbounds]
    rw [List.get?_set_of_lt' _ _ hmlen, if_pos rfl]
    simp only [Option.some_bind]
    rw [List.get?_set_of_lt' _ _ (by omega : v < row.length), if_pos rfl]

/-- C5: the edge counter of `AdjacencyMatrix` moves exactly on presence
transitions of the addressed cell.  With `cur` the cell's current
content, `add_edge` increments only on absent→present, decrements only
on present→absent, and leaves the counter alone on a weight update
(while storing the new weight); `remove_edge` decrements exactly when a
weight was present; in particular adding edge `(u,v)` twice with two
weights leaves the second add's counter unchanged and stores only the
new weight. -/
theorem c5_matrix_edge_counter (g : AdjacencyMatrix T W) (u v : Nat)
    (cur : Option W) (hwf : MatWf g) (hu : u < g.vertices) (hv : v < g.vertices)
    (hcur : mat_get_edge g u v = some cur) :
    (∀ w : Option W, ∃ g', mat_add_edge g u v w = some g' ∧
      mat_get_edge g' u v = some w ∧
      g'.edges = (if cur.isNone ∧ w.isSome then g.edges + 1
        else if cur.isSome ∧ w.isNone then g.edges - 1 else g.edges)) ∧
    (∃ g', mat_remove_edge g u v = some g' ∧
      mat_get_edge g' u v = some none ∧
      g'.edges = (if cur.isSome then g.edges - 1 else g.edges)) ∧
    (∀ w1 w2 : W, ∀ g1 g2, mat_add_edge g u v (some w1) = some g1 →
      mat_add_edge g1 u v (some w2) = some g2 →
      g2.edges = g1.edges ∧ mat_get_edge g2 u v = some (some w2)) := by
  refine ⟨?_, ?_, ?_⟩
  · intro w
    obtain ⟨g', cur', hcur', hadd, _, _, hget, _, hedges⟩ :=
      mat_add_edge_ok g u v w hwf hu hv
    obtain rfl : cur = cur' := Option.some.inj (hcur ▸ hcur')
    exact ⟨g', hadd, hget, hedges⟩
  · obtain ⟨g', cur', hcur', hrem, _, _, hget, hedges⟩ :=
      mat_remove_edge_ok g u v hwf hu hv
    obtain rfl : cur = cur' := Option.some.inj (hcur ▸ hcur')
    exact ⟨g', hrem, hget, hedges⟩
  · intro w1 w2 g1 g2 h1 h2
    obtain ⟨g1', _, _, hadd1, hwf1, hvtx1, hget1, _, _⟩ :=
      mat_add_edge_ok g u v (some w1) hwf hu hv
    obtain rfl : g1 = g1' := Option.some.inj (h1 ▸ hadd1)
    obtain ⟨g2', cur2, hcur2, hadd2, _, _, hget2, _, hedges2⟩ :=
      mat_add_edge_ok g1 u v (some w2) hwf1 (by omega) (by omega)
    obtain rfl : g2 = g2' := Option.some.inj (h2 ▸ hadd2)
    obtain rfl : cur2 = some w1 := Option.some.inj (hcur2 ▸ hget1)
    refine ⟨?_, hget2⟩
    rw [hedges2]
    simp

/-- Witness for C5: on the 2-vertex matrix holding edge (0,1) with
weight 5, re-adding the edge with weight 9 keeps `edges` at 1 and stores
the new weight. -/
theorem c5_matrix_edge_counter_witness :
    (mat_add_edge c5_g1 0 1 (some 9)).map (fun g => g.edges) = some c5_g1.edges ∧
    (mat_add_edge c5_g1 0 1 (some 9)).bind (fun g => mat_get_edge g 0 1)
      = some (some 9) := by
  obtain ⟨hadd, _, _⟩ :=
    c5_matrix_edge_counter c5_g1 0 1 (some 5)
      (by constructor <;> decide) (by decide) (by decide) (by rfl)
  obtain ⟨g', hadd', hget', hedges'⟩ := hadd (some 9)
  refine ⟨?_, ?_⟩
  · rw [hadd']
    simpa using hedges'
  · rw [hadd']
    simpa using hget'

/-! ## C8: the SymmetricMatrix round trip -/

theorem sm_idx_inj {i1 j1 i2 j2 : Nat} (h1 : j1 ≤ i1) (h2 : j2 ≤ i2)
    (h : i1 * (i1 + 1) / 2 + j1 = i2 * (i2 + 1) / 2 + j2) :
    i1 = i2 ∧ j1 = j2 := by
  have key : ∀ a b : Nat, a < b → a * (a + 1) / 2 + a < b * (b + 1) / 2 := by
    intro a b hab
    have hs := triangle_succ a
    have hm := triangle_mono (by omega : a + 1 ≤ b)
    have : (a + 1) * (a + 1 + 1) / 2 = (a + 1) * (a + 2) / 2 := by ring_nf
    omega
  rcases Nat.lt_trichotomy i1 i2 with hlt | heq | hgt
  · have := key i1 i2 hlt
    have := triangle_mono (le_refl i2)
    omega
  · subst heq; omega
  · have := key i2 i1 hgt
    omega

theorem sm_set_lower {m : SymmetricMatrix} {i k : Nat} (x : Int)
    (hk : k ≤ i) (hi : i < m.size)
    (hidx : i * (i + 1) / 2 + k < m.elements.length) :
    sm_set m i k x = some { m with elements := m.elements.set (i * (i + 1) / 2 + k) x } := by
  unfold sm_set sm_to_index
  rw [if_neg (by omega : ¬(i ≥ m.size ∨ k ≥ m.size))]
  simp only [if_pos (by omega : i ≥ k)]
  rw [Option.some_bind, if_pos hidx]

theorem sm_inner_fold (M : List (List Int)) (i : Nat) (m : SymmetricMatrix)
    (hsize : m.size = M.length)
    (hlen : m.elements.length = M.length * (M.length + 1) / 2)
    (hi : i < M.length) :
    ∀ k, k ≤ i + 1 →
    ∃ m', (List.range k).foldlM
        (fun acc2 j => sm_set acc2 i j ((M.getD i []).getD j 0)) m = some m' ∧
      m'.size = m.size ∧ m'.elements.length = m.elements.length ∧
      (∀ j, j < k → m'.elements.get? (i * (i + 1) / 2 + j)
        = some ((M.getD i []).getD j 0)) ∧
      (∀ q, (∀ j, j < k → q ≠ i * (i + 1) / 2 + j) →
        m'.elements.get? q = m.elements.get? q) := by
  intro k
  induction k with
  | zero =>
    intro _
    exact ⟨m, rfl, rfl, rfl, by omega, fun q _ => rfl⟩
  | succ k ih =>
    intro hk1
    obtain ⟨m2, hfold, hsz2, hln2, hset2, hpres2⟩ := ih (by omega)
    have hidx2 : i * (i + 1) / 2 + k < m2.elements.length := by
      rw [hln2, hlen]
      exact triangle_index_lt hi (by omega)
    have hstep := sm_set_lower (m := m2) ((M.getD i []).getD k 0)
      (by omega : k ≤ i) (by omega : i < m2.size) hidx2
    refine ⟨({ size := m2.size
               elements := m2.elements.set (i * (i + 1) / 2 + k)
                 ((M.getD i []).getD k 0) } : SymmetricMatrix),
      ?_, by simpa using hsz2, by simpa using hln2, ?_, ?_⟩
    · rw [List.range_succ, List.foldlM_append, hfold]
      simp only [Option.bind_eq_bind, Option.some_bind, List.foldlM_cons, List.foldlM_nil]
      rw [hstep]
      rfl
    · intro j hj
      rcases Nat.lt_or_ge j k with hjk | hjk
      · have hne : i * (i + 1) / 2 + j ≠ i * (i + 1) / 2 + k := by omega
        simp only
        rw [List.get?_set_of_lt' _ _ hidx2, if_neg (fun h => hne h.symm)]
        exact hset2 j hjk
      · have hjeq : j = k := by omega
        subst hjeq
        simp only
        rw [List.get?_set_of_lt' _ _ hidx2, if_pos rfl]
    · intro q hq
      have hne : i * (i + 1) / 2 + k ≠ q := fun h => hq k (by omega) h.symm
      simp only
      rw [List.get?_set_of_lt' _ _ hidx2, if_neg hne]
      exact hpres2 q (fun j hj => hq j (by omega))

theorem sm_outer_fold (M : List (List Int)) :
    ∀ k, k ≤ M.length →
    ∃ m', (List.range k).foldlM
        (fun acc i => (List.range (i + 1)).foldlM
          (fun acc2 j => sm_set acc2 i j ((M.getD i []).getD j 0)) acc)
        (sm_new M.length) = some m' ∧
      m'.size = M.length ∧
      m'.elements.length = M.length * (M.length + 1) / 2 ∧
      (∀ i j, j ≤ i → i < k →
        m'.elements.get? (i * (i + 1) / 2 + j) = some ((M.getD i []).getD j 0)) := by
  intro k
  induction k with
  | zero =>
    intro _
    exact ⟨sm_new M.length, rfl, rfl, by simp [sm_new], by omega⟩
  | succ k ih =>
    intro hk1
    obtain ⟨m2, hfold, hsz2, hln2, hcells2⟩ := ih (by omega)
    obtain ⟨m3, hinner, hsz3, hln3, hset3, hpres3⟩ :=
      sm_inner_fold M k m2 hsz2 hln2 (by omega) (k + 1) (le_refl _)
    refine ⟨m3, ?_, by omega, by omega, ?_⟩
    · rw [List.range_succ, List.foldlM_append, hfold]
      simp only [Option.bind_eq_bind, Option.some_bind, List.foldlM_cons, List.foldlM_nil]
      rw [hinner]
      rfl
    · intro i j hji hik
      rcases Nat.lt_or_ge i k with hik' | hik'
      · rw [hpres3]
        · exact hcells2 i j hji hik'
        · intro j2 hj2 heq
          exact absurd (sm_idx_inj hji (by omega) heq).1 (by omega)
      · have : i = k := by omega
        subst this
        exact hset3 j (by omega)

theorem sm_get_of_cells {m : SymmetricMatrix} {M : List (List Int)}
    (hsz : m.size = M.length)
    (hcells : ∀ i j, j ≤ i → i < M.length →
      m.elements.get? (i * (i + 1) / 2 + j) = some ((M.getD i []).getD j 0))
    (hsym : ∀ i, i < M.length → ∀ j, j < M.length →
      (M.getD i []).getD j 0 = (M.getD j []).getD i 0)
    {i j : Nat} (hi : i < M.length) (hj : j < M.length) :
    sm_get m i j = some ((M.getD i []).getD j 0) := by
  unfold sm_get
  rw [sm_to_index_eq m (by omega) (by omega), Option.some_bind]
  rcases Nat.le_total j i with h | h
  · rw [Nat.max_eq_left h, Nat.min_eq_right h]
    exact hcells i j h hi
  · rw [Nat.max_eq_right h, Nat.min_eq_left h]
    rw [hcells j i h hj]
    rw [hsym j hj i hi]

theorem range_map_getD (l : List α) (d : α) :
    (List.range l.length).map (fun i => l.getD i d) = l := by
  apply List.ext_get
  · simp
  · intro n h1 h2
    simp only [List.get_eq_getElem, List.getElem_map, List.getElem_range]
    rw [List.getD_eq_getElem?_getD, List.getElem?_eq_getElem h2]
    rfl

/-- C8: `to_matrix(from_matrix(M))` reproduces any square, symmetric
matrix `M` exactly. -/
theorem c8_symmetric_roundtrip (M : List (List Int))
    (hsq : ∀ row ∈ M, row.length = M.length)
    (hsym : ∀ i, i < M.length → ∀ j, j < M.length →
      (M.getD i []).getD j 0 = (M.getD j []).getD i 0) :
    ∃ m, sm_from_matrix M = some m ∧ sm_to_matrix m = some M := by
  obtain ⟨m, hfold, hsz, hln, hcells⟩ := sm_outer_fold M M.length (le_refl _)
  refine ⟨m, ?_, ?_⟩
  · unfold sm_from_matrix
    rw [if_pos]
    · exact hfold
    · rw [List.all_eq_true]
      intro row hrow
      exact beq_iff_eq.mpr (hsq row hrow)
  · unfold sm_to_matrix
    rw [hsz]
    have hrow_eq : ∀ i, i < M.length →
        (List.range M.length).mapM (fun j => sm_get m i j)
          = some (M.getD i []) := by
      intro i hi
      have h1 : (List.range M.length).mapM (fun j => sm_get m i j)
          = some ((List.range M.length).map fun j => (M.getD i []).getD j 0) := by
        apply mapM_option_of
        intro j hj
        exact sm_get_of_cells hsz hcells hsym hi (List.mem_range.mp hj)
      rw [h1]
      have hrl : (M.getD i []).length = M.length := by
        have hmem : M.getD i [] ∈ M := by
          rw [List.getD_eq_get?, List.get?_eq_get (by omega : i < M.length)]
          simpa using List.get_mem M i (by omega)
        exact hsq _ hmem
      rw [← hrl]
      rw [range_map_getD]
    have h2 : (List.range M.length).mapM
        (fun i => (List.range M.length).mapM fun j => sm_get m i j)
        = some ((List.range M.length).map fun i => M.getD i []) := by
      apply mapM_option_of
      intro i hi
      exact hrow_eq i (List.mem_range.mp hi)
    rw [h2]
    have := range_map_getD M []
    rw [this]

/-- Witness for C8 at the symmetric matrix `[[1,2],[2,5]]`. -/
theorem c8_symmetric_roundtrip_witness :
    (sm_from_matrix [[1, 2], [2, 5]]).bind sm_to_matrix = some [[1, 2], [2, 5]] := by
  obtain ⟨m, hfm, htm⟩ := c8_symmetric_roundtrip [[1, 2], [2, 5]]
    (by decide)
    (by decide)
  rw [hfm]
  simpa using htm

/-! ## C6: AdjacencyMatrix neighbor enumeration -/

theorem mat_first_neighbor_char {g : AdjacencyMatrix T W} (hwf : MatWf g)
    {v : Nat} (hv : v < g.vertices) :
    mat_first_neighbor g v
      = ((List.range g.vertices).filter (mat_has_edge g v)).head? := by
  obtain ⟨row, hrow, hlen⟩ := mat_row_of_wf hwf hv
  unfold mat_first_neighbor
  rw [if_neg (by omega : ¬ v ≥ g.vertices)]
  simp only [hrow]
  rw [find?_eq_head?_of_filter]
  congr 1
  apply List.filter_congr
  intro i hi
  have hilt : i < g.vertices := List.mem_range.mp hi
  have hcell : row.get? i = some (row.get ⟨i, by omega⟩) :=
    List.get?_eq_get (by omega)
  unfold mat_has_edge mat_cell
  rw [hrow, Option.some_bind, hcell, List.getD_eq_get?, hcell]
  rfl

theorem mat_next_neighbor_char {g : AdjacencyMatrix T W} (hwf : MatWf g)
    {v : Nat} (hv : v < g.vertices) (cur : Nat) :
    mat_next_neighbor g v cur
      = (((List.range g.vertices).filter (mat_has_edge g v)).filter
          (fun i => decide (cur < i))).head? := by
  obtain ⟨row, hrow, hlen⟩ := mat_row_of_wf hwf hv
  rcases Nat.lt_or_ge cur g.vertices with hcur | hcur
  · unfold mat_next_neighbor
    rw [if_neg (by omega : ¬(v ≥ g.vertices ∨ cur ≥ g.vertices))]
    simp only [hrow]
    rw [find?_eq_head?_of_filter]
    rw [List.filter_filter]
    have hsplit : List.range g.vertices
        = List.range' 0 (cur + 1) ++ List.range' (cur + 1) (g.vertices - (cur + 1)) := by
      have h := List.range'_append_1 0 (cur + 1) (g.vertices - (cur + 1))
      rw [Nat.zero_add] at h
      have h2 : g.vertices - (cur + 1) + (cur + 1) = g.vertices := by omega
      rw [h2] at h
      rw [List.range_eq_range', ← h]
    rw [hsplit, List.filter_append]
    have hnil : (List.range' 0 (cur + 1)).filter
        (fun a => decide (cur < a) && mat_has_edge g v a) = [] := by
      rw [List.filter_eq_nil_iff]
      intro a ha
      have := List.mem_range'_1.mp ha
      simp only [Bool.and_eq_true, decide_eq_true_eq, not_and]
      intro h
      omega
    rw [hnil, List.nil_append]
    congr 1
    apply List.filter_congr
    intro i hi
    have hige : cur + 1 ≤ i := (List.mem_range'_1.mp hi).1
    have hilt : i < g.vertices := by
      have := (List.mem_range'_1.mp hi).2
      omega
    have hcell : row.get? i = some (row.get ⟨i, by omega⟩) :=
      List.get?_eq_get (by omega)
    have hdecide : decide (cur < i) = true := by
      simp only [decide_eq_true_eq]
      omega
    rw [hdecide, Bool.true_and]
    unfold mat_has_edge mat_cell
    rw [hrow, Option.some_bind, hcell, List.getD_eq_get?, hcell]
    rfl
  · unfold mat_next_neighbor
    rw [if_pos (Or.inr hcur)]
    have : (((List.range g.vertices).filter (mat_has_edge g v)).filter
        (fun i => decide (cur < i))) = [] := by
      rw [List.filter_eq_nil_iff]
      intro a ha
      have := List.mem_range.mp (List.mem_of_mem_filter ha)
      simp only [decide_eq_true_eq, Nat.not_lt]
      omega
    rw [this]
    rfl

theorem filter_gt_tail : ∀ F : List Nat, F.Pairwise (· < ·) →
    ∀ cur nb rest, F.filter (fun i => decide (cur < i)) = nb :: rest →
    rest = F.filter (fun i => decide (nb < i)) := by
  intro F
  induction F with
  | nil => intro _ cur nb rest h; cases h
  | cons x F ih =>
    intro hp cur nb rest h
    rw [List.pairwise_cons] at hp
    by_cases hcx : cur < x
    · rw [List.filter_cons_of_pos (by simpa using hcx)] at h
      obtain ⟨rfl, rfl⟩ : x = nb ∧ F.filter (fun i => decide (cur < i)) = rest := by
        cases h; exact ⟨rfl, rfl⟩
      rw [List.filter_cons_of_neg (by simp)]
      apply List.filter_congr
      intro y hy
      have hxy := hp.1 y hy
      rw [decide_eq_decide]
      constructor <;> intro <;> omega
    · rw [List.filter_cons_of_neg (by simpa using hcx)] at h
      have hnbF : nb ∈ F := by
        have : nb ∈ F.filter (fun i => decide (cur < i)) := by rw [h]; simp
        exact List.mem_of_mem_filter this
      have hxnb : x < nb := hp.1 nb hnbF
      rw [List.filter_cons_of_neg (by simp; omega)]
      exact ih hp.2 cur nb rest h

theorem mat_enum_go_char {g : AdjacencyMatrix T W} (hwf : MatWf g)
    {v : Nat} (hv : v < g.vertices) :
    ∀ fuel cur, g.vertices - cur ≤ fuel →
    enum_neighbors_go (mat_next_neighbor g) v fuel cur
      = ((List.range g.vertices).filter (mat_has_edge g v)).filter
          (fun i => decide (cur < i)) := by
  intro fuel
  induction fuel with
  | zero =>
    intro cur hcur
    rw [List.filter_eq_nil_iff.mpr]
    · rfl
    · intro a ha
      have := List.mem_range.mp (List.mem_of_mem_filter ha)
      simp only [decide_eq_true_eq, Nat.not_lt]
      omega
  | succ fuel ih =>
    intro cur hcur
    unfold enum_neighbors_go
    rw [mat_next_neighbor_char hwf hv cur]
    rcases hF : ((List.range g.vertices).filter (mat_has_edge g v)).filter
        (fun i => decide (cur < i)) with _ | ⟨nb, rest⟩
    · rfl
    · simp only [List.head?_cons]
      have hnbmem : nb ∈ ((List.range g.vertices).filter (mat_has_edge g v)).filter
          (fun i => decide (cur < i)) := by rw [hF]; simp
      have hnb1 : cur < nb := by
        have := List.of_mem_filter hnbmem
        simpa using this
      have hnb2 : nb < g.vertices :=
        List.mem_range.mp (List.mem_of_mem_filter (List.mem_of_mem_filter hnbmem))
      have hrest : rest = ((List.range g.vertices).filter (mat_has_edge g v)).filter
          (fun i => decide (nb < i)) :=
        filter_gt_tail _ ((List.pairwise_lt_range g.vertices).filter _) cur nb rest hF
      rw [ih nb (by omega), ← hrest]

/-- C6: for a well-formed matrix and an in-range vertex `v`, the
`first_neighbor`/`next_neighbor` pair enumerates exactly the columns of
row `v` holding a present weight, in strictly increasing order:
`first_neighbor` is the head of the ascending list of present columns,
`next_neighbor v cur` is the first present column above `cur`, and the
full enumeration equals that list, which is strictly sorted. -/
theorem c6_matrix_neighbor_enumeration (g : AdjacencyMatrix T W) (v : Nat)
    (hwf : MatWf g) (hv : v < g.vertices) :
    mat_first_neighbor g v
      = ((List.range g.vertices).filter (mat_has_edge g v)).head? ∧
    (∀ cur, mat_next_neighbor g v cur
      = (((List.range g.vertices).filter (mat_has_edge g v)).filter
          (fun i => decide (cur < i))).head?) ∧
    mat_neighbors g v = (List.range g.vertices).filter (mat_has_edge g v) ∧
    ((List.range g.vertices).filter (mat_has_edge g v)).Pairwise (· < ·) := by
  refine ⟨mat_first_neighbor_char hwf hv, mat_next_neighbor_char hwf hv, ?_,
    (List.pairwise_lt_range g.vertices).filter _⟩
  unfold mat_neighbors enum_neighbors
  rw [mat_first_neighbor_char hwf hv]
  rcases hF : (List.range g.vertices).filter (mat_has_edge g v) with _ | ⟨a, F'⟩
  · rfl
  · simp only [List.head?_cons]
    have hamem : a ∈ (List.range g.vertices).filter (mat_has_edge g v) := by
      rw [hF]; simp
    have halt : a < g.vertices := List.mem_range.mp (List.mem_of_mem_filter hamem)
    rw [mat_enum_go_char hwf hv g.vertices a (by omega)]
    have hpw : ((List.range g.vertices).filter (mat_has_edge g v)).Pairwise (· < ·) :=
      (List.pairwise_lt_range g.vertices).filter _
    rw [hF] at hpw
    rw [List.pairwise_cons] at hpw
    rw [hF, List.filter_cons_of_neg (by simp)]
    congr 1
    rw [List.filter_eq_self.mpr]
    intro y hy
    have := hpw.1 y hy
    simpa using this

/-- Witness for C6 on the 2-vertex matrix with the single edge (0,1). -/
theorem c6_matrix_neighbor_enumeration_witness :
    mat_first_neighbor c5_g1 0 = some 1 ∧
    mat_next_neighbor c5_g1 0 1 = none ∧
    mat_neighbors c5_g1 0 = [1] := by
  obtain ⟨h1, h2, h3, _⟩ :=
    c6_matrix_neighbor_enumeration c5_g1 0 (by constructor <;> decide) (by decide)
  refine ⟨?_, ?_, ?_⟩
  · rw [h1]; rfl
  · rw [h2 1]; rfl
  · rw [h3]; rfl

/-! ## BFS: the inner loop, the outer loop and their invariants -/

theorem nodup_bounded_length_le (l : List Nat) (n : Nat) (hnd : l.Nodup)
    (hlt : ∀ x ∈ l, x < n) : l.length ≤ n := by
  have hsub : l.toFinset ⊆ Finset.range n := by
    intro x hx
    rw [List.mem_toFinset] at hx
    rw [Finset.mem_range]
    exact hlt x hx
  have hcard := Finset.card_le_card hsub
  rw [Finset.card_range] at hcard
  rw [List.toFinset_card_of_nodup hnd] at hcard
  exact hcard

theorem bfs_process_ok : ∀ (l : List Nat) (st : BfsState),
    (∀ nb ∈ l, nb < st.visited.length) →
    ∃ st' d, bfs_process l st = .ok st' ∧
      st'.visited.length = st.visited.length ∧
      st'.order = st.order ++ d ∧
      st'.queue = st.queue ++ d ∧
      d.Nodup ∧
      (∀ x ∈ d, x ∈ l ∧ st.visited.get? x = some false) ∧
      (∀ x, st'.visited.get? x = some true ↔
        (st.visited.get? x = some true ∨ x ∈ d)) ∧
      (∀ nb ∈ l, st'.visited.get? nb = some true) := by
  intro l
  induction l with
  | nil =>
    intro st h
    exact ⟨st, [], rfl, rfl, by simp, by simp, List.nodup_nil, by simp, by simp,
      by simp⟩
  | cons nb rest ih =>
    intro st hl
    have hnb : nb < st.visited.length := hl nb (by simp)
    obtain ⟨b, hb⟩ : ∃ b, st.visited.get? nb = some b :=
      ⟨_, List.get?_eq_get hnb⟩
    cases b with
    | true =>
      obtain ⟨st', d, hrun, hvlen, horder, hqueue, hnd, hdmem, hiff, hall⟩ :=
        ih st (fun x hx => hl x (by simp [hx]))
      refine ⟨st', d, ?_, hvlen, horder, hqueue, hnd, ?_, hiff, ?_⟩
      · unfold bfs_process
        rw [hb]
        simpa using hrun
      · intro x hx
        exact ⟨by simp [(hdmem x hx).1], (hdmem x hx).2⟩
      · intro x hx
        rcases List.mem_cons.mp hx with rfl | hx'
        · exact (hiff x).mpr (Or.inl hb)
        · exact hall x hx'
    | false =>
      have hl1 : ∀ x ∈ rest, x < (st.visited.set nb true).length := by
        intro x hx
        rw [List.length_set]
        exact hl x (by simp [hx])
      obtain ⟨st', d1, hrun, hvlen, horder, hqueue, hnd, hdmem, hiff, hall⟩ :=
        ih { visited := st.visited.set nb true
             order := st.order ++ [nb]
             queue := st.queue ++ [nb] } hl1
      have hset_at : (st.visited.set nb true).get? nb = some true := by
        rw [List.get?_set_of_lt' _ _ hnb, if_pos rfl]
      have hset_ne : ∀ x, x ≠ nb →
          (st.visited.set nb true).get? x = st.visited.get? x := by
        intro x hx
        rw [List.get?_set_of_lt' _ _ hnb, if_neg (fun h => hx h.symm)]
      have hnbd1 : nb ∉ d1 := by
        intro hmem
        have := (hdmem nb hmem).2
        rw [hset_at] at this
        cases this
      refine ⟨st', nb :: d1, ?_, ?_, ?_, ?_, ?_, ?_, ?_, ?_⟩
      · unfold bfs_process
        rw [hb]
        simpa using hrun
      · rw [hvlen, List.length_set]
      · rw [horder]
        simp
      · rw [hqueue]
        simp
      · rw [List.nodup_cons]
        exact ⟨hnbd1, hnd⟩
      · intro x hx
        rcases List.mem_cons.mp hx with rfl | hx'
        · exact ⟨by simp, hb⟩
        · have h1 := hdmem x hx'
          have hxnb : x ≠ nb := fun h => hnbd1 (h ▸ hx')
          refine ⟨by simp [h1.1], ?_⟩
          rw [← hset_ne x hxnb]
          exact h1.2
      · intro x
        rw [hiff x]
        constructor
        · rintro (h1 | h2)
          · rcases Decidable.em (x = nb) with rfl | hxnb
            · exact Or.inr (by simp)
            · rw [hset_ne x hxnb] at h1
              exact Or.inl h1
          · exact Or.inr (by simp [h2])
        · rintro (h1 | h2)
          · have hxnb : x ≠ nb := by
              intro h
              subst h
              rw [hb] at h1
              cases h1
            rw [hset_ne x hxnb]
            exact Or.inl h1
          · rcases List.mem_cons.mp h2 with rfl | h3
            · exact Or.inl hset_at
            · exact Or.inr h3
      · intro x hx
        rcases List.mem_cons.mp hx with rfl | hx'
        · exact (hiff x).mpr (Or.inl hset_at)
        · exact hall x hx'

theorem bfs_loop_ok (nbrs : Nat → List Nat) (start count : Nat)
    (hn : ∀ u v, v ∈ nbrs u → v < count) :
    ∀ fuel st, BfsInv nbrs start count st →
      count - st.order.length + st.queue.length ≤ fuel →
      ∃ stf, bfs_loop nbrs fuel st = .ok stf ∧ BfsInv nbrs start count stf ∧
        stf.queue = [] ∧ (∀ v ∈ st.order, v ∈ stf.order) := by
  intro fuel
  induction fuel with
  | zero =>
    intro st hInv hM
    have hq : st.queue = [] := by
      have : st.queue.length = 0 := by omega
      exact List.length_eq_zero.mp this
    exact ⟨st, rfl, hInv, hq, fun v h => h⟩
  | succ fuel ih =>
    intro st hInv hM
    cases hq : st.queue with
    | nil =>
      refine ⟨st, ?_, hInv, hq, fun v h => h⟩
      unfold bfs_loop
      rw [hq]
    | cons current rest =>
      have hcur_order : current ∈ st.order := hInv.queue_sub current (by rw [hq]; simp)
      have hl : ∀ nb ∈ nbrs current, nb < ({ st with queue := rest } : BfsState).visited.length := by
        intro nb hnb
        simp only
        rw [hInv.vlen]
        exact hn current nb hnb
      obtain ⟨st', d, hrun, hvlen, horder, hqueue, hnd, hdmem, hiff, hall⟩ :=
        bfs_process_ok (nbrs current) { st with queue := rest } hl
      have horder' : st'.order = st.order ++ d := horder
      have hqueue' : st'.queue = rest ++ d := hqueue
      have hInv' : BfsInv nbrs start count st' := by
        constructor
        · rw [hvlen]
          exact hInv.vlen
        · rw [horder']
          rw [List.nodup_append]
          refine ⟨hInv.nodup, hnd, ?_⟩
          intro x hx hxd
          have hfalse := (hdmem x hxd).2
          have htrue := (hInv.visited_iff x).mpr hx
          rw [hfalse] at htrue
          cases htrue
        · intro v hv
          rw [horder'] at hv
          rcases List.mem_append.mp hv with h | h
          · exact hInv.order_lt v h
          · exact hn current v (hdmem v h).1
        · intro v
          rw [hiff v, horder', List.mem_append]
          constructor
          · rintro (h | h)
            · exact Or.inl ((hInv.visited_iff v).mp h)
            · exact Or.inr h
          · rintro (h | h)
            · exact Or.inl ((hInv.visited_iff v).mpr h)
            · exact Or.inr h
        · intro v hv
          rw [hqueue'] at hv
          rw [horder', List.mem_append]
          rcases List.mem_append.mp hv with h | h
          · exact Or.inl (hInv.queue_sub v (by rw [hq]; simp [h]))
          · exact Or.inr h
        · intro v hv
          rw [horder'] at hv
          rcases List.mem_append.mp hv with h | h
          · exact hInv.reach v h
          · exact Relation.ReflTransGen.tail (hInv.reach current hcur_order)
              (hdmem v h).1
        · intro u hu hunq nb hnb
          rw [horder', List.mem_append]
          rw [horder'] at hu
          rw [hqueue'] at hunq
          rcases Decidable.em (u = current) with rfl | hne
          · have := hall nb hnb
            rcases ((hiff nb).mp this) with h | h
            · exact Or.inl ((hInv.visited_iff nb).mp h)
            · exact Or.inr h
          · rcases List.mem_append.mp hu with h | h
            · have hunq' : u ∉ st.queue := by
                rw [hq]
                intro hmem
                rcases List.mem_cons.mp hmem with rfl | hmem'
                · exact hne rfl
                · exact hunq (List.mem_append.mpr (Or.inl hmem'))
              exact Or.inl (hInv.processed u h hunq' nb hnb)
            · exfalso
              exact hunq (List.mem_append.mpr (Or.inr h))
      have hlen_le : st'.order.length ≤ count :=
        nodup_bounded_length_le _ _ hInv'.nodup hInv'.order_lt
      have hd_eq : st'.order.length = st.order.length + d.length := by
        rw [horder', List.length_append]
      have hq_eq : st'.queue.length = rest.length + d.length := by
        rw [hqueue', List.length_append]
      have hM' : count - st'.order.length + st'.queue.length ≤ fuel := by
        have hqlen : st.queue.length = rest.length + 1 := by rw [hq]; rfl
        omega
      obtain ⟨stf, hloop, hInvf, hqf, hmono⟩ := ih st' hInv' hM'
      refine ⟨stf, ?_, hInvf, hqf, ?_⟩
      · unfold bfs_loop
        rw [hq]
        simp only [hrun, hloop]
      · intro v hv
        apply hmono
        rw [horder', List.mem_append]
        exact Or.inl hv

theorem reaches_of_no_neighbors {nbrs : Nat → List Nat} {start v : Nat}
    (hempty : nbrs start = []) (h : Reaches nbrs start v) : v = start := by
  rcases Relation.ReflTransGen.cases_head h with h1 | ⟨c, hc, _⟩
  · exact h1.symm
  · rw [hempty] at hc
    cases hc

/-- Full functional correctness of `breadth_first_search` (run with a
`CollectVisitor`), for any neighbor enumeration whose values stay below
`vertex_count`: the search returns normally, never visits a vertex
twice, visits exactly the vertices reachable from `start`, and visits
only `start` when `start` has no neighbors. -/
theorem bfs_correct (nbrs : Nat → List Nat) (start count : Nat)
    (hstart : start < count) (hn : ∀ u v, v ∈ nbrs u → v < count) :
    ∃ order, breadth_first_search nbrs start count = .ok order ∧
      order.Nodup ∧
      (∀ v, v ∈ order ↔ Reaches nbrs start v) ∧
      (nbrs start = [] → order = [start]) := by
  have hrepl : (List.replicate count false).get? start = some false := by
    rw [replicate_get?, if_pos hstart]
  have hst0 : BfsInv nbrs start count
      { visited := (List.replicate count false).set start true
        order := [start]
        queue := [start] } := by
    constructor
    · simp
    · simp
    · intro v hv
      rcases List.mem_singleton.mp hv with rfl
      exact hstart
    · intro v
      simp only
      constructor
      · intro h
        rcases Decidable.em (v = start) with rfl | hne
        · simp
        · rw [List.get?_set_of_lt' _ _ (by simpa using hstart),
            if_neg (fun h2 => hne h2.symm), replicate_get?] at h
          split at h
          · cases h
          · cases h
      · intro h
        rcases List.mem_singleton.mp h with rfl
        rw [List.get?_set_of_lt' _ _ (by simpa using hstart), if_pos rfl]
    · intro v hv
      exact hv
    · intro v hv
      rcases List.mem_singleton.mp hv with rfl
      exact Relation.ReflTransGen.refl
    · intro u hu hunq
      exfalso
      rcases List.mem_singleton.mp hu with rfl
      exact hunq hu
  obtain ⟨stf, hloop, hInvf, hqf, hmono⟩ :=
    bfs_loop_ok nbrs start count hn count
      { visited := (List.replicate count false).set start true
        order := [start]
        queue := [start] } hst0 (by simp; omega)
  refine ⟨stf.order, ?_, hInvf.nodup, ?_, ?_⟩
  · unfold breadth_first_search
    simp only [hrepl, hloop]
  · intro v
    constructor
    · intro hv
      exact hInvf.reach v hv
    · intro hv
      induction hv with
      | refl => exact hmono start (by simp)
      | tail hr hs ih =>
        exact hInvf.processed _ ih (by rw [hqf]; simp) _ hs
  · intro hempty
    apply eq_singleton_of_nodup _ _ hInvf.nodup (hmono start (by simp))
    intro x hx
    exact reaches_of_no_neighbors hempty (hInvf.reach x hx)

/-! ## C3: BFS visit order on the concrete 5-vertex matrix -/

/-- C3: on the `AdjacencyMatrix` over 5 vertices with directed edges
(0,1), (0,2), (1,3), (1,4), (2,4) of weight 1, BFS from vertex 0 with
`vertex_count = 5` visits exactly `[0, 1, 2, 3, 4]` in that order. -/
theorem c3_bfs_order :
    c3_graph.map (fun g => mat_bfs g 0 5) = some (Except.ok [0, 1, 2, 3, 4]) := by
  rfl

/-! ## C10: BFS bounds-check panics -/

/-- C10: `breadth_first_search` panics (indexes the visited array out of
bounds) the moment `start ≥ vertex_count`, before any visit; it likewise
panics when neighbor enumeration hands the inner loop an index that is
`≥ vertex_count` (i.e. not below the visited array's length); and when
`start` and all enumerated neighbors are below `vertex_count`, it
returns normally. -/
theorem c10_bfs_panics :
    (∀ (nbrs : Nat → List Nat) (start count : Nat), count ≤ start →
      breadth_first_search nbrs start count = .error []) ∧
    (∀ (st : BfsState) (nb : Nat) (rest : List Nat), st.visited.length ≤ nb →
      bfs_process (nb :: rest) st = .error st.order) ∧
    (∀ (nbrs : Nat → List Nat) (start count : Nat), start < count →
      (∀ u v, v ∈ nbrs u → v < count) →
      ∃ r, breadth_first_search nbrs start count = .ok r) := by
  refine ⟨?_, ?_, ?_⟩
  · intro nbrs start count h
    have hnone : (List.replicate count false).get? start = none :=
      List.get?_len_le (by simpa using h)
    unfold breadth_first_search
    simp only [hnone]
  · intro st nb rest h
    have hnone : st.visited.get? nb = none := List.get?_len_le h
    unfold bfs_process
    simp only [hnone]
  · intro nbrs start count hstart hn
    obtain ⟨order, hok, _, _, _⟩ := bfs_correct nbrs start count hstart hn
    exact ⟨order, hok⟩

/-- Witness for C10: a too-large start panics before any visit; an
out-of-range neighbor panics with the visits made so far; in-range runs
return normally. -/
theorem c10_bfs_panics_witness :
    breadth_first_search (fun _ => []) 5 3 = .error [] ∧
    bfs_process [7] { visited := [false], order := [0], queue := [0] } = .error [0] ∧
    breadth_first_search (fun _ => []) 0 1 = .ok [0] := by
  obtain ⟨h1, h2, h3⟩ := c10_bfs_panics
  refine ⟨h1 _ 5 3 (by omega), ?_, ?_⟩
  · exact h2 { visited := [false], order := [0], queue := [0] } 7 [] (by simp)
  · obtain ⟨r, hr⟩ := h3 (fun _ => []) 0 1 (by omega) (by intro u v h; cases h)
    have : r = [0] := by
      have hcalc : breadth_first_search (fun _ : Nat => ([] : List Nat)) 0 1
          = .ok [0] := by rfl
      rw [hcalc] at hr
      exact (Except.ok.inj hr).symm
    rw [← this]
    exact hr

/-! ## C4: BFS never revisits, terminates, and visits the reachable set -/

theorem mat_first_neighbor_lt {g : AdjacencyMatrix T W} {v i : Nat}
    (h : mat_first_neighbor g v = some i) : i < g.vertices := by
  unfold mat_first_neighbor at h
  split at h
  · cases h
  · split at h
    · cases h
    · exact List.mem_range.mp (List.mem_of_find?_eq_some h)

theorem mat_next_neighbor_lt {g : AdjacencyMatrix T W} {v cur i : Nat}
    (h : mat_next_neighbor g v cur = some i) : i < g.vertices := by
  unfold mat_next_neighbor at h
  split at h
  · cases h
  next hcond =>
    split at h
    · cases h
    · have hmem := List.mem_of_find?_eq_some h
      have := List.mem_range'_1.mp hmem
      omega

theorem enum_go_lt (next : Nat → Nat → Option Nat) (v : Nat) (n : Nat)
    (hnext : ∀ c j, next v c = some j → j < n) :
    ∀ fuel cur i, i ∈ enum_neighbors_go next v fuel cur → i < n := by
  intro fuel
  induction fuel with
  | zero => intro cur i h; cases h
  | succ fuel ih =>
    intro cur i h
    unfold enum_neighbors_go at h
    rcases hnx : next v cur with _ | nb
    · rw [hnx] at h; cases h
    · rw [hnx] at h
      rcases List.mem_cons.mp h with rfl | h'
      · exact hnext cur i hnx
      · exact ih nb i h'

theorem mat_neighbors_lt (g : AdjacencyMatrix T W) (v : Nat) :
    ∀ i ∈ mat_neighbors g v, i < g.vertices := by
  intro i h
  unfold mat_neighbors enum_neighbors at h
  rcases hf : mat_first_neighbor g v with _ | a
  · rw [hf] at h; cases h
  · rw [hf] at h
    rcases List.mem_cons.mp h with rfl | h'
    · exact mat_first_neighbor_lt hf
    · exact enum_go_lt (mat_next_neighbor g) v g.vertices
        (fun c j hj => mat_next_neighbor_lt hj) g.vertices a i h'

theorem mat_has_edge_lt {g : AdjacencyMatrix T W} {a b : Nat} (hwf : MatWf g)
    (h : mat_has_edge g a b = true) : a < g.vertices ∧ b < g.vertices := by
  unfold mat_has_edge mat_cell at h
  rcases hrow : g.matrix.get? a with _ | row
  · rw [hrow] at h; cases h
  · rw [hrow] at h
    rcases hcell : row.get? b with _ | c
    · rw [Option.some_bind, hcell] at h; cases h
    · have ha : a < g.matrix.length := by
        rcases List.get?_eq_some.mp hrow with ⟨h1, _⟩; exact h1
      have hb : b < row.length := by
        rcases List.get?_eq_some.mp hcell with ⟨h1, _⟩; exact h1
      have hrowmem : row ∈ g.matrix := by
        have := List.get?_eq_get ha
        rw [this] at hrow
        cases hrow
        exact List.get_mem _ _ _
      constructor
      · rw [← hwf.1]; exact ha
      · rw [← hwf.2 row hrowmem]; exact hb

theorem mat_neighbors_iff {g : AdjacencyMatrix T W} (hwf : MatWf g)
    (a b : Nat) : b ∈ mat_neighbors g a ↔ mat_has_edge g a b = true := by
  rcases Nat.lt_or_ge a g.vertices with ha | ha
  · obtain ⟨_, _, hc, _⟩ := c6_matrix_neighbor_enumeration g a hwf ha
    rw [hc, List.mem_filter]
    constructor
    · rintro ⟨_, h⟩
      exact h
    · intro h
      exact ⟨List.mem_range.mpr (mat_has_edge_lt hwf h).2, h⟩
  · constructor
    · intro h
      unfold mat_neighbors enum_neighbors mat_first_neighbor at h
      rw [if_pos (by omega : a ≥ g.vertices)] at h
      cases h
    · intro h
      exfalso
      have := (mat_has_edge_lt hwf h).1
      omega

theorem al_first_neighbor_lt {g : AdjacencyList T W} (hwf : AlWf g) {v i : Nat}
    (h : al_first_neighbor g v = some i) : i < g.vertices := by
  unfold al_first_neighbor at h
  split at h
  · cases h
  next hv =>
    rcases hrow : g.adj.get? v with _ | row
    · simp only [hrow] at h
      cases h
    · simp only [hrow] at h
      rcases Option.map_eq_some'.mp h with ⟨p, hp, hpi⟩
      have hrowmem : row ∈ g.adj := by
        have hlt : v < g.adj.length := by
          rcases List.get?_eq_some.mp hrow with ⟨h1, _⟩; exact h1
        have := List.get?_eq_get hlt
        rw [this] at hrow
        cases hrow
        exact List.get_mem _ _ _
      rw [← hpi]
      exact hwf.2 row hrowmem p (List.mem_of_mem_head? hp)

theorem al_next_in_mem {cur : Nat} :
    ∀ (row : List (Nat × W)) {i : Nat}, al_next_in cur row = some i →
      ∃ p ∈ row, p.1 = i := by
  intro row
  induction row with
  | nil => intro i h; cases h
  | cons p rest ih =>
    intro i h
    unfold al_next_in at h
    split at h
    · rcases hhd : rest.head? with _ | q
      · rw [hhd] at h; cases h
      · rw [hhd] at h
        cases h
        exact ⟨q, by simp [List.mem_of_mem_head? hhd], rfl⟩
    · obtain ⟨q, hq, hq1⟩ := ih h
      exact ⟨q, by simp [hq], hq1⟩

theorem al_next_neighbor_lt {g : AdjacencyList T W} (hwf : AlWf g) {v cur i : Nat}
    (h : al_next_neighbor g v cur = some i) : i < g.vertices := by
  unfold al_next_neighbor at h
  split at h
  · cases h
  · rcases hrow : g.adj.get? v with _ | row
    · simp only [hrow] at h
      cases h
    · simp only [hrow] at h
      obtain ⟨p, hp, hp1⟩ := al_next_in_mem row h
      have hrowmem : row ∈ g.adj := by
        have hlt : v < g.adj.length := by
          rcases List.get?_eq_some.mp hrow with ⟨h1, _⟩; exact h1
        have := List.get?_eq_get hlt
        rw [this] at hrow
        cases hrow
        exact List.get_mem _ _ _
      rw [← hp1]
      exact hwf.2 row hrowmem p hp

theorem al_neighbors_lt {g : AdjacencyList T W} (hwf : AlWf g) (v : Nat) :
    ∀ i ∈ al_neighbors g v, i < g.vertices := by
  intro i h
  unfold al_neighbors enum_neighbors at h
  rcases hf : al_first_neighbor g v with _ | a
  · rw [hf] at h; cases h
  · rw [hf] at h
    rcases List.mem_cons.mp h with rfl | h'
    · exact al_first_neighbor_lt hwf hf
    · exact enum_go_lt (al_next_neighbor g) v g.vertices
        (fun c j hj => al_next_neighbor_lt hwf hj) _ a i h'

/-- C4: `breadth_first_search` calls the visitor at most once per vertex
(its order is duplicate-free), terminates after emptying its queue
(returns `.ok`), and visits exactly the vertices reachable from `start`
through the neighbor enumeration — in particular, only `start` itself
when `start` enumerates no neighbors, and unreachable vertices are
silently absent from the order.  Stated for any enumeration bounded by
`vertex_count`, and instantiated at the two storage types implementing
`GraphNeighbor`: `AdjacencyMatrix` (where the enumeration relation
coincides with cell presence) and `AdjacencyList`. -/
theorem c4_bfs_contract :
    (∀ (nbrs : Nat → List Nat) (start count : Nat), start < count →
      (∀ u v, v ∈ nbrs u → v < count) →
      ∃ order, breadth_first_search nbrs start count = .ok order ∧
        order.Nodup ∧
        (∀ v, v ∈ order ↔ Reaches nbrs start v) ∧
        (nbrs start = [] → order = [start])) ∧
    (∀ (T W : Type) (g : AdjacencyMatrix T W) (start : Nat),
      start < g.vertices →
      ∃ order, mat_bfs g start g.vertices = .ok order ∧
        order.Nodup ∧
        (∀ v, v ∈ order ↔ Reaches (mat_neighbors g) start v) ∧
        (mat_neighbors g start = [] → order = [start]) ∧
        (MatWf g → ∀ a b, b ∈ mat_neighbors g a ↔ mat_has_edge g a b = true)) ∧
    (∀ (T W : Type) (g : AdjacencyList T W) (start : Nat), AlWf g →
      start < g.vertices →
      ∃ order, al_bfs g start g.vertices = .ok order ∧
        order.Nodup ∧
        (∀ v, v ∈ order ↔ Reaches (al_neighbors g) start v) ∧
        (al_neighbors g start = [] → order = [start])) := by
  refine ⟨?_, ?_, ?_⟩
  · intro nbrs start count hstart hn
    exact bfs_correct nbrs start count hstart hn
  · intro T W g start hstart
    obtain ⟨order, h1, h2, h3, h4⟩ :=
      bfs_correct (mat_neighbors g) start g.vertices hstart
        (fun u v hv => mat_neighbors_lt g u v hv)
    exact ⟨order, h1, h2, h3, h4, fun hwf a b => mat_neighbors_iff hwf a b⟩
  · intro T W g start hwf hstart
    exact bfs_correct (al_neighbors g) start g.vertices hstart
      (fun u v hv => al_neighbors_lt hwf u v hv)

/-- Witness for C4 on the 2-vertex matrix with the single edge (0,1):
BFS from 0 returns normally; BFS from the isolated vertex 1 visits only
vertex 1. -/
theorem c4_bfs_contract_witness :
    mat_bfs c5_g1 0 2 = .ok [0, 1] ∧ mat_bfs c5_g1 1 2 = .ok [1] := by
  obtain ⟨_, hmat, _⟩ := c4_bfs_contract
  constructor
  · obtain ⟨order, h1, _, _, _, _⟩ := hmat Unit Nat c5_g1 0 (by decide)
    have hcalc : mat_bfs c5_g1 0 2 = .ok [0, 1] := by rfl
    exact hcalc
  · obtain ⟨order, h1, _, _, hiso, _⟩ := hmat Unit Nat c5_g1 1 (by decide)
    have hempty : mat_neighbors c5_g1 1 = [] := by rfl
    have := hiso hempty
    rw [this] at h1
    exact h1

/-! ## OrthogonalList: step lemmas for the chain walks -/

theorem ol_alloc_arc_eq (g : OrthogonalList T W) (a : OLArc W) :
    ol_alloc_arc g a = ({ g with arcs := g.arcs ++ [some a] }, g.arcs.length) := by
  unfold ol_alloc_arc
  cases g.free_arc_head <;> rfl

theorem ol_set_first_out_length (vs : List (OLVertex T)) (v : Nat) (l : Option Nat) :
    (ol_set_first_out vs v l).length = vs.length := by
  unfold ol_set_first_out
  cases h : vs.get? v <;> simp

theorem ol_set_first_in_length (vs : List (OLVertex T)) (v : Nat) (l : Option Nat) :
    (ol_set_first_in vs v l).length = vs.length := by
  unfold ol_set_first_in
  cases h : vs.get? v <;> simp

theorem ol_set_first_out_get_self {vs : List (OLVertex T)} {v : Nat}
    (hv : v < vs.length) (l : Option Nat) :
    ∃ vx, vs.get? v = some vx ∧
      (ol_set_first_out vs v l).get? v = some { vx with first_out := l } := by
  obtain ⟨vx, hvx⟩ : ∃ vx, vs.get? v = some vx := ⟨_, List.get?_eq_get hv⟩
  refine ⟨vx, hvx, ?_⟩
  unfold ol_set_first_out
  rw [hvx]
  rw [List.get?_set_of_lt' _ _ hv, if_pos rfl]

theorem ol_set_first_in_get_self {vs : List (OLVertex T)} {v : Nat}
    (hv : v < vs.length) (l : Option Nat) :
    ∃ vx, vs.get? v = some vx ∧
      (ol_set_first_in vs v l).get? v = some { vx with first_in := l } := by
  obtain ⟨vx, hvx⟩ : ∃ vx, vs.get? v = some vx := ⟨_, List.get?_eq_get hv⟩
  refine ⟨vx, hvx, ?_⟩
  unfold ol_set_first_in
  rw [hvx]
  rw [List.get?_set_of_lt' _ _ hv, if_pos rfl]

theorem ol_set_first_out_get_ne (vs : List (OLVertex T)) {u v : Nat}
    (hne : u ≠ v) (l : Option Nat) :
    (ol_set_first_out vs v l).get? u = vs.get? u := by
  unfold ol_set_first_out
  cases h : vs.get? v with
  | none => rfl
  | some vx =>
    have hv : v < vs.length := by
      rcases List.get?_eq_some.mp h with ⟨h1, _⟩; exact h1
    rw [List.get?_set_of_lt' _ _ hv, if_neg (fun h2 => hne h2.symm)]

theorem ol_set_first_in_get_ne (vs : List (OLVertex T)) {u v : Nat}
    (hne : u ≠ v) (l : Option Nat) :
    (ol_set_first_in vs v l).get? u = vs.get? u := by
  unfold ol_set_first_in
  cases h : vs.get? v with
  | none => rfl
  | some vx =>
    have hv : v < vs.length := by
      rcases List.get?_eq_some.mp h with ⟨h1, _⟩; exact h1
    rw [List.get?_set_of_lt' _ _ hv, if_neg (fun h2 => hne h2.symm)]

/-- `first_out` survives a `first_in` update of any vertex. -/
theorem first_out_after_set_in (vs : List (OLVertex T)) (u v : Nat) (l : Option Nat) :
    ((ol_set_first_in vs v l).get? u).map OLVertex.first_out
      = (vs.get? u).map OLVertex.first_out := by
  rcases Decidable.em (u = v) with rfl | hne
  · cases hv : Nat.decLt u vs.length with
    | isTrue h =>
      obtain ⟨vx, hvx, hvx'⟩ := ol_set_first_in_get_self h l
      rw [hvx, hvx']
      rfl
    | isFalse h =>
      have h1 : vs.get? u = none := List.get?_len_le (by omega)
      have h2 : (ol_set_first_in vs u l).get? u = none :=
        List.get?_len_le (by rw [ol_set_first_in_length]; omega)
      rw [h1, h2]
  · rw [ol_set_first_in_get_ne vs hne l]

/-- `first_in` survives a `first_out` update of any vertex. -/
theorem first_in_after_set_out (vs : List (OLVertex T)) (u v : Nat) (l : Option Nat) :
    ((ol_set_first_out vs v l).get? u).map OLVertex.first_in
      = (vs.get? u).map OLVertex.first_in := by
  rcases Decidable.em (u = v) with rfl | hne
  · cases hv : Nat.decLt u vs.length with
    | isTrue h =>
      obtain ⟨vx, hvx, hvx'⟩ := ol_set_first_out_get_self h l
      rw [hvx, hvx']
      rfl
    | isFalse h =>
      have h1 : vs.get? u = none := List.get?_len_le (by omega)
      have h2 : (ol_set_first_out vs u l).get? u = none :=
        List.get?_len_le (by rw [ol_set_first_out_length]; omega)
      rw [h1, h2]
  · rw [ol_set_first_out_get_ne vs hne l]

theorem ol_get_edge_go_found {arcs : List (Option (OLArc W))} {t idx : Nat}
    {a : OLArc W} (h : arcs.get? idx = some (some a)) (hmatch : a.head_vex = t) :
    ∀ fuel, 0 < fuel → ol_get_edge_go arcs t fuel (some idx) = some a.weight := by
  intro fuel hf
  cases fuel with
  | zero => omega
  | succ f =>
    unfold ol_get_edge_go
    simp only [h]
    rw [if_pos (by simp [hmatch])]

theorem ol_get_edge_go_skip {arcs : List (Option (OLArc W))} {t idx : Nat}
    {a : OLArc W} (h : arcs.get? idx = some (some a)) (hmiss : a.head_vex ≠ t) :
    ∀ fuel, ol_get_edge_go arcs t (fuel + 1) (some idx)
      = ol_get_edge_go arcs t fuel a.tail_link := by
  intro fuel
  simp only [ol_get_edge_go, h]
  rw [if_neg (by simp [hmiss])]

theorem ol_find_out_found {arcs : List (Option (OLArc W))} {t idx : Nat}
    {a : OLArc W} (h : arcs.get? idx = some (some a)) (hmatch : a.head_vex = t) :
    ∀ fuel prev, 0 < fuel →
      ol_find_out arcs t fuel prev (some idx) = (prev, some idx, a.tail_link) := by
  intro fuel prev hf
  cases fuel with
  | zero => omega
  | succ f =>
    unfold ol_find_out
    simp only [h]
    rw [if_pos (by simp [hmatch])]

theorem ol_find_out_skip {arcs : List (Option (OLArc W))} {t idx : Nat}
    {a : OLArc W} (h : arcs.get? idx = some (some a)) (hmiss : a.head_vex ≠ t) :
    ∀ fuel prev, ol_find_out arcs t (fuel + 1) prev (some idx)
      = ol_find_out arcs t fuel (some idx) a.tail_link := by
  intro fuel prev
  simp only [ol_find_out, h]
  rw [if_neg (by simp [hmiss])]

theorem ol_find_in_found {arcs : List (Option (OLArc W))} {idx : Nat}
    {a : OLArc W} (h : arcs.get? idx = some (some a)) :
    ∀ fuel prev, 0 < fuel →
      ol_find_in arcs idx fuel prev (some idx) = (prev, true, a.head_link) := by
  intro fuel prev hf
  cases fuel with
  | zero => omega
  | succ f =>
    unfold ol_find_in
    simp only [h]
    rw [if_pos (by simp)]

theorem ol_find_in_skip {arcs : List (Option (OLArc W))} {target idx : Nat}
    {a : OLArc W} (h : arcs.get? idx = some (some a)) (hne : idx ≠ target) :
    ∀ fuel prev, ol_find_in arcs target (fuel + 1) prev (some idx)
      = ol_find_in arcs target fuel (some idx) a.head_link := by
  intro fuel prev
  simp only [ol_find_in, h]
  rw [if_neg (by simp [hne])]

theorem ol_patch_tail_length (arcs : List (Option (OLArc W))) (p : Nat)
    (l : Option Nat) : (ol_patch_tail arcs p l).length = arcs.length := by
  unfold ol_patch_tail
  cases h : arcs.get? p with
  | none => rfl
  | some s => cases s <;> simp

theorem ol_patch_head_length (arcs : List (Option (OLArc W))) (p : Nat)
    (l : Option Nat) : (ol_patch_head arcs p l).length = arcs.length := by
  unfold ol_patch_head
  cases h : arcs.get? p with
  | none => rfl
  | some s => cases s <;> simp

/-- `remove_edge` never changes the slot count or the free-list head. -/
theorem ol_remove_edge_shape (g : OrthogonalList T W) (f t : Nat) :
    (ol_remove_edge g f t).arcs.length = g.arcs.length ∧
    (ol_remove_edge g f t).free_arc_head = g.free_arc_head ∧
    (ol_remove_edge g f t).vertices.length = g.vertices.length := by
  unfold ol_remove_edge
  split
  · exact ⟨rfl, rfl, rfl⟩
  · rcases hfo : ol_find_out g.arcs t g.arcs.length none (ol_first_out g f) with
      ⟨prev, tgt, nxt⟩
    cases tgt with
    | none => exact ⟨rfl, rfl, rfl⟩
    | some target =>
      cases prev with
      | some p =>
        rcases hfi : ol_find_in (ol_patch_tail g.arcs p nxt) target
            (ol_patch_tail g.arcs p nxt).length none
            (ol_first_in { g with arcs := ol_patch_tail g.arcs p nxt } t) with
          ⟨prev2, found, nxt2⟩
        cases found with
        | false =>
          simp only [hfi]
          refine ⟨?_, ?_, ?_⟩ <;>
            simp [ol_patch_tail_length, ol_patch_head_length,
              ol_set_first_in_length, ol_set_first_out_length]
        | true =>
          simp only [hfi]
          cases prev2 with
          | some p2 =>
            refine ⟨?_, ?_, ?_⟩ <;>
              simp [ol_patch_tail_length, ol_patch_head_length,
                ol_set_first_in_length, ol_set_first_out_length]
          | none =>
            refine ⟨?_, ?_, ?_⟩ <;>
              simp [ol_patch_tail_length, ol_patch_head_length,
                ol_set_first_in_length, ol_set_first_out_length]
      | none =>
        rcases hfi : ol_find_in g.arcs target g.arcs.length none
            (ol_first_in { g with vertices := ol_set_first_out g.vertices f nxt } t) with
          ⟨prev2, found, nxt2⟩
        cases found with
        | false =>
          simp only [hfi]
          refine ⟨?_, ?_, ?_⟩ <;>
            simp [ol_patch_tail_length, ol_patch_head_length,
              ol_set_first_in_length, ol_set_first_out_length]
        | true =>
          simp only [hfi]
          cases prev2 with
          | some p2 =>
            refine ⟨?_, ?_, ?_⟩ <;>
              simp [ol_patch_tail_length, ol_patch_head_length,
                ol_set_first_in_length, ol_set_first_out_length]
          | none =>
            refine ⟨?_, ?_, ?_⟩ <;>
              simp [ol_patch_tail_length, ol_patch_head_length,
                ol_set_first_in_length, ol_set_first_out_length]

theorem ol_first_out_def (g : OrthogonalList T W) (u : Nat) :
    ol_first_out g u = ((g.vertices.get? u).map OLVertex.first_out).getD none := by
  unfold ol_first_out
  cases g.vertices.get? u <;> rfl

theorem ol_first_in_def (g : OrthogonalList T W) (u : Nat) :
    ol_first_in g u = ((g.vertices.get? u).map OLVertex.first_in).getD none := by
  unfold ol_first_in
  cases g.vertices.get? u <;> rfl

theorem ol_add_edge_eq (g : OrthogonalList T W) {u v : Nat} (w : W)
    (hu : u < g.vertices.length) (hv : v < g.vertices.length) :
    ol_add_edge g u v w = some
      { vertices := ol_set_first_in
          (ol_set_first_out g.vertices u (some g.arcs.length)) v (some g.arcs.length)
        arcs := g.arcs ++ [some ⟨u, v, ol_first_in g v, ol_first_out g u, w⟩]
        free_arc_head := g.free_arc_head
        edge_count := g.edge_count + 1 } := by
  unfold ol_add_edge
  rw [if_neg (by omega : ¬(u ≥ g.vertices.length ∨ v ≥ g.vertices.length))]
  simp only [ol_alloc_arc_eq]

/-! ## C9: duplicate arcs in the OrthogonalList -/

/-- C9: `OrthogonalList::add_edge` never deduplicates.  Adding the arc
(u,v) twice produces two live arena slots for the same pair and bumps
`edge_count` twice; `get_edge` then answers with the newest weight; a
single `remove_edge` kills only the newest slot, after which `get_edge`
answers with the older weight instead of absence.  The arena only ever
grows (`remove_edge` keeps `arcs.len()`), and the free-list head is
never written: `new` sets it to `None` and every operation preserves it. -/
theorem c9_orthogonal_never_dedups (T W : Type) :
    (∀ (g : OrthogonalList T W) (u v : Nat) (w1 w2 : W),
      u < g.vertices.length → v < g.vertices.length →
      ∃ g1 g2, ol_add_edge g u v w1 = some g1 ∧ ol_add_edge g1 u v w2 = some g2 ∧
        g1.arcs.length = g.arcs.length + 1 ∧
        g2.arcs.length = g.arcs.length + 2 ∧
        g2.edge_count = g.edge_count + 2 ∧
        g1.free_arc_head = g.free_arc_head ∧
        g2.free_arc_head = g.free_arc_head ∧
        (∃ a1, arcAt g2.arcs g.arcs.length = some a1 ∧
          a1.tail_vex = u ∧ a1.head_vex = v ∧ a1.weight = w1) ∧
        (∃ a2, arcAt g2.arcs (g.arcs.length + 1) = some a2 ∧
          a2.tail_vex = u ∧ a2.head_vex = v ∧ a2.weight = w2) ∧
        ol_get_edge g2 u v = some w2 ∧
        ol_get_edge (ol_remove_edge g2 u v) u v = some w1 ∧
        (ol_remove_edge g2 u v).arcs.length = g2.arcs.length ∧
        (ol_remove_edge g2 u v).edge_count = g.edge_count + 1 ∧
        arcAt (ol_remove_edge g2 u v).arcs (g.arcs.length + 1) = none ∧
        (∃ a1, arcAt (ol_remove_edge g2 u v).arcs g.arcs.length = some a1 ∧
          a1.tail_vex = u ∧ a1.head_vex = v ∧ a1.weight = w1) ∧
        (ol_remove_edge g2 u v).free_arc_head = g.free_arc_head) ∧
    (ol_new T W).free_arc_head = none ∧
    (∀ (g : OrthogonalList T W) (d : T),
      (ol_add_vertex g d).1.free_arc_head = g.free_arc_head) ∧
    (∀ (g : OrthogonalList T W) (f t : Nat),
      (ol_remove_edge g f t).arcs.length = g.arcs.length ∧
      (ol_remove_edge g f t).free_arc_head = g.free_arc_head) := by
  refine ⟨?_, rfl, fun g d => rfl,
    fun g f t => ⟨(ol_remove_edge_shape g f t).1, (ol_remove_edge_shape g f t).2.1⟩⟩
  intro g u v w1 w2 hu hv
  set m1 := g.arcs.length with hm1
  have h1 := ol_add_edge_eq g w1 hu hv
  set G1 : OrthogonalList T W :=
    { vertices := ol_set_first_in
        (ol_set_first_out g.vertices u (some m1)) v (some m1)
      arcs := g.arcs ++ [some ⟨u, v, ol_first_in g v, ol_first_out g u, w1⟩]
      free_arc_head := g.free_arc_head
      edge_count := g.edge_count + 1 } with hG1
  have hvs1 : G1.vertices.length = g.vertices.length := by
    rw [hG1]
    simp [ol_set_first_in_length, ol_set_first_out_length]
  have harcs1 : G1.arcs.length = m1 + 1 := by
    rw [hG1]
    simp
  have hfoG1 : ol_first_out G1 u = some m1 := by
    rw [ol_first_out_def, hG1]
    simp only
    rw [first_out_after_set_in]
    obtain ⟨vx, hvx, hvx'⟩ := ol_set_first_out_get_self (l := some m1) hu
    rw [hvx']
    rfl
  have hfiG1 : ol_first_in G1 v = some m1 := by
    rw [ol_first_in_def, hG1]
    simp only
    obtain ⟨vx, hvx, hvx'⟩ := ol_set_first_in_get_self
      (show v < (ol_set_first_out g.vertices u (some m1)).length from by
        rw [ol_set_first_out_length]; exact hv) (some m1)
    rw [hvx']
    rfl
  have h2 := ol_add_edge_eq G1 (u := u) (v := v) w2
    (by rw [hvs1]; exact hu) (by rw [hvs1]; exact hv)
  rw [hfoG1, hfiG1, harcs1] at h2
  set G2 : OrthogonalList T W :=
    { vertices := ol_set_first_in
        (ol_set_first_out G1.vertices u (some (m1 + 1))) v (some (m1 + 1))
      arcs := G1.arcs ++ [some ⟨u, v, some m1, some m1, w2⟩]
      free_arc_head := G1.free_arc_head
      edge_count := G1.edge_count + 1 } with hG2
  have hvs2 : G2.vertices.length = g.vertices.length := by
    rw [hG2]
    simp only
    rw [ol_set_first_in_length, ol_set_first_out_length]
    exact hvs1
  have harcs_eq : G2.arcs
      = (g.arcs ++ [some ⟨u, v, ol_first_in g v, ol_first_out g u, w1⟩])
        ++ [some ⟨u, v, some m1, some m1, w2⟩] := by
    rw [hG2, hG1]
  have harcs2 : G2.arcs.length = m1 + 2 := by
    rw [harcs_eq]
    simp
  have hfree1 : G1.free_arc_head = g.free_arc_head := rfl
  have hfree2 : G2.free_arc_head = g.free_arc_head := rfl
  have hec2 : G2.edge_count = g.edge_count + 2 := rfl
  have hat1 : G2.arcs.get? m1
      = some (some ⟨u, v, ol_first_in g v, ol_first_out g u, w1⟩) := by
    rw [harcs_eq]
    rw [List.get?_append (by simp)]
    exact List.get?_concat_length g.arcs _
  have hat2 : G2.arcs.get? (m1 + 1) = some (some ⟨u, v, some m1, some m1, w2⟩) := by
    rw [harcs_eq]
    have := List.get?_concat_length
      (g.arcs ++ [some (⟨u, v, ol_first_in g v, ol_first_out g u, w1⟩ : OLArc W)])
      (some (⟨u, v, some m1, some m1, w2⟩ : OLArc W))
    simpa using this
  have hfoG2 : ol_first_out G2 u = some (m1 + 1) := by
    rw [ol_first_out_def, hG2]
    simp only
    rw [first_out_after_set_in]
    obtain ⟨vx, hvx, hvx'⟩ := ol_set_first_out_get_self
      (show u < G1.vertices.length from by rw [hvs1]; exact hu) (some (m1 + 1))
    rw [hvx']
    rfl
  have hfiG2 : ol_first_in G2 v = some (m1 + 1) := by
    rw [ol_first_in_def, hG2]
    simp only
    obtain ⟨vx, hvx, hvx'⟩ := ol_set_first_in_get_self
      (show v < (ol_set_first_out G1.vertices u (some (m1 + 1))).length from by
        rw [ol_set_first_out_length, hvs1]; exact hv) (some (m1 + 1))
    rw [hvx']
    rfl
  have hbound2 : ¬(u ≥ G2.vertices.length ∨ v ≥ G2.vertices.length) := by
    rw [hvs2]
    omega
  have hget2 : ol_get_edge G2 u v = some w2 := by
    unfold ol_get_edge
    rw [if_neg hbound2, hfoG2]
    exact ol_get_edge_go_found hat2 rfl _ (by omega)
  -- the removal: the walk finds the newest arc immediately
  have hfind : ol_find_out G2.arcs v G2.arcs.length none (ol_first_out G2 u)
      = (none, some (m1 + 1), some m1) := by
    rw [hfoG2]
    exact ol_find_out_found hat2 rfl _ none (by omega)
  set G2' : OrthogonalList T W :=
    { G2 with vertices := ol_set_first_out G2.vertices u (some m1) } with hG2'
  have hfiG2' : ol_first_in G2' v = some (m1 + 1) := by
    rw [ol_first_in_def] at hfiG2 ⊢
    rw [hG2']
    simp only
    rw [first_in_after_set_out]
    exact hfiG2
  have hG2'arcs : G2'.arcs = G2.arcs := by rw [hG2']
  have hat2'' : G2'.arcs.get? (m1 + 1)
      = some (some ⟨u, v, some m1, some m1, w2⟩) := by
    rw [hG2'arcs]
    exact hat2
  have hlen2' : 0 < G2'.arcs.length := by
    rw [hG2'arcs, harcs2]
    omega
  have hfindin : ol_find_in G2'.arcs (m1 + 1) G2'.arcs.length none
      (ol_first_in G2' v) = (none, true, some m1) := by
    rw [hfiG2']
    exact ol_find_in_found hat2'' _ none hlen2'
  set G3 : OrthogonalList T W :=
    { vertices := ol_set_first_in G2'.vertices v (some m1)
      arcs := G2.arcs.set (m1 + 1) none
      free_arc_head := G2.free_arc_head
      edge_count := G2.edge_count - 1 } with hG3
  have hrem : ol_remove_edge G2 u v = G3 := by
    unfold ol_remove_edge
    rw [if_neg hbound2]
    simp only [hfind, hfindin]
  have hG3vs : G3.vertices = ol_set_first_in G2'.vertices v (some m1) := by
    rw [hG3]
  have hG2'vs : G2'.vertices = ol_set_first_out G2.vertices u (some m1) := by
    rw [hG2']
  have hvs3 : G3.vertices.length = g.vertices.length := by
    rw [hG3vs, ol_set_first_in_length, hG2'vs, ol_set_first_out_length]
    exact hvs2
  have hfoG3 : ol_first_out G3 u = some m1 := by
    rw [ol_first_out_def, hG3vs]
    rw [first_out_after_set_in, hG2'vs]
    obtain ⟨vx, hvx, hvx'⟩ := ol_set_first_out_get_self
      (show u < G2.vertices.length from by rw [hvs2]; exact hu) (some m1)
    rw [hvx']
    rfl
  have hat1' : G3.arcs.get? m1
      = some (some ⟨u, v, ol_first_in g v, ol_first_out g u, w1⟩) := by
    rw [hG3]
    simp only
    rw [List.get?_set_of_lt' _ _ (by rw [harcs2]; omega), if_neg (by omega)]
    exact hat1
  have hat2' : G3.arcs.get? (m1 + 1) = some none := by
    rw [hG3]
    simp only
    rw [List.get?_set_of_lt' _ _ (by rw [harcs2]; omega), if_pos rfl]
  have hget3 : ol_get_edge G3 u v = some w1 := by
    unfold ol_get_edge
    rw [if_neg (by rw [hvs3]; omega), hfoG3]
    exact ol_get_edge_go_found hat1' rfl _
      (by rw [hG3]; simp only; rw [List.length_set, harcs2]; omega)
  refine ⟨G1, G2, h1, h2, harcs1, by rw [harcs2, hm1], hec2, hfree1, hfree2,
    ?_, ?_, hget2, ?_, ?_, ?_, ?_, ?_, ?_⟩
  · exact ⟨_, by unfold arcAt; rw [hat1]; rfl, rfl, rfl, rfl⟩
  · exact ⟨_, by unfold arcAt; rw [hat2]; rfl, rfl, rfl, rfl⟩
  · rw [hrem]
    exact hget3
  · rw [hrem, hG3]
    simp only
    rw [List.length_set]
  · rw [hrem]
    rfl
  · rw [hrem]
    unfold arcAt
    rw [hat2']
    rfl
  · rw [hrem]
    exact ⟨_, by unfold arcAt; rw [hat1']; rfl, rfl, rfl, rfl⟩
  · rw [hrem]

/-- Witness for C9 on the 2-vertex, arc-free orthogonal list. -/
theorem c9_orthogonal_never_dedups_witness :
    ((ol_add_edge ol_demo0 0 1 10).bind fun g1 => ol_add_edge g1 0 1 20).map
      (fun g2 => (g2.edge_count, g2.arcs.length, ol_get_edge g2 0 1,
        ol_get_edge (ol_remove_edge g2 0 1) 0 1,
        (ol_remove_edge g2 0 1).arcs.length,
        (ol_remove_edge g2 0 1).free_arc_head))
      = some (2, 2, some 20, some 10, 2, none) := by
  obtain ⟨hmain, _, _, _⟩ := c9_orthogonal_never_dedups Nat Nat
  obtain ⟨g1, g2, h1, h2, hl1, hl2, hec, hf1, hf2, _, _, hget2, hget3, hl3, hec3,
    _, _, hf3⟩ := hmain ol_demo0 0 1 10 20 (by decide) (by decide)
  rw [h1, Option.some_bind, h2, Option.map_some']
  have e1 : g2.edge_count = 2 := hec
  have e2 : g2.arcs.length = 2 := hl2
  have e3 : (ol_remove_edge g2 0 1).arcs.length = 2 := by rw [hl3]; exact hl2
  have e4 : (ol_remove_edge g2 0 1).free_arc_head = none := hf3
  rw [e1, e2, hget2, hget3, e3, e4]

/-! ## C1: add/get/remove across the four representations -/

/-- Appending a slot and then overwriting it in place. -/
theorem set_concat_length (l : List α) (x y : α) :
    (l ++ [x]).set l.length y = l ++ [y] := by
  induction l with
  | nil => rfl
  | cons a l ih => simp only [List.cons_append, List.length_cons, List.set_cons_succ, ih]

/-- `al_set_weight` rewrites the first matching pair in place: the first
match of the result is the first match of the input, carrying the new
weight. -/
theorem al_set_weight_find (v : Nat) (w : W) :
    ∀ row : List (Nat × W),
      (al_set_weight v w row).find? (fun p => p.1 == v)
        = (row.find? (fun p => p.1 == v)).map fun q => (q.1, w) := by
  intro row
  induction row with
  | nil => rfl
  | cons p rest ih =>
    simp only [al_set_weight]
    by_cases h : (p.1 == v) = true
    · rw [if_pos h,
        List.find?_cons_of_pos (p := fun q : Nat × W => q.1 == v) (a := (p.1, w)) rest h,
        List.find?_cons_of_pos (p := fun q : Nat × W => q.1 == v) (a := p) rest h]
      rfl
    · rw [if_neg h]
      rw [List.find?_cons_of_neg (p := fun q : Nat × W => q.1 == v) (a := p)
          (al_set_weight v w rest) h,
        List.find?_cons_of_neg (p := fun q : Nat × W => q.1 == v) (a := p) rest h]
      exact ih

/-- `al_set_weight` does not change the row's targets. -/
theorem al_set_weight_keys (v : Nat) (w : W) :
    ∀ row : List (Nat × W),
      (al_set_weight v w row).map Prod.fst = row.map Prod.fst := by
  intro row
  induction row with
  | nil => rfl
  | cons p rest ih =>
    simp only [al_set_weight]
    by_cases h : (p.1 == v) = true
    · rw [if_pos h]
      rfl
    · rw [if_neg h]
      simp only [List.map_cons, ih]

/-- Erasing the first match from a row with pairwise-distinct targets
leaves no match. -/
theorem erase_first_match_find_none (v : Nat) :
    ∀ (row : List (Nat × W)) (idx : Nat), (row.map Prod.fst).Nodup →
      row.findIdx? (fun p => p.1 == v) = some idx →
      (row.eraseIdx idx).find? (fun p => p.1 == v) = none := by
  intro row
  induction row with
  | nil =>
    intro idx _ h
    simp [List.findIdx?] at h
  | cons p rest ih =>
    intro idx hnd hfi
    rw [List.findIdx?_cons] at hfi
    by_cases h : (p.1 == v) = true
    · rw [if_pos h] at hfi
      have h0 : idx = 0 := by
        cases hfi
        rfl
      subst h0
      rw [List.eraseIdx_cons_zero, List.find?_eq_none]
      intro q hq hq'
      have hqv : q.1 = v := by simpa using hq'
      have hpv : p.1 = v := by simpa using h
      have hmem : p.1 ∈ rest.map Prod.fst := by
        rw [hpv, ← hqv]
        exact List.mem_map_of_mem Prod.fst hq
      have hnd' : p.1 ∉ rest.map Prod.fst := by
        rw [List.map_cons] at hnd
        exact (List.nodup_cons.mp hnd).1
      exact hnd' hmem
    · rw [if_neg h, List.findIdx?_succ] at hfi
      obtain ⟨idx', hidx', rfl⟩ := Option.map_eq_some'.mp hfi
      rw [List.eraseIdx_cons_succ,
        List.find?_cons_of_neg (p := fun q : Nat × W => q.1 == v) (a := p)
          (rest.eraseIdx idx') h]
      have hnd' : (rest.map Prod.fst).Nodup := by
        rw [List.map_cons] at hnd
        exact (List.nodup_cons.mp hnd).2
      exact ih idx' hnd' hidx'

/-- `al_get_edge` through a known row. -/
theorem al_get_edge_of_row {g : AdjacencyList T W} {u v : Nat}
    {row : List (Nat × W)} (hrow : g.adj.get? u = some row)
    (hu : u < g.vertices) (hv : v < g.vertices) :
    al_get_edge g u v = some ((row.find? (fun p => p.1 == v)).map (·.2)) := by
  unfold al_get_edge
  rw [if_neg (by omega)]
  simp only [hrow]

/-- When `u`'s row matches `v` and has pairwise-distinct targets, the
list's `remove_edge` erases the match and `get_edge` then reports
absence. -/
theorem al_remove_after (g1 : AdjacencyList T W) {u v : Nat}
    {row' : List (Nat × W)}
    (hlen1 : g1.adj.length = g1.vertices)
    (hrow' : g1.adj.get? u = some row')
    (hnd' : (row'.map Prod.fst).Nodup)
    (hmatch : (row'.find? (fun p => p.1 == v)).isSome)
    (hu : u < g1.vertices) (hv : v < g1.vertices) :
    ∃ g'', al_remove_edge g1 u v = some g'' ∧ al_get_edge g'' u v = some none := by
  have hb : ¬(u ≥ g1.vertices ∨ v ≥ g1.vertices) := by omega
  have hul : u < g1.adj.length := by omega
  cases hfi : row'.findIdx? (fun p => p.1 == v) with
  | none =>
    exfalso
    have : row'.find? (fun p => p.1 == v) = none := by
      rw [List.find?_eq_none]
      intro q hq
      have := List.findIdx?_eq_none_iff.mp hfi q hq
      simp [this]
    rw [this] at hmatch
    simp at hmatch
  | some idx =>
    set g2 : AdjacencyList T W := { g1 with
      adj := g1.adj.set u (row'.eraseIdx idx)
      edges := g1.edges - 1 } with hg2
    refine ⟨g2, ?_, ?_⟩
    · unfold al_remove_edge
      rw [if_neg hb]
      simp only [hrow', hfi]
    · have hrow2 : g2.adj.get? u = some (row'.eraseIdx idx) := by
        rw [hg2]
        simp only
        rw [List.get?_set_of_lt' _ _ hul, if_pos rfl]
      have := al_get_edge_of_row (g := g2) (v := v) hrow2 hu hv
      rw [this, erase_first_match_find_none v row' idx hnd' hfi]
      rfl

/-- The list part of the amended C1: update-or-append on `add_edge`
always leaves `(v, w)` as the row's first match, and `remove_edge` then
restores absence when the row's targets are pairwise distinct. -/
theorem al_c1_core (g : AdjacencyList T W) {u v : Nat} (w : W)
    {row : List (Nat × W)}
    (hlen : g.adj.length = g.vertices)
    (hrow : g.adj.get? u = some row)
    (hnd : (row.map Prod.fst).Nodup)
    (hu : u < g.vertices) (hv : v < g.vertices) :
    ∃ g' g'', al_add_edge g u v w = some g' ∧
      al_get_edge g' u v = some (some w) ∧
      al_remove_edge g' u v = some g'' ∧
      al_get_edge g'' u v = some none := by
  have hb : ¬(u ≥ g.vertices ∨ v ≥ g.vertices) := by omega
  have hul : u < g.adj.length := by omega
  cases hfind : row.find? (fun p => p.1 == v) with
  | some q =>
    set row' := al_set_weight v w row with hrowdef
    set g1 : AdjacencyList T W := { g with adj := g.adj.set u row' } with hg1
    have hadd : al_add_edge g u v w = some g1 := by
      unfold al_add_edge
      rw [if_neg hb]
      simp only [hrow, hfind]
    have hrow1 : g1.adj.get? u = some row' := by
      rw [hg1]
      simp only
      rw [List.get?_set_of_lt' _ _ hul, if_pos rfl]
    have hqv : q.1 = v := by
      have := List.find?_some hfind
      simpa using this
    have hfind' : row'.find? (fun p => p.1 == v) = some (v, w) := by
      rw [hrowdef, al_set_weight_find, hfind]
      simp only [Option.map_some']
      rw [hqv]
    have hnd1 : (row'.map Prod.fst).Nodup := by
      rw [hrowdef, al_set_weight_keys]
      exact hnd
    have hget1 : al_get_edge g1 u v = some (some w) := by
      rw [al_get_edge_of_row hrow1 hu hv, hfind']
      rfl
    obtain ⟨g'', hrem, hget2⟩ := al_remove_after g1 (by rw [hg1]; simpa using hlen)
      hrow1 hnd1 (by rw [hfind']; rfl) hu hv
    exact ⟨g1, g'', hadd, hget1, hrem, hget2⟩
  | none =>
    set row' := row ++ [(v, w)] with hrowdef
    set g1 : AdjacencyList T W :=
      { g with adj := g.adj.set u row', edges := g.edges + 1 } with hg1
    have hadd : al_add_edge g u v w = some g1 := by
      unfold al_add_edge
      rw [if_neg hb]
      simp only [hrow, hfind]
    have hrow1 : g1.adj.get? u = some row' := by
      rw [hg1]
      simp only
      rw [List.get?_set_of_lt' _ _ hul, if_pos rfl]
    have hfind' : row'.find? (fun p => p.1 == v) = some (v, w) := by
      rw [hrowdef, List.find?_append, hfind]
      simp
    have hnd1 : (row'.map Prod.fst).Nodup := by
      rw [hrowdef, List.map_append]
      rw [List.nodup_append]
      refine ⟨hnd, by simp, ?_⟩
      intro x hx hx'
      have hxv : x = v := by simpa using hx'
      obtain ⟨p, hp, hpx⟩ := List.mem_map.mp hx
      have := List.find?_eq_none.mp hfind p hp
      rw [hxv] at hpx
      simp [hpx] at this
    have hget1 : al_get_edge g1 u v = some (some w) := by
      rw [al_get_edge_of_row hrow1 hu hv, hfind']
      rfl
    obtain ⟨g'', hrem, hget2⟩ := al_remove_after g1 (by rw [hg1]; simpa using hlen)
      hrow1 hnd1 (by rw [hfind']; rfl) hu hv
    exact ⟨g1, g'', hadd, hget1, hrem, hget2⟩

/-- A walk of the orthogonal list's `get_edge` over an arena holding no
live arc with head `t` finds nothing, whatever the fuel and start link. -/
theorem ol_get_edge_go_no_match {arcs : List (Option (OLArc W))} {t : Nat}
    (h : ∀ k a, arcAt arcs k = some a → a.head_vex ≠ t) :
    ∀ fuel link, ol_get_edge_go arcs t fuel link = none := by
  intro fuel
  induction fuel with
  | zero =>
    intro link
    cases link <;> rfl
  | succ f ih =>
    intro link
    cases link with
    | none => rfl
    | some idx =>
      simp only [ol_get_edge_go]
      cases hk : arcs.get? idx with
      | none => simp only [hk]
      | some o =>
        cases o with
        | none => simp only [hk]
        | some a =>
          simp only [hk]
          have hne := h idx a (by unfold arcAt; rw [hk]; rfl)
          rw [if_neg (by simpa using hne)]
          exact ih _

/-- The orthogonal-list part of the amended C1: `get_edge` after
`add_edge` always reports the fresh weight (the new arc heads the
out-chain), and when no live arc with head `v` existed beforehand a
subsequent `remove_edge(u,v)` restores absence. -/
theorem ol_c1_core (g : OrthogonalList T W) {u v : Nat} (w : W)
    (hu : u < g.vertices.length) (hv : v < g.vertices.length) :
    ∃ g', ol_add_edge g u v w = some g' ∧ ol_get_edge g' u v = some w ∧
      ((∀ k a, arcAt g.arcs k = some a → a.head_vex ≠ v) →
        ol_get_edge (ol_remove_edge g' u v) u v = none) := by
  set m := g.arcs.length with hm
  have h1 := ol_add_edge_eq g w hu hv
  set G1 : OrthogonalList T W :=
    { vertices := ol_set_first_in
        (ol_set_first_out g.vertices u (some m)) v (some m)
      arcs := g.arcs ++ [some ⟨u, v, ol_first_in g v, ol_first_out g u, w⟩]
      free_arc_head := g.free_arc_head
      edge_count := g.edge_count + 1 } with hG1
  have hG1arcs : G1.arcs
      = g.arcs ++ [some ⟨u, v, ol_first_in g v, ol_first_out g u, w⟩] := by
    rw [hG1]
  have hvs1 : G1.vertices.length = g.vertices.length := by
    rw [hG1]
    simp only
    rw [ol_set_first_in_length, ol_set_first_out_length]
  have harcs1 : G1.arcs.length = m + 1 := by
    rw [hG1arcs, hm]
    simp
  have hfoG1 : ol_first_out G1 u = some m := by
    rw [ol_first_out_def, hG1]
    simp only
    rw [first_out_after_set_in]
    obtain ⟨vx, hvx, hvx'⟩ := ol_set_first_out_get_self (l := some m) hu
    rw [hvx']
    rfl
  have hfiG1 : ol_first_in G1 v = some m := by
    rw [ol_first_in_def, hG1]
    simp only
    obtain ⟨vx, hvx, hvx'⟩ := ol_set_first_in_get_self
      (show v < (ol_set_first_out g.vertices u (some m)).length from by
        rw [ol_set_first_out_length]; exact hv) (some m)
    rw [hvx']
    rfl
  have hat1 : G1.arcs.get? m
      = some (some ⟨u, v, ol_first_in g v, ol_first_out g u, w⟩) := by
    rw [hG1arcs, hm]
    exact List.get?_concat_length g.arcs _
  have hb1 : ¬(u ≥ G1.vertices.length ∨ v ≥ G1.vertices.length) := by
    rw [hvs1]
    omega
  have hget1 : ol_get_edge G1 u v = some w := by
    unfold ol_get_edge
    rw [if_neg hb1, hfoG1]
    exact ol_get_edge_go_found hat1 rfl G1.arcs.length (by rw [harcs1]; omega)
  refine ⟨G1, h1, hget1, ?_⟩
  intro hni
  have hfind : ol_find_out G1.arcs v G1.arcs.length none (ol_first_out G1 u)
      = (none, some m, ol_first_out g u) := by
    rw [hfoG1]
    exact ol_find_out_found hat1 rfl G1.arcs.length none (by rw [harcs1]; omega)
  set G1' : OrthogonalList T W :=
    { G1 with vertices := ol_set_first_out G1.vertices u (ol_first_out g u) } with hG1'
  have hG1'arcs : G1'.arcs = G1.arcs := by
    rw [hG1']
  have hfiG1' : ol_first_in G1' v = some m := by
    rw [ol_first_in_def] at hfiG1 ⊢
    rw [hG1']
    simp only
    rw [first_in_after_set_out]
    exact hfiG1
  have hat1' : G1'.arcs.get? m
      = some (some ⟨u, v, ol_first_in g v, ol_first_out g u, w⟩) := by
    rw [hG1'arcs]
    exact hat1
  have hlen1' : 0 < G1'.arcs.length := by
    rw [hG1'arcs, harcs1]
    omega
  have hfindin : ol_find_in G1'.arcs m G1'.arcs.length none (ol_first_in G1' v)
      = (none, true, ol_first_in g v) := by
    rw [hfiG1']
    exact ol_find_in_found hat1' G1'.arcs.length none hlen1'
  set G3 : OrthogonalList T W :=
    { vertices := ol_set_first_in G1'.vertices v (ol_first_in g v)
      arcs := G1.arcs.set m none
      free_arc_head := G1.free_arc_head
      edge_count := G1.edge_count - 1 } with hG3
  have hrem : ol_remove_edge G1 u v = G3 := by
    unfold ol_remove_edge
    rw [if_neg hb1]
    simp only [hfind, hfindin]
  have hG3vs : G3.vertices = ol_set_first_in G1'.vertices v (ol_first_in g v) := by
    rw [hG3]
  have hG1'vs : G1'.vertices = ol_set_first_out G1.vertices u (ol_first_out g u) := by
    rw [hG1']
  have hvs3 : G3.vertices.length = g.vertices.length := by
    rw [hG3vs, ol_set_first_in_length, hG1'vs, ol_set_first_out_length]
    exact hvs1
  have harcs3 : G3.arcs = g.arcs ++ [none] := by
    have h3 : G3.arcs = G1.arcs.set m none := by rw [hG3]
    rw [h3, hG1arcs, hm]
    exact set_concat_length g.arcs _ none
  have hni3 : ∀ k a, arcAt G3.arcs k = some a → a.head_vex ≠ v := by
    intro k a hk
    rw [harcs3] at hk
    unfold arcAt at hk
    rcases Nat.lt_trichotomy k g.arcs.length with h | h | h
    · rw [List.get?_append h] at hk
      exact hni k a hk
    · rw [h, List.get?_concat_length] at hk
      simp at hk
    · have hlen2 : (g.arcs ++ [(none : Option (OLArc W))]).length ≤ k := by
        simp only [List.length_append, List.length_cons, List.length_nil]
        omega
      rw [List.get?_len_le hlen2] at hk
      simp at hk
  rw [hrem]
  unfold ol_get_edge
  rw [if_neg (by rw [hvs3]; omega)]
  exact ol_get_edge_go_no_match hni3 _ _

theorem aml_set_first_edge_length (vs : List (AMLVertex T)) (v : Nat)
    (l : Option Nat) : (aml_set_first_edge vs v l).length = vs.length := by
  unfold aml_set_first_edge
  cases h : vs.get? v <;> simp

theorem aml_set_first_edge_get_self {vs : List (AMLVertex T)} {v : Nat}
    (hv : v < vs.length) (l : Option Nat) :
    ∃ vx, vs.get? v = some vx ∧
      (aml_set_first_edge vs v l).get? v = some { vx with first_edge := l } := by
  obtain ⟨vx, hvx⟩ : ∃ vx, vs.get? v = some vx := ⟨_, List.get?_eq_get hv⟩
  refine ⟨vx, hvx, ?_⟩
  unfold aml_set_first_edge
  rw [hvx]
  rw [List.get?_set_of_lt' _ _ hv, if_pos rfl]

theorem aml_set_first_edge_get_ne (vs : List (AMLVertex T)) {u v : Nat}
    (hne : u ≠ v) (l : Option Nat) :
    (aml_set_first_edge vs v l).get? u = vs.get? u := by
  unfold aml_set_first_edge
  cases h : vs.get? v with
  | none => rfl
  | some vx =>
    have hv : v < vs.length := by
      rcases List.get?_eq_some.mp h with ⟨h1, _⟩
      exact h1
    rw [List.get?_set_of_lt' _ _ hv, if_neg (fun h2 => hne h2.symm)]

theorem aml_first_edge_def (g : AdjacencyMultilist T W) (u : Nat) :
    aml_first_edge g u = ((g.vertices.get? u).map AMLVertex.first_edge).getD none := by
  unfold aml_first_edge
  cases g.vertices.get? u <;> rfl

theorem aml_add_edge_eq (g : AdjacencyMultilist T W) {i j : Nat} (w : W)
    (hi : i < g.vertices.length) (hj : j < g.vertices.length) (hij : i ≠ j) :
    aml_add_edge g i j w = some
      { vertices := aml_set_first_edge
          (aml_set_first_edge g.vertices i (some g.edges.length)) j
          (some g.edges.length)
        edges := g.edges ++ [some ⟨i, j, aml_first_edge g i, aml_first_edge g j, w⟩]
        edge_count := g.edge_count + 1 } := by
  unfold aml_add_edge
  rw [if_neg (by omega), if_neg (by simp [hij])]

theorem aml_find_edge_found {edges : List (Option (AMLEdge W))} {i j idx : Nat}
    {e : AMLEdge W} (h : edges.get? idx = some (some e))
    (hmatch : ((e.ivex == i && e.jvex == j) || (e.ivex == j && e.jvex == i)) = true) :
    ∀ fuel, 0 < fuel → aml_find_edge edges i j fuel (some idx) = some idx := by
  intro fuel hf
  cases fuel with
  | zero => omega
  | succ f =>
    unfold aml_find_edge
    simp only [h]
    rw [if_pos hmatch]

/-- Over an arena holding no live record joining `i` and `j`, the chain
search finds nothing, whatever the fuel and start link. -/
theorem aml_find_edge_no_match {edges : List (Option (AMLEdge W))} {i j : Nat}
    (h : ∀ k, aml_pair_match edges i j k = false) :
    ∀ fuel link, aml_find_edge edges i j fuel link = none := by
  intro fuel
  induction fuel with
  | zero =>
    intro link
    cases link <;> rfl
  | succ f ih =>
    intro link
    cases link with
    | none => rfl
    | some idx =>
      simp only [aml_find_edge]
      cases hk : edges.get? idx with
      | none => simp only [hk]
      | some o =>
        cases o with
        | none => simp only [hk]
        | some e =>
          simp only [hk]
          have hm := h idx
          unfold aml_pair_match edgeAt at hm
          rw [hk] at hm
          simp only [Option.some_bind, id] at hm
          rw [if_neg (by simp [hm])]
          exact ih _

theorem aml_rev_go_found {edges : List (Option (AMLEdge W))} {vertex target : Nat}
    {e : AMLEdge W} (h : edges.get? target = some (some e)) :
    ∀ fuel prev, 0 < fuel →
      aml_rev_go edges vertex target fuel prev (some target)
        = (prev, aml_link e vertex, true) := by
  intro fuel prev hf
  cases fuel with
  | zero => omega
  | succ f =>
    unfold aml_rev_go
    simp only [h]
    rw [if_pos (by simp)]

/-- The multilist part of the amended C1: `get_edge` (modelled from the
spec) after `add_edge` always reports the fresh weight — the new record
heads both endpoint chains — and when no live record joining `i` and `j`
existed beforehand a subsequent `remove_edge(i,j)` restores absence. -/
theorem aml_c1_core (g : AdjacencyMultilist T W) {i j : Nat} (w : W)
    (hi : i < g.vertices.length) (hj : j < g.vertices.length) (hij : i ≠ j) :
    ∃ g', aml_add_edge g i j w = some g' ∧ aml_get_edge g' i j = some w ∧
      ((∀ k, aml_pair_match g.edges i j k = false) →
        aml_get_edge (aml_remove_edge g' i j) i j = none) := by
  set m := g.edges.length with hm
  have h1 := aml_add_edge_eq g w hi hj hij
  set G1 : AdjacencyMultilist T W :=
    { vertices := aml_set_first_edge
        (aml_set_first_edge g.vertices i (some m)) j (some m)
      edges := g.edges ++ [some ⟨i, j, aml_first_edge g i, aml_first_edge g j, w⟩]
      edge_count := g.edge_count + 1 } with hG1
  have hG1edges : G1.edges
      = g.edges ++ [some ⟨i, j, aml_first_edge g i, aml_first_edge g j, w⟩] := by
    rw [hG1]
  have hvs1 : G1.vertices.length = g.vertices.length := by
    rw [hG1]
    simp only
    rw [aml_set_first_edge_length, aml_set_first_edge_length]
  have hat1 : G1.edges.get? m
      = some (some ⟨i, j, aml_first_edge g i, aml_first_edge g j, w⟩) := by
    rw [hG1edges, hm]
    exact List.get?_concat_length g.edges _
  have hlen1 : G1.edges.length = m + 1 := by
    rw [hG1edges, hm]
    simp
  have hfe_i : aml_first_edge G1 i = some m := by
    rw [aml_first_edge_def, hG1]
    simp only
    rw [aml_set_first_edge_get_ne _ hij (some m)]
    obtain ⟨vx, hvx, hvx'⟩ := aml_set_first_edge_get_self hi (some m)
    rw [hvx']
    rfl
  have hfe_j : aml_first_edge G1 j = some m := by
    rw [aml_first_edge_def, hG1]
    simp only
    obtain ⟨vx, hvx, hvx'⟩ := aml_set_first_edge_get_self
      (show j < (aml_set_first_edge g.vertices i (some m)).length from by
        rw [aml_set_first_edge_length]; exact hj) (some m)
    rw [hvx']
    rfl
  have hb1 : ¬(i ≥ G1.vertices.length ∨ j ≥ G1.vertices.length) := by
    rw [hvs1]
    omega
  have hfind : aml_find_edge G1.edges i j G1.edges.length (aml_first_edge G1 i)
      = some m := by
    rw [hfe_i]
    exact aml_find_edge_found hat1 (by simp) G1.edges.length (by rw [hlen1]; omega)
  have hget1 : aml_get_edge G1 i j = some w := by
    unfold aml_get_edge
    rw [if_neg hb1]
    simp only [hfind, hat1]
  refine ⟨G1, h1, hget1, ?_⟩
  intro hnp
  have hrev1 : aml_rev_go G1.edges i m G1.edges.length none (aml_first_edge G1 i)
      = (none, aml_first_edge g i, true) := by
    rw [hfe_i]
    have h2 : aml_rev_go G1.edges i m G1.edges.length none (some m)
        = (none, aml_link (⟨i, j, aml_first_edge g i, aml_first_edge g j, w⟩ : AMLEdge W) i, true) :=
      aml_rev_go_found hat1 G1.edges.length none (by rw [hlen1]; omega)
    simpa [aml_link] using h2
  set G1' : AdjacencyMultilist T W :=
    { G1 with vertices := aml_set_first_edge G1.vertices i (aml_first_edge g i) } with hG1'
  have hrfv1 : aml_remove_edge_from_vertex G1 i m = G1' := by
    unfold aml_remove_edge_from_vertex
    simp only [hrev1]
  have hG1'edges : G1'.edges = G1.edges := by
    rw [hG1']
  have hfe_j' : aml_first_edge G1' j = some m := by
    rw [aml_first_edge_def] at hfe_j ⊢
    rw [hG1']
    simp only
    rw [aml_set_first_edge_get_ne _ (Ne.symm hij) (aml_first_edge g i)]
    exact hfe_j
  have hat1'' : G1'.edges.get? m
      = some (some ⟨i, j, aml_first_edge g i, aml_first_edge g j, w⟩) := by
    rw [hG1'edges]
    exact hat1
  have hrev2 : aml_rev_go G1'.edges j m G1'.edges.length none (aml_first_edge G1' j)
      = (none, aml_first_edge g j, true) := by
    rw [hfe_j']
    have h2 : aml_rev_go G1'.edges j m G1'.edges.length none (some m)
        = (none, aml_link (⟨i, j, aml_first_edge g i, aml_first_edge g j, w⟩ : AMLEdge W) j, true) :=
      aml_rev_go_found hat1'' G1'.edges.length none (by rw [hG1'edges, hlen1]; omega)
    have hne : (i == j) = false := by
      simp [hij]
    simpa [aml_link, hne] using h2
  set G2 : AdjacencyMultilist T W :=
    { G1' with vertices := aml_set_first_edge G1'.vertices j (aml_first_edge g j) } with hG2
  have hrfv2 : aml_remove_edge_from_vertex G1' j m = G2 := by
    unfold aml_remove_edge_from_vertex
    simp only [hrev2]
  set G3 : AdjacencyMultilist T W :=
    { G2 with edges := G2.edges.set m none, edge_count := G2.edge_count - 1 } with hG3
  have hrem : aml_remove_edge G1 i j = G3 := by
    unfold aml_remove_edge
    rw [if_neg hb1]
    simp only [hfind, hrfv1, hrfv2]
  have hG3vs : G3.vertices = G2.vertices := by
    rw [hG3]
  have hG2vs : G2.vertices = aml_set_first_edge G1'.vertices j (aml_first_edge g j) := by
    rw [hG2]
  have hG1'vs : G1'.vertices = aml_set_first_edge G1.vertices i (aml_first_edge g i) := by
    rw [hG1']
  have hvs3 : G3.vertices.length = g.vertices.length := by
    rw [hG3vs, hG2vs, aml_set_first_edge_length, hG1'vs, aml_set_first_edge_length]
    exact hvs1
  have hG2e : G2.edges = G1.edges := by
    rw [hG2]
  have hedges3 : G3.edges = g.edges ++ [none] := by
    have h3 : G3.edges = G2.edges.set m none := by rw [hG3]
    rw [h3, hG2e, hG1edges, hm]
    exact set_concat_length g.edges _ none
  have hnp3 : ∀ k, aml_pair_match G3.edges i j k = false := by
    intro k
    rw [hedges3]
    unfold aml_pair_match edgeAt
    rcases Nat.lt_trichotomy k g.edges.length with h | h | h
    · rw [List.get?_append h]
      have h4 := hnp k
      unfold aml_pair_match edgeAt at h4
      exact h4
    · rw [h, List.get?_concat_length]
      rfl
    · have hlen2 : (g.edges ++ [(none : Option (AMLEdge W))]).length ≤ k := by
        simp only [List.length_append, List.length_cons, List.length_nil]
        omega
      rw [List.get?_len_le hlen2]
      rfl
  rw [hrem]
  unfold aml_get_edge
  rw [if_neg (by rw [hvs3]; omega)]
  simp only [aml_find_edge_no_match hnp3]

/-- C1 (amended): in every representation, `get_edge(u,v)` immediately
after `add_edge(u,v,w)` returns the weight `w` — for the matrix on any
well-formed state, for the list whenever the addressed row exists, and
for the orthogonal list and the multilist on any state with in-range
endpoints.  `get_edge(u,v)` after a subsequent `remove_edge(u,v)`
returns absence for the matrix unconditionally, for the list when the
addressed row's targets are pairwise distinct, and for the orthogonal
list (resp. the multilist) when no live arc with head `v` (resp. no
live record joining `i` and `j`) existed before the add; without that
proviso removal only unlinks the newest matching arc, and the original
unconditional claim fails (see the counterexample). -/
theorem c1_add_then_get_remove_then_absent (T W : Type) :
    (∀ (g : AdjacencyMatrix T W) (u v : Nat) (w : W),
      MatWf g → u < g.vertices → v < g.vertices →
      ∃ g' g'', mat_add_edge g u v (some w) = some g' ∧
        mat_get_edge g' u v = some (some w) ∧
        mat_remove_edge g' u v = some g'' ∧
        mat_get_edge g'' u v = some none) ∧
    (∀ (g : AdjacencyList T W) (u v : Nat) (w : W) (row : List (Nat × W)),
      g.adj.length = g.vertices → g.adj.get? u = some row →
      (row.map Prod.fst).Nodup → u < g.vertices → v < g.vertices →
      ∃ g' g'', al_add_edge g u v w = some g' ∧
        al_get_edge g' u v = some (some w) ∧
        al_remove_edge g' u v = some g'' ∧
        al_get_edge g'' u v = some none) ∧
    (∀ (g : OrthogonalList T W) (u v : Nat) (w : W),
      u < g.vertices.length → v < g.vertices.length →
      ∃ g', ol_add_edge g u v w = some g' ∧ ol_get_edge g' u v = some w ∧
        ((∀ k a, arcAt g.arcs k = some a → a.head_vex ≠ v) →
          ol_get_edge (ol_remove_edge g' u v) u v = none)) ∧
    (∀ (g : AdjacencyMultilist T W) (i j : Nat) (w : W),
      i < g.vertices.length → j < g.vertices.length → i ≠ j →
      ∃ g', aml_add_edge g i j w = some g' ∧ aml_get_edge g' i j = some w ∧
        ((∀ k, aml_pair_match g.edges i j k = false) →
          aml_get_edge (aml_remove_edge g' i j) i j = none)) := by
  refine ⟨?_, ?_, fun g u v w hu hv => ol_c1_core g w hu hv,
    fun g i j w hi hj hij => aml_c1_core g w hi hj hij⟩
  · intro g u v w hwf hu hv
    obtain ⟨g', cur, hcur, hadd, hwf', hvert, hget', hoth, hedg⟩ :=
      mat_add_edge_ok g u v (some w) hwf hu hv
    obtain ⟨g'', cur2, hcur2, hrem, hwf'', hvert2, hget'', hedg2⟩ :=
      mat_remove_edge_ok g' u v hwf' (by omega) (by omega)
    exact ⟨g', g'', hadd, hget', hrem, hget''⟩
  · intro g u v w row hlen hrow hnd hu hv
    exact al_c1_core g w hlen hrow hnd hu hv

/-- C1 counterexample: on the API-reachable orthogonal list that holds
the arc (0,1) twice (added with weight 10, then weight 20), both
endpoints are in range, yet after `remove_edge(0,1)` the lookup
`get_edge(0,1)` still answers the older weight 10 instead of absence. -/
theorem c1_counterexample :
    c1_dup_graph.map (fun g =>
        (g.vertices.length, ol_get_edge (ol_remove_edge g 0 1) 0 1))
      = some (2, some 10) := by
  rfl

/-- Witness for the amended C1 on concrete two-vertex states of all
four representations. -/
theorem c1_add_then_get_remove_then_absent_witness :
    (∃ g' g'', mat_add_edge (mat_new Unit Nat 2) 0 1 (some 5) = some g' ∧
      mat_get_edge g' 0 1 = some (some 5) ∧
      mat_remove_edge g' 0 1 = some g'' ∧ mat_get_edge g'' 0 1 = some none) ∧
    (∃ g' g'', al_add_edge (al_new Unit Nat 2) 0 1 5 = some g' ∧
      al_get_edge g' 0 1 = some (some 5) ∧
      al_remove_edge g' 0 1 = some g'' ∧ al_get_edge g'' 0 1 = some none) ∧
    (∃ g', ol_add_edge ol_demo0 0 1 7 = some g' ∧ ol_get_edge g' 0 1 = some 7 ∧
      ol_get_edge (ol_remove_edge g' 0 1) 0 1 = none) ∧
    (∃ g', aml_add_edge aml_demo0 0 1 7 = some g' ∧ aml_get_edge g' 0 1 = some 7 ∧
      aml_get_edge (aml_remove_edge g' 0 1) 0 1 = none) := by
  obtain ⟨hmat, hal, -, -⟩ := c1_add_then_get_remove_then_absent Unit Nat
  obtain ⟨-, -, hol, haml⟩ := c1_add_then_get_remove_then_absent Nat Nat
  refine ⟨?_, ?_, ?_, ?_⟩
  · exact hmat (mat_new Unit Nat 2) 0 1 5 ⟨rfl, by decide⟩ (by decide) (by decide)
  · exact hal (al_new Unit Nat 2) 0 1 5 [] rfl rfl (by decide) (by decide) (by decide)
  · obtain ⟨g', h1, h2, h3⟩ := hol ol_demo0 0 1 7 (by decide) (by decide)
    refine ⟨g', h1, h2, h3 ?_⟩
    intro k a hk
    rw [show ol_demo0.arcs = ([] : List (Option (OLArc Nat))) from rfl] at hk
    unfold arcAt at hk
    rw [List.get?_nil] at hk
    simp at hk
  · obtain ⟨g', h1, h2, h3⟩ := haml aml_demo0 0 1 7 (by decide) (by decide) (by decide)
    refine ⟨g', h1, h2, h3 ?_⟩
    intro k
    rfl

/-! ## C2: chain surgery of `remove_edge` (OrthogonalList and
AdjacencyMultilist) -/

theorem arcAt_get? {arcs : List (Option (OLArc W))} {i : Nat} {a : OLArc W}
    (h : arcAt arcs i = some a) : arcs.get? i = some (some a) := by
  unfold arcAt at h
  cases hk : arcs.get? i with
  | none => rw [hk] at h; simp at h
  | some o =>
    rw [hk] at h
    cases o with
    | none => simp at h
    | some a0 =>
      have h2 : a0 = a := by simpa using h
      subst h2
      rfl

theorem arcAt_lt {arcs : List (Option (OLArc W))} {i : Nat} {a : OLArc W}
    (h : arcAt arcs i = some a) : i < arcs.length :=
  (List.get?_eq_some.mp (arcAt_get? h)).1

theorem out_view_of_arcAt {arcs : List (Option (OLArc W))} {i : Nat} {a : OLArc W}
    (h : arcAt arcs i = some a) : out_view arcs i = some (some a.tail_link) := by
  unfold out_view
  rw [arcAt_get? h]
  rfl

theorem in_view_of_arcAt {arcs : List (Option (OLArc W))} {i : Nat} {a : OLArc W}
    (h : arcAt arcs i = some a) : in_view arcs i = some (some a.head_link) := by
  unfold in_view
  rw [arcAt_get? h]
  rfl

theorem arcAt_of_out_view {arcs arcs2 : List (Option (OLArc W))} {i : Nat} {a : OLArc W}
    (hv : out_view arcs2 i = out_view arcs i) (h : arcAt arcs i = some a) :
    ∃ a2, arcAt arcs2 i = some a2 ∧ a2.tail_link = a.tail_link := by
  rw [out_view_of_arcAt h] at hv
  unfold out_view at hv
  cases hk : arcs2.get? i with
  | none => rw [hk] at hv; simp at hv
  | some o =>
    rw [hk] at hv
    cases o with
    | none => simp at hv
    | some a2 =>
      refine ⟨a2, ?_, ?_⟩
      · unfold arcAt
        rw [hk]
        rfl
      · simpa using hv

theorem arcAt_of_in_view {arcs arcs2 : List (Option (OLArc W))} {i : Nat} {a : OLArc W}
    (hv : in_view arcs2 i = in_view arcs i) (h : arcAt arcs i = some a) :
    ∃ a2, arcAt arcs2 i = some a2 ∧ a2.head_link = a.head_link := by
  rw [in_view_of_arcAt h] at hv
  unfold in_view at hv
  cases hk : arcs2.get? i with
  | none => rw [hk] at hv; simp at hv
  | some o =>
    rw [hk] at hv
    cases o with
    | none => simp at hv
    | some a2 =>
      refine ⟨a2, ?_, ?_⟩
      · unfold arcAt
        rw [hk]
        rfl
      · simpa using hv

theorem get?_set_ne' {l : List α} {i j : Nat} (a : α) (h : i ≠ j) :
    (l.set i a).get? j = l.get? j := by
  rcases Nat.lt_or_ge i l.length with hlt | hge
  · rw [List.get?_set_of_lt' _ _ hlt, if_neg h]
  · rw [List.set_eq_of_length_le hge]

theorem get?_patch_tail_ne (arcs : List (Option (OLArc W))) (p : Nat)
    (l : Option Nat) {i : Nat} (h : i ≠ p) :
    (ol_patch_tail arcs p l).get? i = arcs.get? i := by
  unfold ol_patch_tail
  cases hk : arcs.get? p with
  | none => rfl
  | some o =>
    cases o with
    | none => rfl
    | some a => exact get?_set_ne' _ (fun h2 => h h2.symm)

theorem get?_patch_head_ne (arcs : List (Option (OLArc W))) (p : Nat)
    (l : Option Nat) {i : Nat} (h : i ≠ p) :
    (ol_patch_head arcs p l).get? i = arcs.get? i := by
  unfold ol_patch_head
  cases hk : arcs.get? p with
  | none => rfl
  | some o =>
    cases o with
    | none => rfl
    | some a => exact get?_set_ne' _ (fun h2 => h h2.symm)

theorem arcAt_patch_tail_self {arcs : List (Option (OLArc W))} {p : Nat}
    {a0 : OLArc W} (h : arcAt arcs p = some a0) (l : Option Nat) :
    arcAt (ol_patch_tail arcs p l) p = some { a0 with tail_link := l } := by
  have hk := arcAt_get? h
  unfold ol_patch_tail
  rw [hk]
  unfold arcAt
  rw [List.get?_set_of_lt' _ _ (arcAt_lt h), if_pos rfl]
  rfl

theorem arcAt_patch_head_self {arcs : List (Option (OLArc W))} {p : Nat}
    {a0 : OLArc W} (h : arcAt arcs p = some a0) (l : Option Nat) :
    arcAt (ol_patch_head arcs p l) p = some { a0 with head_link := l } := by
  have hk := arcAt_get? h
  unfold ol_patch_head
  rw [hk]
  unfold arcAt
  rw [List.get?_set_of_lt' _ _ (arcAt_lt h), if_pos rfl]
  rfl

/-- Patching a `tail_link` never changes what in-chain walks observe. -/
theorem in_view_patch_tail (arcs : List (Option (OLArc W))) (p : Nat)
    (l : Option Nat) (i : Nat) :
    in_view (ol_patch_tail arcs p l) i = in_view arcs i := by
  by_cases h : i = p
  · subst h
    unfold ol_patch_tail
    cases hk : arcs.get? i with
    | none => rfl
    | some o =>
      cases o with
      | none => rfl
      | some a =>
        unfold in_view
        rw [List.get?_set_of_lt' _ _ (List.get?_eq_some.mp hk).1, if_pos rfl, hk]
        rfl
  · unfold in_view
    rw [get?_patch_tail_ne arcs p l h]

/-- Patching a `head_link` never changes what out-chain walks observe. -/
theorem out_view_patch_head (arcs : List (Option (OLArc W))) (p : Nat)
    (l : Option Nat) (i : Nat) :
    out_view (ol_patch_head arcs p l) i = out_view arcs i := by
  by_cases h : i = p
  · subst h
    unfold ol_patch_head
    cases hk : arcs.get? i with
    | none => rfl
    | some o =>
      cases o with
      | none => rfl
      | some a =>
        unfold out_view
        rw [List.get?_set_of_lt' _ _ (List.get?_eq_some.mp hk).1, if_pos rfl, hk]
        rfl
  · unfold out_view
    rw [get?_patch_head_ne arcs p l h]

theorem ol_patch_tail_dead {arcs : List (Option (OLArc W))} {p : Nat}
    (h : arcAt arcs p = none) (l : Option Nat) : ol_patch_tail arcs p l = arcs := by
  unfold ol_patch_tail
  unfold arcAt at h
  cases hk : arcs.get? p with
  | none => rfl
  | some o =>
    cases o with
    | none => rfl
    | some a =>
      rw [hk] at h
      simp at h

theorem ol_patch_head_dead {arcs : List (Option (OLArc W))} {p : Nat}
    (h : arcAt arcs p = none) (l : Option Nat) : ol_patch_head arcs p l = arcs := by
  unfold ol_patch_head
  unfold arcAt at h
  cases hk : arcs.get? p with
  | none => rfl
  | some o =>
    cases o with
    | none => rfl
    | some a =>
      rw [hk] at h
      simp at h

/-- Patching a `tail_link` preserves every slot's endpoints. -/
theorem arc_vex_patch_tail (arcs : List (Option (OLArc W))) (p : Nat)
    (l : Option Nat) (i : Nat) :
    (arcAt (ol_patch_tail arcs p l) i).map (fun a => (a.tail_vex, a.head_vex))
      = (arcAt arcs i).map (fun a => (a.tail_vex, a.head_vex)) := by
  by_cases h : i = p
  · subst h
    cases ha : arcAt arcs i with
    | none => rw [ol_patch_tail_dead ha l, ha]
    | some a0 =>
      rw [arcAt_patch_tail_self ha l]
      rfl
  · unfold arcAt
    rw [get?_patch_tail_ne arcs p l h]

/-- Patching a `head_link` preserves every slot's endpoints. -/
theorem arc_vex_patch_head (arcs : List (Option (OLArc W))) (p : Nat)
    (l : Option Nat) (i : Nat) :
    (arcAt (ol_patch_head arcs p l) i).map (fun a => (a.tail_vex, a.head_vex))
      = (arcAt arcs i).map (fun a => (a.tail_vex, a.head_vex)) := by
  by_cases h : i = p
  · subst h
    cases ha : arcAt arcs i with
    | none => rw [ol_patch_head_dead ha l, ha]
    | some a0 =>
      rw [arcAt_patch_head_self ha l]
      rfl
  · unfold arcAt
    rw [get?_patch_head_ne arcs p l h]

theorem arcAt_set_none_ne (arcs : List (Option (OLArc W))) {tgt i : Nat}
    (h : i ≠ tgt) : arcAt (arcs.set tgt none) i = arcAt arcs i := by
  unfold arcAt
  rw [get?_set_ne' _ (fun h2 => h h2.symm)]

theorem out_view_set_none_ne (arcs : List (Option (OLArc W))) {tgt i : Nat}
    (h : i ≠ tgt) : out_view (arcs.set tgt none) i = out_view arcs i := by
  unfold out_view
  rw [get?_set_ne' _ (fun h2 => h h2.symm)]

theorem in_view_set_none_ne (arcs : List (Option (OLArc W))) {tgt i : Nat}
    (h : i ≠ tgt) : in_view (arcs.set tgt none) i = in_view arcs i := by
  unfold in_view
  rw [get?_set_ne' _ (fun h2 => h h2.symm)]

theorem arcAt_set_none_self (arcs : List (Option (OLArc W))) {tgt : Nat}
    (h : tgt < arcs.length) : arcAt (arcs.set tgt none) tgt = none := by
  unfold arcAt
  rw [List.get?_set_of_lt' _ _ h, if_pos rfl]
  rfl

/-- An out-chain walk only depends on the `out_view` of its slots. -/
theorem out_chain_congr {arcs arcs2 : List (Option (OLArc W))} :
    ∀ {c : Option Nat} {L : List Nat}, OutChain arcs c L →
      (∀ i ∈ L, out_view arcs2 i = out_view arcs i) → OutChain arcs2 c L := by
  intro c L h
  induction h with
  | nil => intro hvw; exact OutChain.nil
  | cons ha hrest ih =>
    intro hvw
    obtain ⟨a2, ha2, htl⟩ := arcAt_of_out_view (hvw _ (by simp)) ha
    refine OutChain.cons ha2 ?_
    rw [htl]
    exact ih (fun i hi => hvw i (by simp [hi]))

theorem in_chain_congr {arcs arcs2 : List (Option (OLArc W))} :
    ∀ {c : Option Nat} {L : List Nat}, InChain arcs c L →
      (∀ i ∈ L, in_view arcs2 i = in_view arcs i) → InChain arcs2 c L := by
  intro c L h
  induction h with
  | nil => intro hvw; exact InChain.nil
  | cons ha hrest ih =>
    intro hvw
    obtain ⟨a2, ha2, htl⟩ := arcAt_of_in_view (hvw _ (by simp)) ha
    refine InChain.cons ha2 ?_
    rw [htl]
    exact ih (fun i hi => hvw i (by simp [hi]))

/-- The walk from a fixed head is a function: out-chains are unique. -/
theorem out_chain_det {arcs : List (Option (OLArc W))} :
    ∀ {c : Option Nat} {L1 : List Nat}, OutChain arcs c L1 →
      ∀ {L2 : List Nat}, OutChain arcs c L2 → L1 = L2 := by
  intro c L1 h1
  induction h1 with
  | nil =>
    intro L2 h2
    cases h2
    rfl
  | cons ha hrest ih =>
    intro L2 h2
    cases h2 with
    | cons ha' hrest' =>
      rw [ha] at ha'
      injection ha' with he
      subst he
      rw [ih hrest']

theorem in_chain_det {arcs : List (Option (OLArc W))} :
    ∀ {c : Option Nat} {L1 : List Nat}, InChain arcs c L1 →
      ∀ {L2 : List Nat}, InChain arcs c L2 → L1 = L2 := by
  intro c L1 h1
  induction h1 with
  | nil =>
    intro L2 h2
    cases h2
    rfl
  | cons ha hrest ih =>
    intro L2 h2
    cases h2 with
    | cons ha' hrest' =>
      rw [ha] at ha'
      injection ha' with he
      subst he
      rw [ih hrest']

/-- Every slot an out-chain passes is live. -/
theorem out_chain_live {arcs : List (Option (OLArc W))} :
    ∀ {c : Option Nat} {L : List Nat}, OutChain arcs c L →
      ∀ i ∈ L, ∃ a, arcAt arcs i = some a := by
  intro c L h
  induction h with
  | nil => intro i hi; simp at hi
  | cons ha hrest ih =>
    intro i hi
    rcases List.mem_cons.mp hi with rfl | hi'
    · exact ⟨_, ha⟩
    · exact ih i hi'

theorem in_chain_live {arcs : List (Option (OLArc W))} :
    ∀ {c : Option Nat} {L : List Nat}, InChain arcs c L →
      ∀ i ∈ L, ∃ a, arcAt arcs i = some a := by
  intro c L h
  induction h with
  | nil => intro i hi; simp at hi
  | cons ha hrest ih =>
    intro i hi
    rcases List.mem_cons.mp hi with rfl | hi'
    · exact ⟨_, ha⟩
    · exact ih i hi'

theorem out_chain_lt {arcs : List (Option (OLArc W))} {c : Option Nat}
    {L : List Nat} (h : OutChain arcs c L) : ∀ i ∈ L, i < arcs.length := by
  intro i hi
  obtain ⟨a, ha⟩ := out_chain_live h i hi
  exact arcAt_lt ha

theorem in_chain_lt {arcs : List (Option (OLArc W))} {c : Option Nat}
    {L : List Nat} (h : InChain arcs c L) : ∀ i ∈ L, i < arcs.length := by
  intro i hi
  obtain ⟨a, ha⟩ := in_chain_live h i hi
  exact arcAt_lt ha

theorem getLast?_cons_or {x : α} {xs : List α} (p : Option α) :
    ((x :: xs).getLast?).or p = (xs.getLast?).or (some x) := by
  cases xs with
  | nil => rfl
  | cons y ys => rw [List.getLast?_cons_cons]; rfl

theorem out_chain_cons_inv {arcs : List (Option (OLArc W))} {c : Option Nat}
    {idx : Nat} {L : List Nat} (h : OutChain arcs c (idx :: L)) :
    c = some idx ∧ ∃ a, arcAt arcs idx = some a ∧ OutChain arcs a.tail_link L := by
  cases h with
  | cons ha hrest => exact ⟨rfl, _, ha, hrest⟩

theorem in_chain_cons_inv {arcs : List (Option (OLArc W))} {c : Option Nat}
    {idx : Nat} {L : List Nat} (h : InChain arcs c (idx :: L)) :
    c = some idx ∧ ∃ a, arcAt arcs idx = some a ∧ InChain arcs a.head_link L := by
  cases h with
  | cons ha hrest => exact ⟨rfl, _, ha, hrest⟩

/-- Splicing the slot after `L1`'s last element out of an out-chain: the
predecessor patch makes the walk skip `tgt`. -/
theorem out_chain_splice_patch {arcs : List (Option (OLArc W))} {tgt : Nat}
    {a : OLArc W} (ha : arcAt arcs tgt = some a) :
    ∀ (L1 : List Nat) (c : Option Nat) (L2 : List Nat) (hne : L1 ≠ []),
      OutChain arcs c (L1 ++ tgt :: L2) → (L1 ++ tgt :: L2).Nodup →
      OutChain (ol_patch_tail arcs (L1.getLast hne) a.tail_link) c (L1 ++ L2) := by
  intro L1
  induction L1 with
  | nil => intro c L2 hne; exact absurd rfl hne
  | cons x xs ih =>
    intro c L2 hne hch hnd
    cases xs with
    | nil =>
      cases hch with
      | cons hax hrest =>
        rename_i ax
        obtain ⟨hlink, a', ha', hrest2⟩ := out_chain_cons_inv hrest
        rw [ha] at ha'
        injection ha' with he
        subst he
        have hxne : x ≠ tgt ∧ x ∉ L2 := by
          simp only [List.cons_append, List.nil_append] at hnd
          rw [List.nodup_cons] at hnd
          have h4 := hnd.1
          simp at h4
          exact ⟨h4.1, h4.2⟩
        rw [show [x].getLast hne = x from rfl]
        refine OutChain.cons (a := { ax with tail_link := a.tail_link })
          (arcAt_patch_tail_self hax a.tail_link) ?_
        refine out_chain_congr hrest2 ?_
        intro i hi
        have hip : i ≠ x := by
          intro h2
          subst h2
          exact hxne.2 hi
        unfold out_view
        rw [get?_patch_tail_ne _ _ _ hip]
    | cons y ys =>
      cases hch with
      | cons hax hrest =>
        rename_i ax
        have hgl : (x :: y :: ys).getLast hne = (y :: ys).getLast (by simp) := by
          rw [List.getLast_cons]
        have hnd' : ((y :: ys) ++ tgt :: L2).Nodup := by
          rw [List.cons_append, List.nodup_cons] at hnd
          exact hnd.2
        have hxmem : x ∉ (y :: ys) ++ tgt :: L2 := by
          rw [List.cons_append, List.nodup_cons] at hnd
          exact hnd.1
        have hih := ih ax.tail_link L2 (by simp) hrest hnd'
        rw [hgl]
        refine OutChain.cons (a := ax) ?_ hih
        have hxp : x ≠ (y :: ys).getLast (by simp) := by
          intro h2
          have h3 : (y :: ys).getLast (by simp) ∈ (y :: ys) := List.getLast_mem _
          rw [← h2] at h3
          exact hxmem (List.mem_append.mpr (Or.inl h3))
        unfold arcAt
        rw [get?_patch_tail_ne _ _ _ hxp]
        exact arcAt_get? hax ▸ rfl

/-- The in-chain analogue of `out_chain_splice_patch`. -/
theorem in_chain_splice_patch {arcs : List (Option (OLArc W))} {tgt : Nat}
    {a : OLArc W} (ha : arcAt arcs tgt = some a) :
    ∀ (M1 : List Nat) (c : Option Nat) (M2 : List Nat) (hne : M1 ≠ []),
      InChain arcs c (M1 ++ tgt :: M2) → (M1 ++ tgt :: M2).Nodup →
      InChain (ol_patch_head arcs (M1.getLast hne) a.head_link) c (M1 ++ M2) := by
  intro M1
  induction M1 with
  | nil => intro c M2 hne; exact absurd rfl hne
  | cons x xs ih =>
    intro c M2 hne hch hnd
    cases xs with
    | nil =>
      cases hch with
      | cons hax hrest =>
        rename_i ax
        obtain ⟨hlink, a', ha', hrest2⟩ := in_chain_cons_inv hrest
        rw [ha] at ha'
        injection ha' with he
        subst he
        have hxne : x ≠ tgt ∧ x ∉ M2 := by
          simp only [List.cons_append, List.nil_append] at hnd
          rw [List.nodup_cons] at hnd
          have h4 := hnd.1
          simp at h4
          exact ⟨h4.1, h4.2⟩
        rw [show [x].getLast hne = x from rfl]
        refine InChain.cons (a := { ax with head_link := a.head_link })
          (arcAt_patch_head_self hax a.head_link) ?_
        refine in_chain_congr hrest2 ?_
        intro i hi
        have hip : i ≠ x := by
          intro h2
          subst h2
          exact hxne.2 hi
        unfold in_view
        rw [get?_patch_head_ne _ _ _ hip]
    | cons y ys =>
      cases hch with
      | cons hax hrest =>
        rename_i ax
        have hgl : (x :: y :: ys).getLast hne = (y :: ys).getLast (by simp) := by
          rw [List.getLast_cons]
        have hnd' : ((y :: ys) ++ tgt :: M2).Nodup := by
          rw [List.cons_append, List.nodup_cons] at hnd
          exact hnd.2
        have hxmem : x ∉ (y :: ys) ++ tgt :: M2 := by
          rw [List.cons_append, List.nodup_cons] at hnd
          exact hnd.1
        have hih := ih ax.head_link M2 (by simp) hrest hnd'
        rw [hgl]
        refine InChain.cons (a := ax) ?_ hih
        have hxp : x ≠ (y :: ys).getLast (by simp) := by
          intro h2
          have h3 : (y :: ys).getLast (by simp) ∈ (y :: ys) := List.getLast_mem _
          rw [← h2] at h3
          exact hxmem (List.mem_append.mpr (Or.inl h3))
        unfold arcAt
        rw [get?_patch_head_ne _ _ _ hxp]
        exact arcAt_get? hax ▸ rfl

/-- `remove_edge`'s out-chain search, characterized over the chain it
walks: with a first match at `tgt`, it reports `tgt`, the predecessor
(the last unmatched slot, or the initial `prev`), and the continuation
link. -/
theorem ol_find_out_chain_found {arcs : List (Option (OLArc W))} {t : Nat} :
    ∀ (L1 : List Nat) (c prev : Option Nat) (tgt : Nat) (L2 : List Nat),
      OutChain arcs c (L1 ++ tgt :: L2) →
      (∀ i ∈ L1, ol_head_match arcs t i = false) →
      ol_head_match arcs t tgt = true →
      ∀ fuel, L1.length < fuel →
      ∃ a, arcAt arcs tgt = some a ∧ a.head_vex = t ∧
        ol_find_out arcs t fuel prev c
          = ((L1.getLast?).or prev, some tgt, a.tail_link) := by
  intro L1
  induction L1 with
  | nil =>
    intro c prev tgt L2 hch hmiss hmatch fuel hfuel
    obtain ⟨hc, a, ha, hrest⟩ := out_chain_cons_inv hch
    subst hc
    have hhv : a.head_vex = t := by
      unfold ol_head_match at hmatch
      rw [ha] at hmatch
      simpa using hmatch
    cases fuel with
    | zero => omega
    | succ f =>
      exact ⟨a, ha, hhv, ol_find_out_found (arcAt_get? ha) hhv _ prev (by omega)⟩
  | cons x xs ih =>
    intro c prev tgt L2 hch hmiss hmatch fuel hfuel
    obtain ⟨hc, ax, hax, hrest⟩ := out_chain_cons_inv (by simpa using hch)
    subst hc
    have hxmiss : ax.head_vex ≠ t := by
      have h4 := hmiss x (by simp)
      unfold ol_head_match at h4
      rw [hax] at h4
      simpa using h4
    cases fuel with
    | zero => simp at hfuel
    | succ f =>
      rw [ol_find_out_skip (arcAt_get? hax) hxmiss f prev]
      obtain ⟨a, ha, hhv, hres⟩ := ih ax.tail_link (some x) tgt L2 hrest
        (fun i hi => hmiss i (by simp [hi])) hmatch f (by simpa using hfuel)
      refine ⟨a, ha, hhv, ?_⟩
      rw [hres, getLast?_cons_or]

/-- When nothing on the walked chain matches, the search reports no
target (also on fuel exhaustion, matching the source's loop exit). -/
theorem ol_find_out_chain_none {arcs : List (Option (OLArc W))} {t : Nat} :
    ∀ (fuel : Nat) (L : List Nat) (c prev : Option Nat),
      OutChain arcs c L →
      (∀ i ∈ L, ol_head_match arcs t i = false) →
      (ol_find_out arcs t fuel prev c).2.1 = none := by
  intro fuel
  induction fuel with
  | zero =>
    intro L c prev hch hmiss
    cases c <;> rfl
  | succ f ih =>
    intro L c prev hch hmiss
    cases hch with
    | nil => rfl
    | cons ha hrest =>
      rename_i idx a rest
      have hxmiss : a.head_vex ≠ t := by
        have h4 := hmiss idx (by simp)
        unfold ol_head_match at h4
        rw [ha] at h4
        simpa using h4
      rw [ol_find_out_skip (arcAt_get? ha) hxmiss f prev]
      exact ih rest a.tail_link (some idx) hrest (fun i hi => hmiss i (by simp [hi]))

/-- `remove_edge`'s in-chain search, characterized over the chain: the
slot `tgt` is found after the prefix `M1`, reporting the predecessor and
`tgt`'s continuation link. -/
theorem ol_find_in_chain_found {arcs : List (Option (OLArc W))} :
    ∀ (M1 : List Nat) (c prev : Option Nat) (tgt : Nat) (M2 : List Nat),
      InChain arcs c (M1 ++ tgt :: M2) →
      tgt ∉ M1 →
      ∀ fuel, M1.length < fuel →
      ∃ a, arcAt arcs tgt = some a ∧
        ol_find_in arcs tgt fuel prev c
          = ((M1.getLast?).or prev, true, a.head_link) := by
  intro M1
  induction M1 with
  | nil =>
    intro c prev tgt M2 hch hnm fuel hfuel
    obtain ⟨hc, a, ha, hrest⟩ := in_chain_cons_inv hch
    subst hc
    cases fuel with
    | zero => omega
    | succ f =>
      exact ⟨a, ha, ol_find_in_found (arcAt_get? ha) _ prev (by omega)⟩
  | cons x xs ih =>
    intro c prev tgt M2 hch hnm fuel hfuel
    obtain ⟨hc, ax, hax, hrest⟩ := in_chain_cons_inv (by simpa using hch)
    subst hc
    have hxne : x ≠ tgt := by
      intro h2
      exact hnm (by simp [h2])
    cases fuel with
    | zero => simp at hfuel
    | succ f =>
      rw [ol_find_in_skip (arcAt_get? hax) hxne f prev]
      obtain ⟨a, ha, hres⟩ := ih ax.head_link (some x) tgt M2 hrest
        (fun h2 => hnm (by simp [h2])) f (by simpa using hfuel)
      refine ⟨a, ha, ?_⟩
      rw [hres, getLast?_cons_or]

theorem ol_first_out_congr {g g' : OrthogonalList T W}
    (h : g.vertices = g'.vertices) (x : Nat) :
    ol_first_out g x = ol_first_out g' x := by
  rw [ol_first_out_def, ol_first_out_def, h]

theorem ol_first_in_congr {g g' : OrthogonalList T W}
    (h : g.vertices = g'.vertices) (x : Nat) :
    ol_first_in g x = ol_first_in g' x := by
  rw [ol_first_in_def, ol_first_in_def, h]

theorem vex_transfer {arcs3 arcs : List (Option (OLArc W))} {i : Nat}
    (hvex : (arcAt arcs3 i).map (fun a0 => (a0.tail_vex, a0.head_vex))
      = (arcAt arcs i).map (fun a0 => (a0.tail_vex, a0.head_vex)))
    {a' : OLArc W} (h : arcAt arcs3 i = some a') :
    ∃ a0, arcAt arcs i = some a0 ∧ a'.tail_vex = a0.tail_vex ∧
      a'.head_vex = a0.head_vex := by
  rw [h] at hvex
  cases hk : arcAt arcs i with
  | none =>
    rw [hk] at hvex
    simp at hvex
  | some a0 =>
    rw [hk] at hvex
    simp only [Option.map_some', Option.some.injEq, Prod.mk.injEq] at hvex
    exact ⟨a0, rfl, hvex.1, hvex.2⟩

/-- The second half of `remove_edge`'s splice: searching `v`'s in-chain
on the tail-patched arena finds the slot and redirects the predecessor
(or the chain head) past it. -/
theorem ol_stage2 {g1 : OrthogonalList T W} {v tgt : Nat} {a : OLArc W}
    {M1 M2 : List Nat}
    (ha1 : arcAt g1.arcs tgt = some a)
    (hMch : InChain g1.arcs (ol_first_in g1 v) (M1 ++ tgt :: M2))
    (hMnd : (M1 ++ tgt :: M2).Nodup)
    (hMtag : ∀ i ∈ M1 ++ tgt :: M2, ∀ a0, arcAt g1.arcs i = some a0 →
      a0.head_vex = v) :
    ∃ prev2 g2, ol_find_in g1.arcs tgt g1.arcs.length none (ol_first_in g1 v)
        = (prev2, true, a.head_link) ∧
      ((prev2 = none ∧
          g2 = { g1 with vertices := ol_set_first_in g1.vertices v a.head_link }) ∨
        (∃ p, prev2 = some p ∧
          g2 = { g1 with arcs := ol_patch_head g1.arcs p a.head_link })) ∧
      g2.vertices.length = g1.vertices.length ∧
      g2.arcs.length = g1.arcs.length ∧
      InChain g2.arcs (ol_first_in g2 v) (M1 ++ M2) ∧
      (∀ i, out_view g2.arcs i = out_view g1.arcs i) ∧
      (∀ i, (∀ a0, arcAt g1.arcs i = some a0 → a0.head_vex ≠ v) →
        in_view g2.arcs i = in_view g1.arcs i) ∧
      (∀ i, (arcAt g2.arcs i).map (fun a0 => (a0.tail_vex, a0.head_vex))
        = (arcAt g1.arcs i).map (fun a0 => (a0.tail_vex, a0.head_vex))) ∧
      (∀ x, ol_first_out g2 x = ol_first_out g1 x) ∧
      (∀ x, x ≠ v → ol_first_in g2 x = ol_first_in g1 x) ∧
      arcAt g2.arcs tgt = some a := by
  have htgtM1 : tgt ∉ M1 := by
    rw [List.nodup_append] at hMnd
    intro hmem
    exact hMnd.2.2 hmem (by simp)
  have hMlt : ∀ i ∈ M1 ++ tgt :: M2, i < g1.arcs.length := in_chain_lt hMch
  have hfuel : M1.length < g1.arcs.length := by
    have h1 : (M1 ++ tgt :: M2).length ≤ g1.arcs.length :=
      nodup_bounded_length_le _ _ hMnd hMlt
    simp only [List.length_append, List.length_cons] at h1
    omega
  obtain ⟨a', ha', hres⟩ := ol_find_in_chain_found M1 (ol_first_in g1 v) none tgt M2
    hMch htgtM1 g1.arcs.length hfuel
  rw [ha1] at ha'
  injection ha' with he
  subst he
  rw [Option.or_none] at hres
  by_cases hM1e : M1 = []
  case pos =>
    subst hM1e
    rw [show ([] : List Nat).getLast? = none from rfl] at hres
    refine ⟨none, { g1 with vertices := ol_set_first_in g1.vertices v a.head_link },
      hres, Or.inl ⟨rfl, rfl⟩, ?_, rfl, ?_, ?_, ?_, ?_, ?_, ?_, ha1⟩
    · simp only
      rw [ol_set_first_in_length]
    · obtain ⟨hc, a2, ha2, hrest⟩ := in_chain_cons_inv hMch
      rw [ha1] at ha2
      injection ha2 with he2
      subst he2
      have hfi : ol_first_in { g1 with
          vertices := ol_set_first_in g1.vertices v a.head_link } v
          = a.head_link := by
        rw [ol_first_in_def]
        simp only
        have hvlt : v < g1.vertices.length := by
          by_contra hge
          have h5 : g1.vertices.get? v = none := List.get?_len_le (by omega)
          rw [ol_first_in_def, h5] at hc
          simp at hc
        obtain ⟨vx, hvx, hvx'⟩ := ol_set_first_in_get_self hvlt a.head_link
        rw [hvx']
        rfl
      rw [hfi]
      simpa using hrest
    · intro i
      rfl
    · intro i hcond
      rfl
    · intro i
      rfl
    · intro x
      rw [ol_first_out_def, ol_first_out_def]
      simp only
      rw [first_out_after_set_in]
    · intro x hx
      rw [ol_first_in_def, ol_first_in_def]
      simp only
      rw [ol_set_first_in_get_ne _ hx]
  case neg =>
    have hM1ne : M1 ≠ [] := hM1e
    have hgl : M1.getLast? = some (M1.getLast hM1ne) :=
      List.getLast?_eq_getLast M1 hM1ne
    rw [hgl] at hres
    set q := M1.getLast hM1ne with hq
    have hqmem : q ∈ M1 := List.getLast_mem hM1ne
    have hqtgt : q ≠ tgt := fun h2 => htgtM1 (h2 ▸ hqmem)
    refine ⟨some q, { g1 with arcs := ol_patch_head g1.arcs q a.head_link },
      hres, Or.inr ⟨q, rfl, rfl⟩, rfl, ?_, ?_, ?_, ?_, ?_, ?_, ?_, ?_⟩
    · simp only
      unfold ol_patch_head
      cases hk : g1.arcs.get? q with
      | none => rfl
      | some o =>
        cases o with
        | none => rfl
        | some a2 => simp
    · have h6 := in_chain_splice_patch ha1 M1 (ol_first_in g1 v) M2 hM1ne hMch hMnd
      have hfi : ol_first_in { g1 with arcs := ol_patch_head g1.arcs q a.head_link } v
          = ol_first_in g1 v := rfl
      rw [hfi]
      exact h6
    · intro i
      exact out_view_patch_head g1.arcs q a.head_link i
    · intro i hcond
      have hiq : i ≠ q := by
        intro h2
        obtain ⟨aq, haq⟩ := in_chain_live hMch q (List.mem_append.mpr (Or.inl hqmem))
        rw [h2] at hcond
        exact hcond aq haq (hMtag q (List.mem_append.mpr (Or.inl hqmem)) aq haq)
      unfold in_view
      simp only
      rw [get?_patch_head_ne _ _ _ hiq]
    · intro i
      exact arc_vex_patch_head g1.arcs q a.head_link i
    · intro x
      rfl
    · intro x hx
      rfl
    · simp only
      unfold arcAt
      rw [get?_patch_head_ne _ _ _ (Ne.symm hqtgt)]
      exact arcAt_get? ha1 ▸ rfl

/-- Assembling well-formedness of the spliced state: given the composite
observations `g → g2` of both splices and the final slot kill, every
`OLWf` field carries over to the result. -/
theorem ol_stage3 {g g2 G3 : OrthogonalList T W} (hwf : OLWf g)
    {u v tgt : Nat} {a : OLArc W}
    (hu : u < g.vertices.length) (hv : v < g.vertices.length)
    (ha : arcAt g.arcs tgt = some a)
    (hatail : a.tail_vex = u) (hahead : a.head_vex = v)
    {L1 L2 M1 M2 : List Nat}
    (hLdec : OutChain g.arcs (ol_first_out g u) (L1 ++ tgt :: L2))
    (hLnd : (L1 ++ tgt :: L2).Nodup)
    (hLtag : ∀ i ∈ L1 ++ tgt :: L2, ∀ a0, arcAt g.arcs i = some a0 →
      a0.tail_vex = u)
    (hMdec : InChain g.arcs (ol_first_in g v) (M1 ++ tgt :: M2))
    (hMnd : (M1 ++ tgt :: M2).Nodup)
    (hMtag : ∀ i ∈ M1 ++ tgt :: M2, ∀ a0, arcAt g.arcs i = some a0 →
      a0.head_vex = v)
    (hvs2 : g2.vertices.length = g.vertices.length)
    (hlen2 : g2.arcs.length = g.arcs.length)
    (hchL2 : OutChain g2.arcs (ol_first_out g2 u) (L1 ++ L2))
    (hchM2 : InChain g2.arcs (ol_first_in g2 v) (M1 ++ M2))
    (hov2 : ∀ i, (∀ a0, arcAt g.arcs i = some a0 → a0.tail_vex ≠ u) →
      out_view g2.arcs i = out_view g.arcs i)
    (hiv2 : ∀ i, (∀ a0, arcAt g.arcs i = some a0 → a0.head_vex ≠ v) →
      in_view g2.arcs i = in_view g.arcs i)
    (hvex2 : ∀ i, (arcAt g2.arcs i).map (fun a0 => (a0.tail_vex, a0.head_vex))
      = (arcAt g.arcs i).map (fun a0 => (a0.tail_vex, a0.head_vex)))
    (hfo2 : ∀ x, x ≠ u → ol_first_out g2 x = ol_first_out g x)
    (hfi2 : ∀ x, x ≠ v → ol_first_in g2 x = ol_first_in g x)
    (hG3v : G3.vertices = g2.vertices)
    (hG3a : G3.arcs = g2.arcs.set tgt none) :
    OLWf G3 ∧ arcAt G3.arcs tgt = none := by
  have htgtlt : tgt < g2.arcs.length := by
    rw [hlen2]
    exact arcAt_lt ha
  have hdead : arcAt G3.arcs tgt = none := by
    rw [hG3a]
    exact arcAt_set_none_self _ htgtlt
  have hvs3 : G3.vertices.length = g.vertices.length := by
    rw [hG3v]
    exact hvs2
  have hvex3 : ∀ i, i ≠ tgt →
      (arcAt G3.arcs i).map (fun a0 => (a0.tail_vex, a0.head_vex))
        = (arcAt g.arcs i).map (fun a0 => (a0.tail_vex, a0.head_vex)) := by
    intro i hne
    rw [hG3a, arcAt_set_none_ne _ hne]
    exact hvex2 i
  have hfo3 : ∀ x, ol_first_out G3 x = ol_first_out g2 x :=
    fun x => ol_first_out_congr hG3v x
  have hfi3 : ∀ x, ol_first_in G3 x = ol_first_in g2 x :=
    fun x => ol_first_in_congr hG3v x
  have hov3 : ∀ i, i ≠ tgt →
      (∀ a0, arcAt g.arcs i = some a0 → a0.tail_vex ≠ u) →
      out_view G3.arcs i = out_view g.arcs i := by
    intro i hne hcond
    rw [hG3a, out_view_set_none_ne _ hne]
    exact hov2 i hcond
  have hiv3 : ∀ i, i ≠ tgt →
      (∀ a0, arcAt g.arcs i = some a0 → a0.head_vex ≠ v) →
      in_view G3.arcs i = in_view g.arcs i := by
    intro i hne hcond
    rw [hG3a, in_view_set_none_ne _ hne]
    exact hiv2 i hcond
  have htgtL : tgt ∉ L1 ∧ tgt ∉ L2 := by
    rw [List.nodup_append] at hLnd
    refine ⟨fun hmem => hLnd.2.2 hmem (by simp), ?_⟩
    have h5 := hLnd.2.1
    rw [List.nodup_cons] at h5
    exact h5.1
  have htgtM : tgt ∉ M1 ∧ tgt ∉ M2 := by
    rw [List.nodup_append] at hMnd
    refine ⟨fun hmem => hMnd.2.2 hmem (by simp), ?_⟩
    have h5 := hMnd.2.1
    rw [List.nodup_cons] at h5
    exact h5.1
  have hLnd' : (L1 ++ L2).Nodup :=
    hLnd.sublist (List.Sublist.append_left (List.sublist_cons_self tgt L2) L1)
  have hMnd' : (M1 ++ M2).Nodup :=
    hMnd.sublist (List.Sublist.append_left (List.sublist_cons_self tgt M2) M1)
  have hneL : ∀ i ∈ L1 ++ L2, i ≠ tgt := by
    intro i hi h2
    subst h2
    rcases List.mem_append.mp hi with h3 | h3
    · exact htgtL.1 h3
    · exact htgtL.2 h3
  have hneM : ∀ i ∈ M1 ++ M2, i ≠ tgt := by
    intro i hi h2
    subst h2
    rcases List.mem_append.mp hi with h3 | h3
    · exact htgtM.1 h3
    · exact htgtM.2 h3
  have hmemL : ∀ i ∈ L1 ++ L2, i ∈ L1 ++ tgt :: L2 := by
    intro i hi
    rcases List.mem_append.mp hi with h3 | h3
    · exact List.mem_append.mpr (Or.inl h3)
    · exact List.mem_append.mpr (Or.inr (by simp [h3]))
  have hmemM : ∀ i ∈ M1 ++ M2, i ∈ M1 ++ tgt :: M2 := by
    intro i hi
    rcases List.mem_append.mp hi with h3 | h3
    · exact List.mem_append.mpr (Or.inl h3)
    · exact List.mem_append.mpr (Or.inr (by simp [h3]))
  have hchL3 : OutChain G3.arcs (ol_first_out G3 u) (L1 ++ L2) := by
    rw [hfo3]
    refine out_chain_congr hchL2 ?_
    intro i hi
    rw [hG3a]
    exact out_view_set_none_ne _ (hneL i hi)
  have hchM3 : InChain G3.arcs (ol_first_in G3 v) (M1 ++ M2) := by
    rw [hfi3]
    refine in_chain_congr hchM2 ?_
    intro i hi
    rw [hG3a]
    exact in_view_set_none_ne _ (hneM i hi)
  have hout3 : ∀ x, x < g.vertices.length →
      ∃ L, OutChain G3.arcs (ol_first_out G3 x) L ∧ L.Nodup ∧
        (∀ i ∈ L, ∀ a0, arcAt G3.arcs i = some a0 → a0.tail_vex = x) ∧
        (∀ i a0, arcAt g.arcs i = some a0 → a0.tail_vex = x → i ≠ tgt →
          i ∈ L) := by
    intro x hx
    by_cases hxu : x = u
    · subst hxu
      refine ⟨L1 ++ L2, hchL3, hLnd', ?_, ?_⟩
      · intro i hi a0 h0
        obtain ⟨a1, ha1, ht1, _⟩ := vex_transfer (hvex3 i (hneL i hi)) h0
        rw [ht1]
        exact hLtag i (hmemL i hi) a1 ha1
      · intro i a0 h0 htail hne
        have hmem := hwf.mem_out i a0 h0 (L1 ++ tgt :: L2) (by rw [htail]; exact hLdec)
        rcases List.mem_append.mp hmem with h3 | h3
        · exact List.mem_append.mpr (Or.inl h3)
        · rcases List.mem_cons.mp h3 with h4 | h4
          · exact absurd h4 hne
          · exact List.mem_append.mpr (Or.inr h4)
    · obtain ⟨Lx, hLx, hLxnd, hLxtag⟩ := hwf.out_chains x hx
      have hnetgt : ∀ i ∈ Lx, i ≠ tgt := by
        intro i hi h2
        subst h2
        obtain ⟨ai, hai⟩ := out_chain_live hLx i hi
        rw [ha] at hai
        injection hai with he
        subst he
        exact hxu ((hLxtag i hi a ha).symm.trans hatail)
      have hview : ∀ i ∈ Lx, out_view G3.arcs i = out_view g.arcs i := by
        intro i hi
        refine hov3 i (hnetgt i hi) ?_
        intro a0 h0 h2
        exact hxu ((hLxtag i hi a0 h0).symm.trans h2)
      refine ⟨Lx, ?_, hLxnd, ?_, ?_⟩
      · rw [hfo3, hfo2 x hxu]
        exact out_chain_congr hLx hview
      · intro i hi a0 h0
        obtain ⟨a1, ha1, ht1, _⟩ := vex_transfer (hvex3 i (hnetgt i hi)) h0
        rw [ht1]
        exact hLxtag i hi a1 ha1
      · intro i a0 h0 htail hne
        exact hwf.mem_out i a0 h0 Lx (by rw [htail]; exact hLx)
  have hin3 : ∀ x, x < g.vertices.length →
      ∃ M, InChain G3.arcs (ol_first_in G3 x) M ∧ M.Nodup ∧
        (∀ i ∈ M, ∀ a0, arcAt G3.arcs i = some a0 → a0.head_vex = x) ∧
        (∀ i a0, arcAt g.arcs i = some a0 → a0.head_vex = x → i ≠ tgt →
          i ∈ M) := by
    intro x hx
    by_cases hxv : x = v
    · subst hxv
      refine ⟨M1 ++ M2, hchM3, hMnd', ?_, ?_⟩
      · intro i hi a0 h0
        obtain ⟨a1, ha1, _, hh1⟩ := vex_transfer (hvex3 i (hneM i hi)) h0
        rw [hh1]
        exact hMtag i (hmemM i hi) a1 ha1
      · intro i a0 h0 hhead hne
        have hmem := hwf.mem_in i a0 h0 (M1 ++ tgt :: M2) (by rw [hhead]; exact hMdec)
        rcases List.mem_append.mp hmem with h3 | h3
        · exact List.mem_append.mpr (Or.inl h3)
        · rcases List.mem_cons.mp h3 with h4 | h4
          · exact absurd h4 hne
          · exact List.mem_append.mpr (Or.inr h4)
    · obtain ⟨Mx, hMx, hMxnd, hMxtag⟩ := hwf.in_chains x hx
      have hnetgt : ∀ i ∈ Mx, i ≠ tgt := by
        intro i hi h2
        subst h2
        obtain ⟨ai, hai⟩ := in_chain_live hMx i hi
        rw [ha] at hai
        injection hai with he
        subst he
        exact hxv ((hMxtag i hi a ha).symm.trans hahead)
      have hview : ∀ i ∈ Mx, in_view G3.arcs i = in_view g.arcs i := by
        intro i hi
        refine hiv3 i (hnetgt i hi) ?_
        intro a0 h0 h2
        exact hxv ((hMxtag i hi a0 h0).symm.trans h2)
      refine ⟨Mx, ?_, hMxnd, ?_, ?_⟩
      · rw [hfi3, hfi2 x hxv]
        exact in_chain_congr hMx hview
      · intro i hi a0 h0
        obtain ⟨a1, ha1, _, hh1⟩ := vex_transfer (hvex3 i (hnetgt i hi)) h0
        rw [hh1]
        exact hMxtag i hi a1 ha1
      · intro i a0 h0 hhead hne
        exact hwf.mem_in i a0 h0 Mx (by rw [hhead]; exact hMx)
  refine ⟨⟨?_, ?_, ?_, ?_, ?_⟩, hdead⟩
  · intro x hx
    obtain ⟨L, h1, h2, h3, _⟩ := hout3 x (by rw [hvs3] at hx; exact hx)
    exact ⟨L, h1, h2, h3⟩
  · intro x hx
    obtain ⟨M, h1, h2, h3, _⟩ := hin3 x (by rw [hvs3] at hx; exact hx)
    exact ⟨M, h1, h2, h3⟩
  · intro i a0 h0
    have hne : i ≠ tgt := by
      intro h2
      rw [h2, hdead] at h0
      exact Option.noConfusion h0
    obtain ⟨a1, ha1, ht1, hh1⟩ := vex_transfer (hvex3 i hne) h0
    have h5 := hwf.arc_bounds i a1 ha1
    rw [ht1, hh1, hvs3]
    exact h5
  · intro i a0 h0 L hL0
    have hne : i ≠ tgt := by
      intro h2
      rw [h2, hdead] at h0
      exact Option.noConfusion h0
    obtain ⟨a1, ha1, ht1, _⟩ := vex_transfer (hvex3 i hne) h0
    have hxlt : a0.tail_vex < g.vertices.length := by
      rw [ht1]
      exact (hwf.arc_bounds i a1 ha1).1
    obtain ⟨Lc, hc1, _, _, hc4⟩ := hout3 a0.tail_vex hxlt
    have heq : L = Lc := out_chain_det hL0 hc1
    subst heq
    exact hc4 i a1 ha1 ht1.symm hne
  · intro i a0 h0 M hM0
    have hne : i ≠ tgt := by
      intro h2
      rw [h2, hdead] at h0
      exact Option.noConfusion h0
    obtain ⟨a1, ha1, _, hh1⟩ := vex_transfer (hvex3 i hne) h0
    have hxlt : a0.head_vex < g.vertices.length := by
      rw [hh1]
      exact (hwf.arc_bounds i a1 ha1).2
    obtain ⟨Mc, hc1, _, _, hc4⟩ := hin3 a0.head_vex hxlt
    have heq : M = Mc := in_chain_det hM0 hc1
    subst heq
    exact hc4 i a1 ha1 hh1.symm hne

theorem out_chain_not_dead {arcs : List (Option (OLArc W))} {c : Option Nat}
    {L : List Nat} {tgt : Nat} (h : OutChain arcs c L)
    (hd : arcAt arcs tgt = none) : tgt ∉ L := by
  intro hmem
  obtain ⟨a, ha⟩ := out_chain_live h tgt hmem
  rw [hd] at ha
  exact Option.noConfusion ha

theorem in_chain_not_dead {arcs : List (Option (OLArc W))} {c : Option Nat}
    {L : List Nat} {tgt : Nat} (h : InChain arcs c L)
    (hd : arcAt arcs tgt = none) : tgt ∉ L := by
  intro hmem
  obtain ⟨a, ha⟩ := in_chain_live h tgt hmem
  rw [hd] at ha
  exact Option.noConfusion ha

/-- Middle layer of the `remove_edge` proof: from the facts of the first
splice (`g → g1`), the in-chain search on `g1` succeeds, the second
splice yields a `g2`, and any state with `g2`'s vertices and the
`tgt`-killed arena is well formed. -/
theorem ol_remove_main {g g1 : OrthogonalList T W} (hwf : OLWf g)
    {u v t0 : Nat} {a : OLArc W}
    (hu : u < g.vertices.length) (hv : v < g.vertices.length)
    (ha : arcAt g.arcs t0 = some a)
    (htag0 : a.tail_vex = u) (hav : a.head_vex = v)
    {L1 L2 M1 M2 : List Nat}
    (hL : OutChain g.arcs (ol_first_out g u) (L1 ++ t0 :: L2))
    (hLnd : (L1 ++ t0 :: L2).Nodup)
    (hLtag : ∀ i ∈ L1 ++ t0 :: L2, ∀ a0, arcAt g.arcs i = some a0 →
      a0.tail_vex = u)
    (hM : InChain g.arcs (ol_first_in g v) (M1 ++ t0 :: M2))
    (hMnd : (M1 ++ t0 :: M2).Nodup)
    (hMtag : ∀ i ∈ M1 ++ t0 :: M2, ∀ a0, arcAt g.arcs i = some a0 →
      a0.head_vex = v)
    (hg1vs : g1.vertices.length = g.vertices.length)
    (hg1len : g1.arcs.length = g.arcs.length)
    (hchL1 : OutChain g1.arcs (ol_first_out g1 u) (L1 ++ L2))
    (hin1 : ∀ i, in_view g1.arcs i = in_view g.arcs i)
    (hov1 : ∀ i, (∀ a0, arcAt g.arcs i = some a0 → a0.tail_vex ≠ u) →
      out_view g1.arcs i = out_view g.arcs i)
    (hvex1 : ∀ i, (arcAt g1.arcs i).map (fun a0 => (a0.tail_vex, a0.head_vex))
      = (arcAt g.arcs i).map (fun a0 => (a0.tail_vex, a0.head_vex)))
    (hfo1ne : ∀ x, x ≠ u → ol_first_out g1 x = ol_first_out g x)
    (hfi1 : ∀ x, ol_first_in g1 x = ol_first_in g x)
    (hat1 : arcAt g1.arcs t0 = some a) :
    ∃ prev2 g2,
      ol_find_in g1.arcs t0 g1.arcs.length none (ol_first_in g1 v)
        = (prev2, true, a.head_link) ∧
      ((prev2 = none ∧
          g2 = { g1 with vertices := ol_set_first_in g1.vertices v a.head_link }) ∨
        (∃ p, prev2 = some p ∧
          g2 = { g1 with arcs := ol_patch_head g1.arcs p a.head_link })) ∧
      (∀ G3 : OrthogonalList T W, G3.vertices = g2.vertices →
        G3.arcs = g2.arcs.set t0 none →
        OLWf G3 ∧ arcAt G3.arcs t0 = none) := by
  have hMch1 : InChain g1.arcs (ol_first_in g1 v) (M1 ++ t0 :: M2) := by
    rw [hfi1 v]
    exact in_chain_congr hM (fun i hi => hin1 i)
  have hMtag1 : ∀ i ∈ M1 ++ t0 :: M2, ∀ a0, arcAt g1.arcs i = some a0 →
      a0.head_vex = v := by
    intro i hi a0 h0
    obtain ⟨a2, ha2, _, hh2⟩ := vex_transfer (hvex1 i) h0
    rw [hh2]
    exact hMtag i hi a2 ha2
  obtain ⟨prev2, g2, hfindin, hcase2, hg2vs, hg2len, hchM2, hout2, hin2,
    hvex2g, hfo2g, hfi2g, hat2⟩ := ol_stage2 hat1 hMch1 hMnd hMtag1
  refine ⟨prev2, g2, hfindin, hcase2, ?_⟩
  intro G3 hG3v hG3a
  refine ol_stage3 hwf hu hv ha htag0 hav hL hLnd hLtag hM hMnd hMtag
    (hg2vs.trans hg1vs) (hg2len.trans hg1len) ?_ hchM2 ?_ ?_ ?_ ?_ ?_ hG3v hG3a
  · rw [hfo2g u]
    exact out_chain_congr hchL1 (fun i hi => hout2 i)
  · intro i hcond
    rw [hout2 i]
    exact hov1 i hcond
  · intro i hcond
    have hcond1 : ∀ a0, arcAt g1.arcs i = some a0 → a0.head_vex ≠ v := by
      intro a0 h0
      obtain ⟨a2, ha2, _, hh2⟩ := vex_transfer (hvex1 i) h0
      rw [hh2]
      exact hcond a2 ha2
    rw [hin2 i hcond1]
    exact hin1 i
  · intro i
    rw [hvex2g i]
    exact hvex1 i
  · intro x hx
    rw [hfo2g x]
    exact hfo1ne x hx
  · intro x hx
    rw [hfi2g x hx]
    exact hfi1 x

/-- `remove_edge` preserves well-formedness of the orthogonal list, and
when its out-chain search finds an arc, that arc's slot is dead in the
result. -/
theorem ol_remove_edge_wf {g : OrthogonalList T W} (hwf : OLWf g) (u v : Nat) :
    OLWf (ol_remove_edge g u v) ∧
    ∀ prev tgt nl,
      ol_find_out g.arcs v g.arcs.length none (ol_first_out g u)
        = (prev, some tgt, nl) →
      ¬(u ≥ g.vertices.length ∨ v ≥ g.vertices.length) →
      arcAt (ol_remove_edge g u v).arcs tgt = none := by
  by_cases hb : u ≥ g.vertices.length ∨ v ≥ g.vertices.length
  · have hrem : ol_remove_edge g u v = g := by
      unfold ol_remove_edge
      rw [if_pos hb]
    rw [hrem]
    exact ⟨hwf, fun prev tgt nl _ hb2 => absurd hb hb2⟩
  push_neg at hb
  obtain ⟨hu, hv⟩ := hb
  have hbne : ¬(u ≥ g.vertices.length ∨ v ≥ g.vertices.length) := by omega
  obtain ⟨L, hL, hLnd, hLtag⟩ := hwf.out_chains u hu
  rcases first_match_decomp (fun i => ol_head_match g.arcs v i) L with
    hnone | ⟨L1, t0, L2, hdec, hm1, hmt⟩
  · have hsnd := ol_find_out_chain_none (t := v) g.arcs.length L
      (ol_first_out g u) none hL hnone
    rcases hfr : ol_find_out g.arcs v g.arcs.length none (ol_first_out g u) with
      ⟨pr, s2, nl2⟩
    rw [hfr] at hsnd
    simp only at hsnd
    subst hsnd
    have hrem : ol_remove_edge g u v = g := by
      unfold ol_remove_edge
      rw [if_neg hbne]
      simp only [hfr]
    rw [hrem]
    refine ⟨hwf, ?_⟩
    intro prev tgt nl hf2 _
    injection hf2 with h1 h23
    injection h23 with h2 h3
    exact Option.noConfusion h2
  · subst hdec
    have hLlt := out_chain_lt hL
    have hL1len : L1.length < g.arcs.length := by
      have h1 := nodup_bounded_length_le _ _ hLnd hLlt
      simp only [List.length_append, List.length_cons] at h1
      omega
    obtain ⟨a, ha, hav, hres⟩ := ol_find_out_chain_found L1 (ol_first_out g u)
      none t0 L2 hL hm1 hmt g.arcs.length hL1len
    rw [Option.or_none] at hres
    have htag0 : a.tail_vex = u :=
      hLtag t0 (List.mem_append.mpr (Or.inr (by simp))) a ha
    obtain ⟨M, hM, hMnd, hMtag⟩ := hwf.in_chains v hv
    have htgtM : t0 ∈ M := hwf.mem_in t0 a ha M (by rw [hav]; exact hM)
    obtain ⟨M1, M2, hMdec, hM1n, hM2n⟩ := nodup_mem_decomp hMnd htgtM
    subst hMdec
    by_cases hL1e : L1 = []
    · subst hL1e
      rw [show (([] : List Nat).getLast?) = none from rfl] at hres
      set g1 : OrthogonalList T W :=
        { g with vertices := ol_set_first_out g.vertices u a.tail_link } with hg1
      have hg1vs : g1.vertices.length = g.vertices.length := by
        rw [hg1]
        simp only
        rw [ol_set_first_out_length]
      have hg1arcs : g1.arcs = g.arcs := by rw [hg1]
      have hg1len : g1.arcs.length = g.arcs.length := by rw [hg1arcs]
      have hfo1u : ol_first_out g1 u = a.tail_link := by
        rw [ol_first_out_def, hg1]
        simp only
        obtain ⟨vx, hvx, hvx'⟩ := ol_set_first_out_get_self (l := a.tail_link) hu
        rw [hvx']
        rfl
      have hchL1 : OutChain g1.arcs (ol_first_out g1 u) (([] : List Nat) ++ L2) := by
        rw [hfo1u, hg1arcs]
        obtain ⟨hc, a', ha', hrest⟩ := out_chain_cons_inv (by simpa using hL)
        rw [ha] at ha'
        injection ha' with he
        subst he
        simpa using hrest
      have hfo1ne : ∀ x, x ≠ u → ol_first_out g1 x = ol_first_out g x := by
        intro x hx
        rw [ol_first_out_def, ol_first_out_def, hg1]
        simp only
        rw [ol_set_first_out_get_ne _ hx]
      have hfi1 : ∀ x, ol_first_in g1 x = ol_first_in g x := by
        intro x
        rw [ol_first_in_def, ol_first_in_def, hg1]
        simp only
        rw [first_in_after_set_out]
      have hat1 : arcAt g1.arcs t0 = some a := by
        rw [hg1arcs]
        exact ha
      obtain ⟨prev2, g2, hfindin, hcase2, hmk⟩ := ol_remove_main hwf hu hv ha
        htag0 hav hL hLnd hLtag hM hMnd hMtag hg1vs hg1len hchL1
        (fun i => by rw [hg1arcs]) (fun i hcond => by rw [hg1arcs])
        (fun i => by rw [hg1arcs]) hfo1ne hfi1 hat1
      have hfindin' : ol_find_in g.arcs t0 g.arcs.length none
          (ol_first_in
            { g with vertices := ol_set_first_out g.vertices u a.tail_link } v)
          = (prev2, true, a.head_link) := by
        have h7 := hfindin
        rw [hg1] at h7
        simpa using h7
      rcases hcase2 with ⟨hp2, hg2⟩ | ⟨p2, hp2, hg2⟩
      · subst hp2
        have hrem : ol_remove_edge g u v
            = { g2 with
                arcs := g2.arcs.set t0 none
                edge_count := g2.edge_count - 1 } := by
          unfold ol_remove_edge
          rw [if_neg hbne]
          simp only [hres, hfindin']
          rw [hg2, hg1]
        obtain ⟨hwf3, hdead3⟩ := hmk
          { g2 with
            arcs := g2.arcs.set t0 none
            edge_count := g2.edge_count - 1 } rfl rfl
        rw [hrem]
        exact ⟨hwf3, fun prev tgt nl hf2 _ => by
          rw [hres] at hf2
          injection hf2 with h1 h23
          injection h23 with h2 h3
          injection h2 with h2
          rw [← h2]
          exact hdead3⟩
      · subst hp2
        have hrem : ol_remove_edge g u v
            = { g2 with
                arcs := g2.arcs.set t0 none
                edge_count := g2.edge_count - 1 } := by
          unfold ol_remove_edge
          rw [if_neg hbne]
          simp only [hres, hfindin']
          rw [hg2, hg1]
        obtain ⟨hwf3, hdead3⟩ := hmk
          { g2 with
            arcs := g2.arcs.set t0 none
            edge_count := g2.edge_count - 1 } rfl rfl
        rw [hrem]
        exact ⟨hwf3, fun prev tgt nl hf2 _ => by
          rw [hres] at hf2
          injection hf2 with h1 h23
          injection h23 with h2 h3
          injection h2 with h2
          rw [← h2]
          exact hdead3⟩
    · have hgl : L1.getLast? = some (L1.getLast hL1e) :=
        List.getLast?_eq_getLast L1 hL1e
      rw [hgl] at hres
      set p := L1.getLast hL1e with hp
      have hpmem : p ∈ L1 := List.getLast_mem hL1e
      have hpt0 : p ≠ t0 := by
        intro h2
        rw [List.nodup_append] at hLnd
        exact hLnd.2.2 (h2 ▸ hpmem) (by simp)
      set g1 : OrthogonalList T W :=
        { g with arcs := ol_patch_tail g.arcs p a.tail_link } with hg1
      have hg1vs : g1.vertices.length = g.vertices.length := by rw [hg1]
      have hg1arcs : g1.arcs = ol_patch_tail g.arcs p a.tail_link := by rw [hg1]
      have hg1len : g1.arcs.length = g.arcs.length := by
        rw [hg1arcs]
        unfold ol_patch_tail
        cases hk : g.arcs.get? p with
        | none => rfl
        | some o =>
          cases o with
          | none => rfl
          | some a2 => simp
      have hfo1same : ∀ x, ol_first_out g1 x = ol_first_out g x := by
        intro x
        rw [ol_first_out_def, ol_first_out_def, hg1]
      have hchL1 : OutChain g1.arcs (ol_first_out g1 u) (L1 ++ L2) := by
        rw [hfo1same u, hg1arcs]
        exact out_chain_splice_patch ha L1 (ol_first_out g u) L2 hL1e hL hLnd
      have hov1 : ∀ i, (∀ a0, arcAt g.arcs i = some a0 → a0.tail_vex ≠ u) →
          out_view g1.arcs i = out_view g.arcs i := by
        intro i hcond
        have hip : i ≠ p := by
          intro h2
          obtain ⟨ap, hap⟩ := out_chain_live hL p
            (List.mem_append.mpr (Or.inl hpmem))
          rw [h2] at hcond
          exact hcond ap hap
            (hLtag p (List.mem_append.mpr (Or.inl hpmem)) ap hap)
        rw [hg1arcs]
        unfold out_view
        rw [get?_patch_tail_ne _ _ _ hip]
      have hat1 : arcAt g1.arcs t0 = some a := by
        rw [hg1arcs]
        unfold arcAt
        rw [get?_patch_tail_ne _ _ _ (Ne.symm hpt0)]
        exact arcAt_get? ha ▸ rfl
      obtain ⟨prev2, g2, hfindin, hcase2, hmk⟩ := ol_remove_main hwf hu hv ha
        htag0 hav hL hLnd hLtag hM hMnd hMtag hg1vs hg1len hchL1
        (fun i => by rw [hg1arcs]; exact in_view_patch_tail g.arcs p a.tail_link i)
        hov1
        (fun i => by rw [hg1arcs]; exact arc_vex_patch_tail g.arcs p a.tail_link i)
        (fun x hx => hfo1same x)
        (fun x => by rw [ol_first_in_def, ol_first_in_def, hg1])
        hat1
      have hfindin' : ol_find_in (ol_patch_tail g.arcs p a.tail_link) t0
          (ol_patch_tail g.arcs p a.tail_link).length none
          (ol_first_in
            { g with arcs := ol_patch_tail g.arcs p a.tail_link } v)
          = (prev2, true, a.head_link) := by
        have h7 := hfindin
        rw [hg1] at h7
        simpa using h7
      rcases hcase2 with ⟨hp2, hg2⟩ | ⟨p2, hp2, hg2⟩
      · subst hp2
        have hrem : ol_remove_edge g u v
            = { g2 with
                arcs := g2.arcs.set t0 none
                edge_count := g2.edge_count - 1 } := by
          unfold ol_remove_edge
          rw [if_neg hbne]
          simp only [hres, hfindin']
          rw [hg2, hg1]
        obtain ⟨hwf3, hdead3⟩ := hmk
          { g2 with
            arcs := g2.arcs.set t0 none
            edge_count := g2.edge_count - 1 } rfl rfl
        rw [hrem]
        exact ⟨hwf3, fun prev tgt nl hf2 _ => by
          rw [hres] at hf2
          injection hf2 with h1 h23
          injection h23 with h2 h3
          injection h2 with h2
          rw [← h2]
          exact hdead3⟩
      · subst hp2
        have hrem : ol_remove_edge g u v
            = { g2 with
                arcs := g2.arcs.set t0 none
                edge_count := g2.edge_count - 1 } := by
          unfold ol_remove_edge
          rw [if_neg hbne]
          simp only [hres, hfindin']
          rw [hg2, hg1]
        obtain ⟨hwf3, hdead3⟩ := hmk
          { g2 with
            arcs := g2.arcs.set t0 none
            edge_count := g2.edge_count - 1 } rfl rfl
        rw [hrem]
        exact ⟨hwf3, fun prev tgt nl hf2 _ => by
          rw [hres] at hf2
          injection hf2 with h1 h23
          injection h23 with h2 h3
          injection h2 with h2
          rw [← h2]
          exact hdead3⟩

theorem edgeAt_get? {edges : List (Option (AMLEdge W))} {i : Nat} {e : AMLEdge W}
    (h : edgeAt edges i = some e) : edges.get? i = some (some e) := by
  unfold edgeAt at h
  cases hk : edges.get? i with
  | none => rw [hk] at h; simp at h
  | some o =>
    rw [hk] at h
    cases o with
    | none => simp at h
    | some e0 =>
      have h2 : e0 = e := by simpa using h
      subst h2
      rfl

theorem edgeAt_lt {edges : List (Option (AMLEdge W))} {i : Nat} {e : AMLEdge W}
    (h : edgeAt edges i = some e) : i < edges.length :=
  (List.get?_eq_some.mp (edgeAt_get? h)).1

theorem aml_view_of_edgeAt {edges : List (Option (AMLEdge W))} {i : Nat}
    {e : AMLEdge W} (h : edgeAt edges i = some e) (x : Nat) :
    aml_view edges x i = some (some (aml_link e x)) := by
  unfold aml_view
  rw [edgeAt_get? h]
  rfl

theorem edgeAt_of_aml_view {edges edges2 : List (Option (AMLEdge W))} {i x : Nat}
    {e : AMLEdge W} (hv : aml_view edges2 x i = aml_view edges x i)
    (h : edgeAt edges i = some e) :
    ∃ e2, edgeAt edges2 i = some e2 ∧ aml_link e2 x = aml_link e x := by
  rw [aml_view_of_edgeAt h] at hv
  unfold aml_view at hv
  cases hk : edges2.get? i with
  | none => rw [hk] at hv; simp at hv
  | some o =>
    rw [hk] at hv
    cases o with
    | none => simp at hv
    | some e2 =>
      refine ⟨e2, ?_, ?_⟩
      · unfold edgeAt
        rw [hk]
        rfl
      · simpa using hv

theorem evex_transfer {edges3 edges : List (Option (AMLEdge W))} {i : Nat}
    (hvex : (edgeAt edges3 i).map (fun e0 => (e0.ivex, e0.jvex))
      = (edgeAt edges i).map (fun e0 => (e0.ivex, e0.jvex)))
    {e' : AMLEdge W} (h : edgeAt edges3 i = some e') :
    ∃ e0, edgeAt edges i = some e0 ∧ e'.ivex = e0.ivex ∧ e'.jvex = e0.jvex := by
  rw [h] at hvex
  cases hk : edgeAt edges i with
  | none =>
    rw [hk] at hvex
    simp at hvex
  | some e0 =>
    rw [hk] at hvex
    simp only [Option.map_some', Option.some.injEq, Prod.mk.injEq] at hvex
    exact ⟨e0, rfl, hvex.1, hvex.2⟩

theorem aml_chain_congr {edges edges2 : List (Option (AMLEdge W))} {x : Nat} :
    ∀ {c : Option Nat} {L : List Nat}, AmlChain edges x c L →
      (∀ i ∈ L, aml_view edges2 x i = aml_view edges x i) →
      AmlChain edges2 x c L := by
  intro c L h
  induction h with
  | nil => intro hvw; exact AmlChain.nil
  | cons ha hrest ih =>
    intro hvw
    obtain ⟨e2, he2, hl2⟩ := edgeAt_of_aml_view (hvw _ (by simp)) ha
    refine AmlChain.cons he2 ?_
    rw [hl2]
    exact ih (fun i hi => hvw i (by simp [hi]))

theorem aml_chain_det {edges : List (Option (AMLEdge W))} {x : Nat} :
    ∀ {c : Option Nat} {L1 : List Nat}, AmlChain edges x c L1 →
      ∀ {L2 : List Nat}, AmlChain edges x c L2 → L1 = L2 := by
  intro c L1 h1
  induction h1 with
  | nil =>
    intro L2 h2
    cases h2
    rfl
  | cons ha hrest ih =>
    intro L2 h2
    cases h2 with
    | cons ha' hrest' =>
      rw [ha] at ha'
      injection ha' with he
      subst he
      rw [ih hrest']

theorem aml_chain_live {edges : List (Option (AMLEdge W))} {x : Nat} :
    ∀ {c : Option Nat} {L : List Nat}, AmlChain edges x c L →
      ∀ i ∈ L, ∃ e, edgeAt edges i = some e := by
  intro c L h
  induction h with
  | nil => intro i hi; simp at hi
  | cons ha hrest ih =>
    intro i hi
    rcases List.mem_cons.mp hi with rfl | hi'
    · exact ⟨_, ha⟩
    · exact ih i hi'

theorem aml_chain_lt {edges : List (Option (AMLEdge W))} {x : Nat}
    {c : Option Nat} {L : List Nat} (h : AmlChain edges x c L) :
    ∀ i ∈ L, i < edges.length := by
  intro i hi
  obtain ⟨e, he⟩ := aml_chain_live h i hi
  exact edgeAt_lt he

theorem aml_chain_cons_inv {edges : List (Option (AMLEdge W))} {x : Nat}
    {c : Option Nat} {idx : Nat} {L : List Nat}
    (h : AmlChain edges x c (idx :: L)) :
    c = some idx ∧ ∃ e, edgeAt edges idx = some e ∧
      AmlChain edges x (aml_link e x) L := by
  cases h with
  | cons ha hrest => exact ⟨rfl, _, ha, hrest⟩

theorem aml_chain_not_dead {edges : List (Option (AMLEdge W))} {x : Nat}
    {c : Option Nat} {L : List Nat} {tgt : Nat} (h : AmlChain edges x c L)
    (hd : edgeAt edges tgt = none) : tgt ∉ L := by
  intro hmem
  obtain ⟨e, he⟩ := aml_chain_live h tgt hmem
  rw [hd] at he
  exact Option.noConfusion he

theorem aml_patch_eq_pos {edges : List (Option (AMLEdge W))} {p : Nat}
    {e : AMLEdge W} (hk : edges.get? p = some (some e)) {x : Nat}
    (hx : (e.ivex == x) = true) (l : Option Nat) :
    aml_patch edges x p l = edges.set p (some { e with ilink := l }) := by
  unfold aml_patch
  simp only [hk]
  rw [if_pos hx]

theorem aml_patch_eq_neg {edges : List (Option (AMLEdge W))} {p : Nat}
    {e : AMLEdge W} (hk : edges.get? p = some (some e)) {x : Nat}
    (hx : (e.ivex == x) = false) (l : Option Nat) :
    aml_patch edges x p l = edges.set p (some { e with jlink := l }) := by
  unfold aml_patch
  simp only [hk]
  rw [if_neg (by simp [hx])]

theorem get?_aml_patch_ne (edges : List (Option (AMLEdge W))) (x p : Nat)
    (l : Option Nat) {i : Nat} (h : i ≠ p) :
    (aml_patch edges x p l).get? i = edges.get? i := by
  cases hk : edges.get? p with
  | none =>
    unfold aml_patch
    rw [hk]
  | some o =>
    cases o with
    | none =>
      unfold aml_patch
      rw [hk]
    | some e =>
      by_cases hx : (e.ivex == x) = true
      · rw [aml_patch_eq_pos hk hx l]
        exact get?_set_ne' _ (fun h2 => h h2.symm)
      · rw [aml_patch_eq_neg hk (by simpa using hx) l]
        exact get?_set_ne' _ (fun h2 => h h2.symm)

theorem aml_patch_length (edges : List (Option (AMLEdge W))) (x p : Nat)
    (l : Option Nat) : (aml_patch edges x p l).length = edges.length := by
  cases hk : edges.get? p with
  | none =>
    unfold aml_patch
    rw [hk]
  | some o =>
    cases o with
    | none =>
      unfold aml_patch
      rw [hk]
    | some e =>
      by_cases hx : (e.ivex == x) = true
      · rw [aml_patch_eq_pos hk hx l]
        simp
      · rw [aml_patch_eq_neg hk (by simpa using hx) l]
        simp

/-- The slot the patch rewrites keeps its endpoints, takes `l` as the
link belonging to `x`, and keeps the link belonging to any other
vertex `y` whose reading field is untouched. -/
theorem edgeAt_aml_patch_self {edges : List (Option (AMLEdge W))} {p : Nat}
    {e0 : AMLEdge W} (h : edgeAt edges p = some e0) (x : Nat) (l : Option Nat) :
    ∃ e1, edgeAt (aml_patch edges x p l) p = some e1 ∧
      e1.ivex = e0.ivex ∧ e1.jvex = e0.jvex ∧
      aml_link e1 x = l ∧
      (∀ y, y ≠ x → (e0.ivex = x ∨ e0.ivex = y) →
        aml_link e1 y = aml_link e0 y) := by
  have hk := edgeAt_get? h
  have hlt : p < edges.length := edgeAt_lt h
  by_cases hx : (e0.ivex == x) = true
  · rw [aml_patch_eq_pos hk hx l]
    refine ⟨{ e0 with ilink := l }, ?_, rfl, rfl, ?_, ?_⟩
    · unfold edgeAt
      rw [List.get?_set_of_lt' _ _ hlt, if_pos rfl]
      rfl
    · unfold aml_link
      simp only
      rw [if_pos hx]
    · intro y hy hcase
      unfold aml_link
      simp only
      have hxy : (e0.ivex == y) = false := by
        have h5 : e0.ivex = x := by simpa using hx
        rw [h5]
        by_contra h7
        rw [Bool.not_eq_false] at h7
        have h8 : x = y := by simpa using h7
        exact hy h8.symm
      rw [if_neg (by simp [hxy]), if_neg (by simp [hxy])]
  · rw [aml_patch_eq_neg hk (by simpa using hx) l]
    refine ⟨{ e0 with jlink := l }, ?_, rfl, rfl, ?_, ?_⟩
    · unfold edgeAt
      rw [List.get?_set_of_lt' _ _ hlt, if_pos rfl]
      rfl
    · unfold aml_link
      simp only
      rw [if_neg hx]
    · intro y hy hcase
      have h5 : e0.ivex = y := by
        rcases hcase with h6 | h6
        · exact absurd (by simp [h6]) hx
        · exact h6
      unfold aml_link
      simp only
      rw [if_pos (by simp [h5]), if_pos (by simp [h5])]

theorem aml_patch_dead {edges : List (Option (AMLEdge W))} {p : Nat}
    (h : edgeAt edges p = none) (x : Nat) (l : Option Nat) :
    aml_patch edges x p l = edges := by
  unfold aml_patch
  unfold edgeAt at h
  cases hk : edges.get? p with
  | none => rfl
  | some o =>
    cases o with
    | none => rfl
    | some e =>
      rw [hk] at h
      simp at h

theorem edge_vex_aml_patch (edges : List (Option (AMLEdge W))) (x p : Nat)
    (l : Option Nat) (i : Nat) :
    (edgeAt (aml_patch edges x p l) i).map (fun e0 => (e0.ivex, e0.jvex))
      = (edgeAt edges i).map (fun e0 => (e0.ivex, e0.jvex)) := by
  by_cases h : i = p
  · subst h
    cases ha : edgeAt edges i with
    | none => rw [aml_patch_dead ha x l, ha]
    | some e0 =>
      obtain ⟨e1, he1, hi1, hj1, _, _⟩ := edgeAt_aml_patch_self ha x l
      rw [he1]
      simp [hi1, hj1]
  · unfold edgeAt
    rw [get?_aml_patch_ne edges x p l h]

theorem edgeAt_set_none_ne (edges : List (Option (AMLEdge W))) {tgt i : Nat}
    (h : i ≠ tgt) : edgeAt (edges.set tgt none) i = edgeAt edges i := by
  unfold edgeAt
  rw [get?_set_ne' _ (fun h2 => h h2.symm)]

theorem aml_view_set_none_ne (edges : List (Option (AMLEdge W))) (x : Nat)
    {tgt i : Nat} (h : i ≠ tgt) :
    aml_view (edges.set tgt none) x i = aml_view edges x i := by
  unfold aml_view
  rw [get?_set_ne' _ (fun h2 => h h2.symm)]

theorem edgeAt_set_none_self (edges : List (Option (AMLEdge W))) {tgt : Nat}
    (h : tgt < edges.length) : edgeAt (edges.set tgt none) tgt = none := by
  unfold edgeAt
  rw [List.get?_set_of_lt' _ _ h, if_pos rfl]
  rfl

theorem aml_first_edge_congr {g g' : AdjacencyMultilist T W}
    (h : g.vertices = g'.vertices) (x : Nat) :
    aml_first_edge g x = aml_first_edge g' x := by
  rw [aml_first_edge_def, aml_first_edge_def, h]

theorem aml_rev_go_skip {edges : List (Option (AMLEdge W))} {vertex target idx : Nat}
    {e : AMLEdge W} (h : edges.get? idx = some (some e)) (hne : idx ≠ target) :
    ∀ fuel prev, aml_rev_go edges vertex target (fuel + 1) prev (some idx)
      = aml_rev_go edges vertex target fuel (some idx) (aml_link e vertex) := by
  intro fuel prev
  simp only [aml_rev_go, h]
  rw [if_neg (by simp [hne])]

/-- `remove_edge_from_vertex`'s search, characterized over the chain it
walks: the slot `target` is found after the prefix `M1`, reporting the
predecessor and `target`'s link for `vertex`. -/
theorem aml_rev_go_chain_found {edges : List (Option (AMLEdge W))} {vertex : Nat} :
    ∀ (M1 : List Nat) (c prev : Option Nat) (target : Nat) (M2 : List Nat),
      AmlChain edges vertex c (M1 ++ target :: M2) →
      target ∉ M1 →
      ∀ fuel, M1.length < fuel →
      ∃ e, edgeAt edges target = some e ∧
        aml_rev_go edges vertex target fuel prev c
          = ((M1.getLast?).or prev, aml_link e vertex, true) := by
  intro M1
  induction M1 with
  | nil =>
    intro c prev target M2 hch hnm fuel hfuel
    obtain ⟨hc, e, he, hrest⟩ := aml_chain_cons_inv hch
    subst hc
    cases fuel with
    | zero => omega
    | succ f =>
      exact ⟨e, he, aml_rev_go_found (edgeAt_get? he) _ prev (by omega)⟩
  | cons x xs ih =>
    intro c prev target M2 hch hnm fuel hfuel
    obtain ⟨hc, ex, hex, hrest⟩ := aml_chain_cons_inv (by simpa using hch)
    subst hc
    have hxne : x ≠ target := by
      intro h2
      exact hnm (by simp [h2])
    cases fuel with
    | zero => simp at hfuel
    | succ f =>
      rw [aml_rev_go_skip (edgeAt_get? hex) hxne f prev]
      obtain ⟨e, he, hres⟩ := ih (aml_link ex vertex) (some x) target M2 hrest
        (fun h2 => hnm (by simp [h2])) f (by simpa using hfuel)
      refine ⟨e, he, ?_⟩
      rw [hres, getLast?_cons_or]

theorem aml_find_edge_skip {edges : List (Option (AMLEdge W))} {i j idx : Nat}
    {e : AMLEdge W} (h : edges.get? idx = some (some e))
    (hmiss : ((e.ivex == i && e.jvex == j) || (e.ivex == j && e.jvex == i)) = false) :
    ∀ fuel, aml_find_edge edges i j (fuel + 1) (some idx)
      = aml_find_edge edges i j fuel (aml_link e i) := by
  intro fuel
  simp only [aml_find_edge, h]
  rw [if_neg (by simp [hmiss])]

/-- When nothing on the walked chain joins `i` and `j`, the search finds
nothing (also on fuel exhaustion). -/
theorem aml_find_edge_chain_none {edges : List (Option (AMLEdge W))} {i j : Nat} :
    ∀ (fuel : Nat) (L : List Nat) (c : Option Nat),
      AmlChain edges i c L →
      (∀ k ∈ L, aml_pair_match edges i j k = false) →
      aml_find_edge edges i j fuel c = none := by
  intro fuel
  induction fuel with
  | zero =>
    intro L c hch hmiss
    cases c <;> rfl
  | succ f ih =>
    intro L c hch hmiss
    cases hch with
    | nil => rfl
    | cons ha hrest =>
      rename_i idx e rest
      have hm := hmiss idx (by simp)
      unfold aml_pair_match at hm
      rw [ha] at hm
      rw [aml_find_edge_skip (edgeAt_get? ha) hm f]
      exact ih rest (aml_link e i) hrest (fun k hk => hmiss k (by simp [hk]))

/-- The chain search finds the first joining record. -/
theorem aml_find_edge_chain_found {edges : List (Option (AMLEdge W))} {i j : Nat} :
    ∀ (K1 : List Nat) (c : Option Nat) (t0 : Nat) (K2 : List Nat),
      AmlChain edges i c (K1 ++ t0 :: K2) →
      (∀ k ∈ K1, aml_pair_match edges i j k = false) →
      aml_pair_match edges i j t0 = true →
      ∀ fuel, K1.length < fuel →
      ∃ e, edgeAt edges t0 = some e ∧
        ((e.ivex == i && e.jvex == j) || (e.ivex == j && e.jvex == i)) = true ∧
        aml_find_edge edges i j fuel c = some t0 := by
  intro K1
  induction K1 with
  | nil =>
    intro c t0 K2 hch hmiss hmatch fuel hfuel
    obtain ⟨hc, e, he, hrest⟩ := aml_chain_cons_inv hch
    subst hc
    unfold aml_pair_match at hmatch
    rw [he] at hmatch
    cases fuel with
    | zero => omega
    | succ f =>
      exact ⟨e, he, hmatch,
        aml_find_edge_found (edgeAt_get? he) hmatch _ (by omega)⟩
  | cons x xs ih =>
    intro c t0 K2 hch hmiss hmatch fuel hfuel
    obtain ⟨hc, ex, hex, hrest⟩ := aml_chain_cons_inv (by simpa using hch)
    subst hc
    have hm := hmiss x (by simp)
    unfold aml_pair_match at hm
    rw [hex] at hm
    cases fuel with
    | zero => simp at hfuel
    | succ f =>
      rw [aml_find_edge_skip (edgeAt_get? hex) hm f]
      obtain ⟨e, he, hm2, hres⟩ := ih (aml_link ex i) t0 K2 hrest
        (fun k hk => hmiss k (by simp [hk])) hmatch f (by simpa using hfuel)
      exact ⟨e, he, hm2, hres⟩

/-- Splicing the slot after `M1`'s last element out of a vertex chain:
the predecessor patch makes the walk skip `tgt`. -/
theorem aml_chain_splice_patch {edges : List (Option (AMLEdge W))} {x tgt : Nat}
    {e : AMLEdge W} (ha : edgeAt edges tgt = some e) :
    ∀ (M1 : List Nat) (c : Option Nat) (M2 : List Nat) (hne : M1 ≠ []),
      AmlChain edges x c (M1 ++ tgt :: M2) → (M1 ++ tgt :: M2).Nodup →
      AmlChain (aml_patch edges x (M1.getLast hne) (aml_link e x)) x c (M1 ++ M2) := by
  intro M1
  induction M1 with
  | nil => intro c M2 hne; exact absurd rfl hne
  | cons y ys ih =>
    intro c M2 hne hch hnd
    cases ys with
    | nil =>
      cases hch with
      | cons hay hrest =>
        rename_i ey
        obtain ⟨hlink, e', he', hrest2⟩ := aml_chain_cons_inv hrest
        rw [ha] at he'
        injection he' with he2
        subst he2
        have hyne : y ≠ tgt ∧ y ∉ M2 := by
          simp only [List.cons_append, List.nil_append] at hnd
          rw [List.nodup_cons] at hnd
          have h4 := hnd.1
          simp at h4
          exact ⟨h4.1, h4.2⟩
        rw [show [y].getLast hne = y from rfl]
        obtain ⟨e1, he1, _, _, hl1, _⟩ :=
          edgeAt_aml_patch_self hay x (aml_link e x)
        refine AmlChain.cons he1 ?_
        rw [hl1]
        refine aml_chain_congr hrest2 ?_
        intro k hk
        have hky : k ≠ y := by
          intro h2
          subst h2
          exact hyne.2 hk
        unfold aml_view
        rw [get?_aml_patch_ne _ _ _ _ hky]
    | cons z zs =>
      cases hch with
      | cons hay hrest =>
        rename_i ey
        have hgl : (y :: z :: zs).getLast hne = (z :: zs).getLast (by simp) := by
          rw [List.getLast_cons]
        have hnd' : ((z :: zs) ++ tgt :: M2).Nodup := by
          rw [List.cons_append, List.nodup_cons] at hnd
          exact hnd.2
        have hymem : y ∉ (z :: zs) ++ tgt :: M2 := by
          rw [List.cons_append, List.nodup_cons] at hnd
          exact hnd.1
        have hih := ih (aml_link ey x) M2 (by simp) hrest hnd'
        rw [hgl]
        have hyp : y ≠ (z :: zs).getLast (by simp) := by
          intro h2
          have h3 : (z :: zs).getLast (by simp) ∈ (z :: zs) := List.getLast_mem _
          rw [← h2] at h3
          exact hymem (List.mem_append.mpr (Or.inl h3))
        refine AmlChain.cons (e := ey) ?_ hih
        unfold edgeAt
        rw [get?_aml_patch_ne _ _ _ _ hyp]
        exact edgeAt_get? hay ▸ rfl

/-- One endpoint splice of the multilist's `remove_edge`: the target is
found on `x`'s chain and unlinked from it; every other vertex's view of
the arena is untouched. -/
theorem aml_rfv_ok {g : AdjacencyMultilist T W} {x tgt : Nat} {e : AMLEdge W}
    {M1 M2 : List Nat}
    (ha : edgeAt g.edges tgt = some e)
    (hch : AmlChain g.edges x (aml_first_edge g x) (M1 ++ tgt :: M2))
    (hnd : (M1 ++ tgt :: M2).Nodup)
    (htag : ∀ k ∈ M1 ++ tgt :: M2, ∀ e0, edgeAt g.edges k = some e0 →
      e0.ivex = x ∨ e0.jvex = x) :
    ∃ g1, aml_remove_edge_from_vertex g x tgt = g1 ∧
      g1.vertices.length = g.vertices.length ∧
      g1.edges.length = g.edges.length ∧
      AmlChain g1.edges x (aml_first_edge g1 x) (M1 ++ M2) ∧
      (∀ y, y ≠ x → aml_first_edge g1 y = aml_first_edge g y) ∧
      (∀ y k e0, y ≠ x → edgeAt g.edges k = some e0 →
        (e0.ivex = y ∨ e0.jvex = y) → e0.ivex ≠ e0.jvex →
        aml_view g1.edges y k = aml_view g.edges y k) ∧
      (∀ k, (edgeAt g1.edges k).map (fun e0 => (e0.ivex, e0.jvex))
        = (edgeAt g.edges k).map (fun e0 => (e0.ivex, e0.jvex))) ∧
      edgeAt g1.edges tgt = some e := by
  have htgtM1 : tgt ∉ M1 := by
    rw [List.nodup_append] at hnd
    intro hmem
    exact hnd.2.2 hmem (by simp)
  have hMlt := aml_chain_lt hch
  have hfuel : M1.length < g.edges.length := by
    have h1 := nodup_bounded_length_le _ _ hnd hMlt
    simp only [List.length_append, List.length_cons] at h1
    omega
  obtain ⟨e', he', hrev⟩ := aml_rev_go_chain_found M1 (aml_first_edge g x) none
    tgt M2 hch htgtM1 g.edges.length hfuel
  rw [ha] at he'
  injection he' with he2
  subst he2
  rw [Option.or_none] at hrev
  by_cases hM1e : M1 = []
  · subst hM1e
    rw [show (([] : List Nat).getLast?) = none from rfl] at hrev
    have hrfv : aml_remove_edge_from_vertex g x tgt
        = { g with vertices := aml_set_first_edge g.vertices x (aml_link e x) } := by
      unfold aml_remove_edge_from_vertex
      simp only [hrev]
    obtain ⟨hc, e2, he2', hrest⟩ := aml_chain_cons_inv hch
    rw [ha] at he2'
    injection he2' with he3
    subst he3
    have hxlt : x < g.vertices.length := by
      by_contra hge
      have h5 : g.vertices.get? x = none := List.get?_len_le (by omega)
      rw [aml_first_edge_def, h5] at hc
      simp at hc
    refine ⟨_, hrfv, ?_, rfl, ?_, ?_, ?_, ?_, ha⟩
    · simp only
      rw [aml_set_first_edge_length]
    · have hfe : aml_first_edge
          { g with vertices := aml_set_first_edge g.vertices x (aml_link e x) } x
          = aml_link e x := by
        rw [aml_first_edge_def]
        simp only
        obtain ⟨vx, hvx, hvx'⟩ := aml_set_first_edge_get_self hxlt (aml_link e x)
        rw [hvx']
        rfl
      rw [hfe]
      simpa using hrest
    · intro y hy
      rw [aml_first_edge_def, aml_first_edge_def]
      simp only
      rw [aml_set_first_edge_get_ne _ hy]
    · intro y k e0 hy h0 hyends hne
      rfl
    · intro k
      rfl
  · have hgl : M1.getLast? = some (M1.getLast hM1e) :=
      List.getLast?_eq_getLast M1 hM1e
    rw [hgl] at hrev
    set p := M1.getLast hM1e with hpdef
    have hpmem : p ∈ M1 := List.getLast_mem hM1e
    have hptgt : p ≠ tgt := fun h2 => htgtM1 (h2 ▸ hpmem)
    obtain ⟨ep, hep⟩ := aml_chain_live hch p (List.mem_append.mpr (Or.inl hpmem))
    have hptag : ep.ivex = x ∨ ep.jvex = x :=
      htag p (List.mem_append.mpr (Or.inl hpmem)) ep hep
    have hrfv : aml_remove_edge_from_vertex g x tgt
        = { g with edges := aml_patch g.edges x p (aml_link e x) } := by
      unfold aml_remove_edge_from_vertex
      simp only [hrev]
    refine ⟨_, hrfv, rfl, ?_, ?_, ?_, ?_, ?_, ?_⟩
    · simp only
      rw [aml_patch_length]
    · have hfe : aml_first_edge
          { g with edges := aml_patch g.edges x p (aml_link e x) } x
          = aml_first_edge g x := rfl
      rw [hfe]
      exact aml_chain_splice_patch ha M1 (aml_first_edge g x) M2 hM1e hch hnd
    · intro y hy
      rfl
    · intro y k e0 hy h0 hyends hne
      simp only
      by_cases hkp : k = p
      · subst hkp
        have he0 : e0 = ep := by
          rw [h0] at hep
          injection hep
        subst he0
        obtain ⟨e1, he1, _, _, _, hpres⟩ := edgeAt_aml_patch_self hep x (aml_link e x)
        have hcase : e0.ivex = x ∨ e0.ivex = y := by
          rcases hptag with h6 | h6
          · exact Or.inl h6
          · rcases hyends with h7 | h7
            · exact Or.inr h7
            · exact absurd (h7.symm.trans h6) hy
        rw [aml_view_of_edgeAt he1 y, aml_view_of_edgeAt hep y]
        rw [hpres y hy hcase]
      · unfold aml_view
        rw [get?_aml_patch_ne _ _ _ _ hkp]
    · intro k
      simp only
      exact edge_vex_aml_patch g.edges x p (aml_link e x) k
    · simp only
      unfold edgeAt
      rw [get?_aml_patch_ne _ _ _ _ (Ne.symm hptgt)]
      exact edgeAt_get? ha ▸ rfl

/-- Assembling well-formedness of the doubly-spliced multilist state. -/
theorem aml_stage3 {g g2 G3 : AdjacencyMultilist T W} (hwf : AmlWf g)
    {i j tgt : Nat} {e : AMLEdge W}
    (ha : edgeAt g.edges tgt = some e)
    (hends : (e.ivex = i ∧ e.jvex = j) ∨ (e.ivex = j ∧ e.jvex = i))
    (hij : i ≠ j)
    {Mi1 Mi2 Mj1 Mj2 : List Nat}
    (hchI : AmlChain g.edges i (aml_first_edge g i) (Mi1 ++ tgt :: Mi2))
    (hndI : (Mi1 ++ tgt :: Mi2).Nodup)
    (hchJ : AmlChain g.edges j (aml_first_edge g j) (Mj1 ++ tgt :: Mj2))
    (hndJ : (Mj1 ++ tgt :: Mj2).Nodup)
    (hvs2 : g2.vertices.length = g.vertices.length)
    (hlen2 : g2.edges.length = g.edges.length)
    (hchI2 : AmlChain g2.edges i (aml_first_edge g2 i) (Mi1 ++ Mi2))
    (hchJ2 : AmlChain g2.edges j (aml_first_edge g2 j) (Mj1 ++ Mj2))
    (hview2 : ∀ y k e0, y ≠ i → y ≠ j → edgeAt g.edges k = some e0 →
      (e0.ivex = y ∨ e0.jvex = y) → e0.ivex ≠ e0.jvex →
      aml_view g2.edges y k = aml_view g.edges y k)
    (hvex2 : ∀ k, (edgeAt g2.edges k).map (fun e0 => (e0.ivex, e0.jvex))
      = (edgeAt g.edges k).map (fun e0 => (e0.ivex, e0.jvex)))
    (hfe2 : ∀ y, y ≠ i → y ≠ j → aml_first_edge g2 y = aml_first_edge g y)
    (hG3v : G3.vertices = g2.vertices)
    (hG3e : G3.edges = g2.edges.set tgt none) :
    AmlWf G3 ∧ edgeAt G3.edges tgt = none := by
  have htgtlt : tgt < g2.edges.length := by
    rw [hlen2]
    exact edgeAt_lt ha
  have hdead : edgeAt G3.edges tgt = none := by
    rw [hG3e]
    exact edgeAt_set_none_self _ htgtlt
  have hvs3 : G3.vertices.length = g.vertices.length := by
    rw [hG3v]
    exact hvs2
  have hvex3 : ∀ k, k ≠ tgt →
      (edgeAt G3.edges k).map (fun e0 => (e0.ivex, e0.jvex))
        = (edgeAt g.edges k).map (fun e0 => (e0.ivex, e0.jvex)) := by
    intro k hne
    rw [hG3e, edgeAt_set_none_ne _ hne]
    exact hvex2 k
  have hfe3 : ∀ y, aml_first_edge G3 y = aml_first_edge g2 y :=
    fun y => aml_first_edge_congr hG3v y
  have hview3 : ∀ y k e0, k ≠ tgt → y ≠ i → y ≠ j →
      edgeAt g.edges k = some e0 → (e0.ivex = y ∨ e0.jvex = y) →
      e0.ivex ≠ e0.jvex → aml_view G3.edges y k = aml_view g.edges y k := by
    intro y k e0 hne hyi hyj h0 hyends hvne
    rw [hG3e, aml_view_set_none_ne _ _ hne]
    exact hview2 y k e0 hyi hyj h0 hyends hvne
  have htgtI : tgt ∉ Mi1 ∧ tgt ∉ Mi2 := by
    rw [List.nodup_append] at hndI
    refine ⟨fun hmem => hndI.2.2 hmem (by simp), ?_⟩
    have h5 := hndI.2.1
    rw [List.nodup_cons] at h5
    exact h5.1
  have htgtJ : tgt ∉ Mj1 ∧ tgt ∉ Mj2 := by
    rw [List.nodup_append] at hndJ
    refine ⟨fun hmem => hndJ.2.2 hmem (by simp), ?_⟩
    have h5 := hndJ.2.1
    rw [List.nodup_cons] at h5
    exact h5.1
  have hndI' : (Mi1 ++ Mi2).Nodup :=
    hndI.sublist (List.Sublist.append_left (List.sublist_cons_self tgt Mi2) Mi1)
  have hndJ' : (Mj1 ++ Mj2).Nodup :=
    hndJ.sublist (List.Sublist.append_left (List.sublist_cons_self tgt Mj2) Mj1)
  have hneI : ∀ k ∈ Mi1 ++ Mi2, k ≠ tgt := by
    intro k hk h2
    subst h2
    rcases List.mem_append.mp hk with h3 | h3
    · exact htgtI.1 h3
    · exact htgtI.2 h3
  have hneJ : ∀ k ∈ Mj1 ++ Mj2, k ≠ tgt := by
    intro k hk h2
    subst h2
    rcases List.mem_append.mp hk with h3 | h3
    · exact htgtJ.1 h3
    · exact htgtJ.2 h3
  have hmemI : ∀ k ∈ Mi1 ++ Mi2, k ∈ Mi1 ++ tgt :: Mi2 := by
    intro k hk
    rcases List.mem_append.mp hk with h3 | h3
    · exact List.mem_append.mpr (Or.inl h3)
    · exact List.mem_append.mpr (Or.inr (by simp [h3]))
  have hmemJ : ∀ k ∈ Mj1 ++ Mj2, k ∈ Mj1 ++ tgt :: Mj2 := by
    intro k hk
    rcases List.mem_append.mp hk with h3 | h3
    · exact List.mem_append.mpr (Or.inl h3)
    · exact List.mem_append.mpr (Or.inr (by simp [h3]))
  have hchI3 : AmlChain G3.edges i (aml_first_edge G3 i) (Mi1 ++ Mi2) := by
    rw [hfe3]
    refine aml_chain_congr hchI2 ?_
    intro k hk
    rw [hG3e]
    exact aml_view_set_none_ne _ _ (hneI k hk)
  have hchJ3 : AmlChain G3.edges j (aml_first_edge G3 j) (Mj1 ++ Mj2) := by
    rw [hfe3]
    refine aml_chain_congr hchJ2 ?_
    intro k hk
    rw [hG3e]
    exact aml_view_set_none_ne _ _ (hneJ k hk)
  have hcanon : ∀ x, x < g.vertices.length →
      ∃ L, AmlChain G3.edges x (aml_first_edge G3 x) L ∧ L.Nodup ∧
        (∀ k ∈ L, ∀ e0, edgeAt G3.edges k = some e0 →
          e0.ivex = x ∨ e0.jvex = x) ∧
        (∀ k e0, edgeAt g.edges k = some e0 → (e0.ivex = x ∨ e0.jvex = x) →
          k ≠ tgt → k ∈ L) := by
    intro x hx
    obtain ⟨Mx, hMx, hMxnd, hMxtag⟩ := hwf.chains x hx
    by_cases hxi : x = i
    · subst hxi
      have hMxeq : Mx = Mi1 ++ tgt :: Mi2 := aml_chain_det hMx hchI
      subst hMxeq
      refine ⟨Mi1 ++ Mi2, hchI3, hndI', ?_, ?_⟩
      · intro k hk e0 h0
        obtain ⟨e1, he1, hi1, hj1⟩ := evex_transfer (hvex3 k (hneI k hk)) h0
        rw [hi1, hj1]
        exact hMxtag k (hmemI k hk) e1 he1
      · intro k e0 h0 hx0 hne
        have hmem : k ∈ Mi1 ++ tgt :: Mi2 := by
          rcases hx0 with h6 | h6
          · exact hwf.mem_i k e0 h0 _ (by rw [h6]; exact hchI)
          · exact hwf.mem_j k e0 h0 _ (by rw [h6]; exact hchI)
        rcases List.mem_append.mp hmem with h3 | h3
        · exact List.mem_append.mpr (Or.inl h3)
        · rcases List.mem_cons.mp h3 with h4 | h4
          · exact absurd h4 hne
          · exact List.mem_append.mpr (Or.inr h4)
    · by_cases hxj : x = j
      · subst hxj
        have hMxeq : Mx = Mj1 ++ tgt :: Mj2 := aml_chain_det hMx hchJ
        subst hMxeq
        refine ⟨Mj1 ++ Mj2, hchJ3, hndJ', ?_, ?_⟩
        · intro k hk e0 h0
          obtain ⟨e1, he1, hi1, hj1⟩ := evex_transfer (hvex3 k (hneJ k hk)) h0
          rw [hi1, hj1]
          exact hMxtag k (hmemJ k hk) e1 he1
        · intro k e0 h0 hx0 hne
          have hmem : k ∈ Mj1 ++ tgt :: Mj2 := by
            rcases hx0 with h6 | h6
            · exact hwf.mem_i k e0 h0 _ (by rw [h6]; exact hchJ)
            · exact hwf.mem_j k e0 h0 _ (by rw [h6]; exact hchJ)
          rcases List.mem_append.mp hmem with h3 | h3
          · exact List.mem_append.mpr (Or.inl h3)
          · rcases List.mem_cons.mp h3 with h4 | h4
            · exact absurd h4 hne
            · exact List.mem_append.mpr (Or.inr h4)
      · have hnetgt : ∀ k ∈ Mx, k ≠ tgt := by
          intro k hk h2
          subst h2
          obtain ⟨ek, hek⟩ := aml_chain_live hMx k hk
          rw [ha] at hek
          injection hek with he5
          subst he5
          have h6 := hMxtag k hk e ha
          rcases hends with ⟨h7, h8⟩ | ⟨h7, h8⟩
          · rcases h6 with h9 | h9
            · exact hxi (h9.symm.trans h7)
            · exact hxj (h9.symm.trans h8)
          · rcases h6 with h9 | h9
            · exact hxj (h9.symm.trans h7)
            · exact hxi (h9.symm.trans h8)
        have hview : ∀ k ∈ Mx, aml_view G3.edges x k = aml_view g.edges x k := by
          intro k hk
          obtain ⟨ek, hek⟩ := aml_chain_live hMx k hk
          have htagk := hMxtag k hk ek hek
          have hvne : ek.ivex ≠ ek.jvex := (hwf.edge_bounds k ek hek).2.2
          exact hview3 x k ek (hnetgt k hk) hxi hxj hek htagk hvne
        refine ⟨Mx, ?_, hMxnd, ?_, ?_⟩
        · rw [hfe3, hfe2 x hxi hxj]
          exact aml_chain_congr hMx hview
        · intro k hk e0 h0
          obtain ⟨e1, he1, hi1, hj1⟩ := evex_transfer (hvex3 k (hnetgt k hk)) h0
          rw [hi1, hj1]
          exact hMxtag k hk e1 he1
        · intro k e0 h0 hx0 hne
          rcases hx0 with h6 | h6
          · exact hwf.mem_i k e0 h0 _ (by rw [h6]; exact hMx)
          · exact hwf.mem_j k e0 h0 _ (by rw [h6]; exact hMx)
  refine ⟨⟨?_, ?_, ?_, ?_⟩, hdead⟩
  · intro x hx
    obtain ⟨L, h1, h2, h3, _⟩ := hcanon x (by rw [hvs3] at hx; exact hx)
    exact ⟨L, h1, h2, h3⟩
  · intro k e0 h0
    have hne : k ≠ tgt := by
      intro h2
      rw [h2, hdead] at h0
      exact Option.noConfusion h0
    obtain ⟨e1, he1, hi1, hj1⟩ := evex_transfer (hvex3 k hne) h0
    have h5 := hwf.edge_bounds k e1 he1
    rw [hi1, hj1, hvs3]
    exact h5
  · intro k e0 h0 L hL0
    have hne : k ≠ tgt := by
      intro h2
      rw [h2, hdead] at h0
      exact Option.noConfusion h0
    obtain ⟨e1, he1, hi1, _⟩ := evex_transfer (hvex3 k hne) h0
    have hxlt : e0.ivex < g.vertices.length := by
      rw [hi1]
      exact (hwf.edge_bounds k e1 he1).1
    obtain ⟨Lc, hc1, _, _, hc4⟩ := hcanon e0.ivex hxlt
    have heq : L = Lc := aml_chain_det hL0 hc1
    subst heq
    exact hc4 k e1 he1 (Or.inl hi1.symm) hne
  · intro k e0 h0 L hL0
    have hne : k ≠ tgt := by
      intro h2
      rw [h2, hdead] at h0
      exact Option.noConfusion h0
    obtain ⟨e1, he1, _, hj1⟩ := evex_transfer (hvex3 k hne) h0
    have hxlt : e0.jvex < g.vertices.length := by
      rw [hj1]
      exact (hwf.edge_bounds k e1 he1).2.1
    obtain ⟨Lc, hc1, _, _, hc4⟩ := hcanon e0.jvex hxlt
    have heq : L = Lc := aml_chain_det hL0 hc1
    subst heq
    exact hc4 k e1 he1 (Or.inr hj1.symm) hne

/-- `remove_edge` preserves well-formedness of the multilist, and when
its chain search finds a record, that record's slot is dead in the
result. -/
theorem aml_remove_edge_wf {g : AdjacencyMultilist T W} (hwf : AmlWf g)
    (i j : Nat) :
    AmlWf (aml_remove_edge g i j) ∧
    ∀ tgt, aml_find_edge g.edges i j g.edges.length (aml_first_edge g i)
        = some tgt →
      ¬(i ≥ g.vertices.length ∨ j ≥ g.vertices.length) →
      edgeAt (aml_remove_edge g i j).edges tgt = none := by
  by_cases hb : i ≥ g.vertices.length ∨ j ≥ g.vertices.length
  · have hrem : aml_remove_edge g i j = g := by
      unfold aml_remove_edge
      rw [if_pos hb]
    rw [hrem]
    exact ⟨hwf, fun tgt _ hb2 => absurd hb hb2⟩
  push_neg at hb
  obtain ⟨hi, hj⟩ := hb
  have hbne : ¬(i ≥ g.vertices.length ∨ j ≥ g.vertices.length) := by omega
  obtain ⟨Mi, hMi, hMind, hMitag⟩ := hwf.chains i hi
  rcases first_match_decomp (fun k => aml_pair_match g.edges i j k) Mi with
    hnone | ⟨K1, t0, K2, hdec, hm1, hmt⟩
  · have hfind : aml_find_edge g.edges i j g.edges.length (aml_first_edge g i)
        = none :=
      aml_find_edge_chain_none g.edges.length Mi (aml_first_edge g i) hMi hnone
    have hrem : aml_remove_edge g i j = g := by
      unfold aml_remove_edge
      rw [if_neg hbne]
      simp only [hfind]
    rw [hrem]
    refine ⟨hwf, ?_⟩
    intro tgt hf2 _
    rw [hfind] at hf2
    exact Option.noConfusion hf2
  · subst hdec
    have hK1len : K1.length < g.edges.length := by
      have h1 := nodup_bounded_length_le _ _ hMind (aml_chain_lt hMi)
      simp only [List.length_append, List.length_cons] at h1
      omega
    obtain ⟨e, he, hmatch, hfind⟩ := aml_find_edge_chain_found K1
      (aml_first_edge g i) t0 K2 hMi hm1 hmt g.edges.length hK1len
    have hends : (e.ivex = i ∧ e.jvex = j) ∨ (e.ivex = j ∧ e.jvex = i) := by
      simpa only [Bool.or_eq_true, Bool.and_eq_true, beq_iff_eq] using hmatch
    have hvne : e.ivex ≠ e.jvex := (hwf.edge_bounds t0 e he).2.2
    have hij : i ≠ j := by
      intro h9
      rcases hends with ⟨h7, h8⟩ | ⟨h7, h8⟩
      · exact hvne ((h7.trans h9).trans h8.symm)
      · exact hvne ((h7.trans h9.symm).trans h8.symm)
    obtain ⟨g1, hrfv1, hvs1, hlen1, hchI1, hfe1, hview1, hvex1, hat1⟩ :=
      aml_rfv_ok he hMi hMind hMitag
    obtain ⟨Mj, hMj, hMjnd, hMjtag⟩ := hwf.chains j hj
    have htgtMj : t0 ∈ Mj := by
      rcases hends with ⟨h7, h8⟩ | ⟨h7, h8⟩
      · exact hwf.mem_j t0 e he _ (by rw [h8]; exact hMj)
      · exact hwf.mem_i t0 e he _ (by rw [h7]; exact hMj)
    obtain ⟨Mj1, Mj2, hMjdec, hMj1n, hMj2n⟩ := nodup_mem_decomp hMjnd htgtMj
    subst hMjdec
    have hchJ1 : AmlChain g1.edges j (aml_first_edge g1 j) (Mj1 ++ t0 :: Mj2) := by
      rw [hfe1 j (Ne.symm hij)]
      refine aml_chain_congr hMj ?_
      intro k hk
      obtain ⟨ek, hek⟩ := aml_chain_live hMj k hk
      exact hview1 j k ek (Ne.symm hij) hek (hMjtag k hk ek hek)
        (hwf.edge_bounds k ek hek).2.2
    have htagJ1 : ∀ k ∈ Mj1 ++ t0 :: Mj2, ∀ e0, edgeAt g1.edges k = some e0 →
        e0.ivex = j ∨ e0.jvex = j := by
      intro k hk e0 h0
      obtain ⟨e2, he2, hi2, hj2⟩ := evex_transfer (hvex1 k) h0
      rw [hi2, hj2]
      exact hMjtag k hk e2 he2
    obtain ⟨g2, hrfv2, hvs2g, hlen2g, hchJ2, hfe2g, hview2g, hvex2g, hat2⟩ :=
      aml_rfv_ok hat1 hchJ1 hMjnd htagJ1
    have hchI2 : AmlChain g2.edges i (aml_first_edge g2 i) (K1 ++ K2) := by
      rw [hfe2g i hij]
      refine aml_chain_congr hchI1 ?_
      intro k hk
      obtain ⟨ek, hek⟩ := aml_chain_live hchI1 k hk
      obtain ⟨e2, he2, hi2, hj2⟩ := evex_transfer (hvex1 k) hek
      have htagk : ek.ivex = i ∨ ek.jvex = i := by
        rw [hi2, hj2]
        have hmemk : k ∈ K1 ++ t0 :: K2 := by
          rcases List.mem_append.mp hk with h3 | h3
          · exact List.mem_append.mpr (Or.inl h3)
          · exact List.mem_append.mpr (Or.inr (by simp [h3]))
        exact hMitag k hmemk e2 he2
      have hvnek : ek.ivex ≠ ek.jvex := by
        rw [hi2, hj2]
        exact (hwf.edge_bounds k e2 he2).2.2
      exact hview2g i k ek hij hek htagk hvnek
    have hvs2 : g2.vertices.length = g.vertices.length := hvs2g.trans hvs1
    have hlen2 : g2.edges.length = g.edges.length := hlen2g.trans hlen1
    have hview2 : ∀ y k e0, y ≠ i → y ≠ j → edgeAt g.edges k = some e0 →
        (e0.ivex = y ∨ e0.jvex = y) → e0.ivex ≠ e0.jvex →
        aml_view g2.edges y k = aml_view g.edges y k := by
      intro y k e0 hyi hyj h0 hyends hvne0
      obtain ⟨e1, he1, hi1, hj1⟩ := evex_transfer (hvex1 k).symm h0
      have h5 := hview2g y k e1 hyj he1
        (by rw [← hi1, ← hj1]; exact hyends) (by rw [← hi1, ← hj1]; exact hvne0)
      rw [h5]
      exact hview1 y k e0 hyi h0 hyends hvne0
    have hvex2 : ∀ k, (edgeAt g2.edges k).map (fun e0 => (e0.ivex, e0.jvex))
        = (edgeAt g.edges k).map (fun e0 => (e0.ivex, e0.jvex)) :=
      fun k => (hvex2g k).trans (hvex1 k)
    have hfe2 : ∀ y, y ≠ i → y ≠ j → aml_first_edge g2 y = aml_first_edge g y :=
      fun y hyi hyj => (hfe2g y hyj).trans (hfe1 y hyi)
    have hrem : aml_remove_edge g i j
        = { g2 with
            edges := g2.edges.set t0 none
            edge_count := g2.edge_count - 1 } := by
      unfold aml_remove_edge
      rw [if_neg hbne]
      simp only [hfind, hrfv1, hrfv2]
    obtain ⟨hwf3, hdead3⟩ := aml_stage3 hwf he hends hij hMi hMind hMj hMjnd
      hvs2 hlen2 hchI2 hchJ2 hview2 hvex2 hfe2
      (show ({ g2 with
        edges := g2.edges.set t0 none
        edge_count := g2.edge_count - 1 } : AdjacencyMultilist T W).vertices
          = g2.vertices from rfl) rfl
    rw [hrem]
    refine ⟨hwf3, ?_⟩
    intro tgt hf2 _
    rw [hfind] at hf2
    injection hf2 with h2
    rw [← h2]
    exact hdead3

/-- C2: after `remove_edge` removes a record, it is gone from the chains
of both endpoints — in fact from every chain — every remaining chain is
a complete `nil`-terminated walk through live slots, and both splices
happen together (well-formedness is preserved, never a partial splice). -/
theorem c2_remove_edge_splices_both_chains (T W : Type) :
    (∀ (g : OrthogonalList T W) (u v : Nat), OLWf g →
      OLWf (ol_remove_edge g u v) ∧
      (∀ prev tgt nl,
        ol_find_out g.arcs v g.arcs.length none (ol_first_out g u)
          = (prev, some tgt, nl) →
        ¬(u ≥ g.vertices.length ∨ v ≥ g.vertices.length) →
        arcAt (ol_remove_edge g u v).arcs tgt = none ∧
        (∀ x L, OutChain (ol_remove_edge g u v).arcs
          (ol_first_out (ol_remove_edge g u v) x) L → tgt ∉ L) ∧
        (∀ x L, InChain (ol_remove_edge g u v).arcs
          (ol_first_in (ol_remove_edge g u v) x) L → tgt ∉ L))) ∧
    (∀ (g : AdjacencyMultilist T W) (i j : Nat), AmlWf g →
      AmlWf (aml_remove_edge g i j) ∧
      (∀ tgt,
        aml_find_edge g.edges i j g.edges.length (aml_first_edge g i)
          = some tgt →
        ¬(i ≥ g.vertices.length ∨ j ≥ g.vertices.length) →
        edgeAt (aml_remove_edge g i j).edges tgt = none ∧
        (∀ x L, AmlChain (aml_remove_edge g i j).edges x
          (aml_first_edge (aml_remove_edge g i j) x) L → tgt ∉ L))) := by
  constructor
  · intro g u v hwf
    obtain ⟨hwf3, hdead⟩ := ol_remove_edge_wf hwf u v
    refine ⟨hwf3, ?_⟩
    intro prev tgt nl hf hb
    have hd := hdead prev tgt nl hf hb
    exact ⟨hd, fun x L hL => out_chain_not_dead hL hd,
      fun x L hL => in_chain_not_dead hL hd⟩
  · intro g i j hwf
    obtain ⟨hwf3, hdead⟩ := aml_remove_edge_wf hwf i j
    refine ⟨hwf3, ?_⟩
    intro tgt hf hb
    have hd := hdead tgt hf hb
    exact ⟨hd, fun x L hL => aml_chain_not_dead hL hd⟩

theorem ol_demo_out0 : OutChain ol_demo.arcs (ol_first_out ol_demo 0) [0] := by
  rw [show ol_first_out ol_demo 0 = some 0 from rfl]
  exact OutChain.cons (a := ⟨0, 1, none, none, 7⟩) rfl OutChain.nil

theorem ol_demo_in1 : InChain ol_demo.arcs (ol_first_in ol_demo 1) [0] := by
  rw [show ol_first_in ol_demo 1 = some 0 from rfl]
  exact InChain.cons (a := ⟨0, 1, none, none, 7⟩) rfl InChain.nil

theorem ol_demo_wf : OLWf ol_demo := by
  refine ⟨?_, ?_, ?_, ?_, ?_⟩
  · intro u hu
    match u, hu with
    | 0, _ =>
      refine ⟨[0], ol_demo_out0, by simp, ?_⟩
      intro i hi a hA
      have h1 : i = 0 := by simpa using hi
      subst h1
      rw [show arcAt ol_demo.arcs 0 = some ⟨0, 1, none, none, 7⟩ from rfl] at hA
      injection hA with h2
      rw [← h2]
    | 1, _ =>
      refine ⟨[], ?_, by simp, by simp⟩
      rw [show ol_first_out ol_demo 1 = none from rfl]
      exact OutChain.nil
    | n + 2, h => exact absurd h (by simp [ol_demo])
  · intro u hu
    match u, hu with
    | 0, _ =>
      refine ⟨[], ?_, by simp, by simp⟩
      rw [show ol_first_in ol_demo 0 = none from rfl]
      exact InChain.nil
    | 1, _ =>
      refine ⟨[0], ol_demo_in1, by simp, ?_⟩
      intro i hi a hA
      have h1 : i = 0 := by simpa using hi
      subst h1
      rw [show arcAt ol_demo.arcs 0 = some ⟨0, 1, none, none, 7⟩ from rfl] at hA
      injection hA with h2
      rw [← h2]
    | n + 2, h => exact absurd h (by simp [ol_demo])
  · intro i a hA
    cases i with
    | zero =>
      rw [show arcAt ol_demo.arcs 0 = some ⟨0, 1, none, none, 7⟩ from rfl] at hA
      injection hA with h2
      rw [← h2]
      exact ⟨by simp [ol_demo], by simp [ol_demo]⟩
    | succ n =>
      rw [show arcAt ol_demo.arcs (n + 1) = none from rfl] at hA
      exact Option.noConfusion hA
  · intro i a hA L hL
    cases i with
    | zero =>
      rw [show arcAt ol_demo.arcs 0 = some ⟨0, 1, none, none, 7⟩ from rfl] at hA
      injection hA with h2
      subst h2
      rw [out_chain_det hL ol_demo_out0]
      simp
    | succ n =>
      rw [show arcAt ol_demo.arcs (n + 1) = none from rfl] at hA
      exact Option.noConfusion hA
  · intro i a hA L hL
    cases i with
    | zero =>
      rw [show arcAt ol_demo.arcs 0 = some ⟨0, 1, none, none, 7⟩ from rfl] at hA
      injection hA with h2
      subst h2
      rw [in_chain_det hL ol_demo_in1]
      simp
    | succ n =>
      rw [show arcAt ol_demo.arcs (n + 1) = none from rfl] at hA
      exact Option.noConfusion hA

theorem aml_demo_chain0 :
    AmlChain aml_demo.edges 0 (aml_first_edge aml_demo 0) [0] := by
  rw [show aml_first_edge aml_demo 0 = some 0 from rfl]
  refine AmlChain.cons (e := ⟨0, 1, none, none, 5⟩) rfl ?_
  exact AmlChain.nil

theorem aml_demo_chain1 :
    AmlChain aml_demo.edges 1 (aml_first_edge aml_demo 1) [0] := by
  rw [show aml_first_edge aml_demo 1 = some 0 from rfl]
  refine AmlChain.cons (e := ⟨0, 1, none, none, 5⟩) rfl ?_
  exact AmlChain.nil

theorem aml_demo_wf : AmlWf aml_demo := by
  refine ⟨?_, ?_, ?_, ?_⟩
  · intro u hu
    match u, hu with
    | 0, _ =>
      refine ⟨[0], aml_demo_chain0, by simp, ?_⟩
      intro i hi e hE
      have h1 : i = 0 := by simpa using hi
      subst h1
      rw [show edgeAt aml_demo.edges 0 = some ⟨0, 1, none, none, 5⟩ from rfl] at hE
      injection hE with h2
      rw [← h2]
      exact Or.inl rfl
    | 1, _ =>
      refine ⟨[0], aml_demo_chain1, by simp, ?_⟩
      intro i hi e hE
      have h1 : i = 0 := by simpa using hi
      subst h1
      rw [show edgeAt aml_demo.edges 0 = some ⟨0, 1, none, none, 5⟩ from rfl] at hE
      injection hE with h2
      rw [← h2]
      exact Or.inr rfl
    | n + 2, h => exact absurd h (by simp [aml_demo])
  · intro i e hE
    cases i with
    | zero =>
      rw [show edgeAt aml_demo.edges 0 = some ⟨0, 1, none, none, 5⟩ from rfl] at hE
      injection hE with h2
      rw [← h2]
      refine ⟨by simp [aml_demo], by simp [aml_demo], by simp⟩
    | succ n =>
      rw [show edgeAt aml_demo.edges (n + 1) = none from rfl] at hE
      exact Option.noConfusion hE
  · intro i e hE L hL
    cases i with
    | zero =>
      rw [show edgeAt aml_demo.edges 0 = some ⟨0, 1, none, none, 5⟩ from rfl] at hE
      injection hE with h2
      subst h2
      rw [aml_chain_det hL aml_demo_chain0]
      simp
    | succ n =>
      rw [show edgeAt aml_demo.edges (n + 1) = none from rfl] at hE
      exact Option.noConfusion hE
  · intro i e hE L hL
    cases i with
    | zero =>
      rw [show edgeAt aml_demo.edges 0 = some ⟨0, 1, none, none, 5⟩ from rfl] at hE
      injection hE with h2
      subst h2
      rw [aml_chain_det hL aml_demo_chain1]
      simp
    | succ n =>
      rw [show edgeAt aml_demo.edges (n + 1) = none from rfl] at hE
      exact Option.noConfusion hE

/-- Witness for C2 on the one-arc orthogonal list and the one-record
multilist: removing the only edge keeps both structures well formed and
kills the slot. -/
theorem c2_remove_edge_splices_both_chains_witness :
    OLWf (ol_remove_edge ol_demo 0 1) ∧
    arcAt (ol_remove_edge ol_demo 0 1).arcs 0 = none ∧
    AmlWf (aml_remove_edge aml_demo 0 1) ∧
    edgeAt (aml_remove_edge aml_demo 0 1).edges 0 = none := by
  obtain ⟨hOL, hAML⟩ := c2_remove_edge_splices_both_chains Nat Nat
  obtain ⟨h1, h2⟩ := hOL ol_demo 0 1 ol_demo_wf
  obtain ⟨h3, h4⟩ := hAML aml_demo 0 1 aml_demo_wf
  obtain ⟨hd, _, _⟩ := h2 none 0 none rfl (by decide)
  obtain ⟨hda, _⟩ := h4 0 rfl (by decide)
  exact ⟨h1, hd, h3, hda⟩

end LearnRust
